import Mathlib

/-! # cbuffer: a circular buffer stored as a chain of heap nodes

Shallow embedding of `cbuffer.h`.  The class keeps three fields (`_head`,
`_end`, `_size`) and a singly linked chain of `item` nodes on the free store,
closed by a dummy node `_end`.  The embedding makes the free store explicit:

* a pointer is a natural number, `0` is the null pointer;
* the free store is a list of cells, address `a + 1` names cell `a`; a cell is
  `none` once its node has been deleted, and addresses are never reused;
* every dereference checks its pointer, so a null pointer, a deleted node or
  an address never allocated surfaces as a `Fault` instead of being silently
  undefined;
* `new` may throw `std::bad_alloc`: the free store carries the number of
  allocations that can still succeed (`none`: memory never runs out).

Loop counters (`int n`, `int csize`, `int i`) are natural numbers: they stay
below the number of nodes on the free store.  `max_size` alone converts the
32-bit unsigned `_size` to `int`.
-/

namespace CBuffer

/-! ## Free store -/

/-- Ways an execution can leave defined behaviour (or abort on `assert`). -/
inductive Fault where
  | null_deref
  | use_after_free
  | wild_pointer
  | indeterminate
  | assert_failed
  | no_fuel
  deriving DecidableEq, Repr

/-- Result of a member function that may allocate: normal return, a
`std::bad_alloc` leaving the call (with the state at the throw), or a fault. -/
inductive Outcome (α : Type) where
  | ok (a : α)
  | threw (a : α)
  | fault (f : Fault)
  deriving DecidableEq, Repr

/-- Node of the chain, `struct item`.  `value` is `none` for a node built by
`item(item *i)`, which leaves the value member without a given value. -/
structure item (T : Type) where
  value : Option T
  next : Nat
  deriving DecidableEq, Repr

/-- The free store. -/
structure Heap (T : Type) where
  cells : List (Option (item T))
  avail : Option Nat
  deriving DecidableEq, Repr

variable {T : Type}

/-- Free store with no node, on which allocation never fails. -/
def Heap.empty : Heap T := ⟨[], none⟩

/-- Dereference of `p` (for reading). -/
def Heap.read (h : Heap T) (p : Nat) : Except Fault (item T) :=
  match p with
  | 0 => .error .null_deref
  | a + 1 =>
    match h.cells[a]? with
    | none => .error .wild_pointer
    | some none => .error .use_after_free
    | some (some it) => .ok it

/-- Replace the cell named by `p` (no check; `0` names no cell). -/
def Heap.store (h : Heap T) (p : Nat) (c : Option (item T)) : Heap T :=
  match p with
  | 0 => h
  | a + 1 => { h with cells := h.cells.set a c }

/-- Store through `p`: the node at `p` becomes `it`. -/
def Heap.write (h : Heap T) (p : Nat) (it : item T) : Except Fault (Heap T) :=
  match h.read p with
  | .error f => .error f
  | .ok _ => .ok (h.store p (some it))

/-- Assignment `p->next = n`. -/
def Heap.setNext (h : Heap T) (p n : Nat) : Except Fault (Heap T) :=
  match h.read p with
  | .error f => .error f
  | .ok it => h.write p { it with next := n }

/-- Assignment `p->value = v`. -/
def Heap.setValue (h : Heap T) (p : Nat) (v : T) : Except Fault (Heap T) :=
  match h.read p with
  | .error f => .error f
  | .ok it => h.write p { it with value := some v }

/-- Expression `delete p`; deleting the null pointer does nothing. -/
def Heap.delete (h : Heap T) (p : Nat) : Except Fault (Heap T) :=
  if p = 0 then .ok h else
  match h.read p with
  | .error f => .error f
  | .ok _ => .ok (h.store p none)

/-- Expression `new item(...)`: `none` when `std::bad_alloc` is thrown,
otherwise the fresh address and the extended free store. -/
def Heap.alloc (h : Heap T) (it : item T) : Option (Nat × Heap T) :=
  match h.avail with
  | some 0 => none
  | some (k + 1) => some (h.cells.length + 1, ⟨h.cells ++ [some it], some k⟩)
  | none => some (h.cells.length + 1, ⟨h.cells ++ [some it], none⟩)

/-! ## The class -/

/-- Data members of `cbuffer<T>`. -/
structure cbuffer where
  _head : Nat
  _end : Nat
  _size : Nat
  deriving DecidableEq, Repr

/-- Constructor `cbuffer(unsigned int size)`; `_size` is a 32-bit unsigned. -/
def cbuffer.new (size : Nat) : cbuffer := ⟨0, 0, size % 2 ^ 32⟩

/-- Default constructor `cbuffer()`. -/
def cbuffer.default : cbuffer := ⟨0, 0, 0⟩

/-- Loop of `insert`: `while(tmp->next != _end && n<_size) { tmp = tmp->next; n++; }`.
It runs fewer than `_size` times, so `_size + 1` units of fuel are enough. -/
def insert_loop (h : Heap T) (e size : Nat) : Nat → Nat → Nat → Except Fault (Nat × Nat)
  | 0, _, _ => .error .no_fuel
  | fuel + 1, tmp, n =>
    match h.read tmp with
    | .error f => .error f
    | .ok it =>
      if it.next ≠ e ∧ n < size then insert_loop h e size fuel it.next (n + 1)
      else .ok (tmp, n)

/-- Member `void insert(const T &value)`. -/
def insert (value : T) (b : cbuffer) (h : Heap T) : Outcome (cbuffer × Heap T) :=
  match h.alloc ⟨some value, b._end⟩ with
  | none => .threw (b, h)
  | some (i, h1) =>
    if b._head = 0 ∧ b._size > 0 then
      match h1.alloc ⟨none, i⟩ with
      | none => .threw ({ b with _head := i }, h1)
      | some (e, h2) =>
        match h2.setNext i e with
        | .error f => .fault f
        | .ok h3 => .ok ({ b with _head := i, _end := e }, h3)
    else
      match insert_loop h1 b._end b._size (b._size + 1) b._head 1 with
      | .error f => .fault f
      | .ok (tmp, n) =>
        if n < b._size then
          match h1.setNext tmp i with
          | .error f => .fault f
          | .ok h2 => .ok (b, h2)
        else if n = b._size then
          match h1.read b._head with
          | .error f => .fault f
          | .ok hd =>
            match h1.delete b._head with
            | .error f => .fault f
            | .ok h2 =>
              match h2.setNext b._end hd.next with
              | .error f => .fault f
              | .ok h3 =>
                match h3.setNext tmp i with
                | .error f => .fault f
                | .ok h4 => .ok ({ b with _head := hd.next }, h4)
        else .ok (b, h1)

/-- Loop of `clear`: `while (tmp != _end) { item *n = tmp->next; delete tmp; tmp = n; }`.
Every round deletes a node, so the number of cells bounds the rounds. -/
def clear_loop (e : Nat) : Nat → Heap T → Nat → Except Fault (Heap T)
  | 0, _, _ => .error .no_fuel
  | fuel + 1, h, tmp =>
    if tmp = e then .ok h else
    match h.read tmp with
    | .error f => .error f
    | .ok it =>
      match h.delete tmp with
      | .error f => .error f
      | .ok h1 => clear_loop e fuel h1 it.next

/-- Member `void clear()`. -/
def clear (b : cbuffer) (h : Heap T) : Except Fault (cbuffer × Heap T) :=
  if b._head = 0 then .ok (b, h) else
  match clear_loop b._end (h.cells.length + 1) h b._head with
  | .error f => .error f
  | .ok h1 => .ok ({ b with _head := 0 }, h1)

/-- Member `void delete_head()`. -/
def delete_head (b : cbuffer) (h : Heap T) : Except Fault (cbuffer × Heap T) :=
  if b._head = 0 then .ok (b, h) else
  match h.read b._head with
  | .error f => .error f
  | .ok hd =>
    match h.delete b._head with
    | .error f => .error f
    | .ok h1 =>
      match h1.setNext b._end hd.next with
      | .error f => .error f
      | .ok h2 => .ok ({ b with _head := hd.next }, h2)

/-- Member `int max_size() const`: the unsigned `_size` converted to `int`. -/
def max_size (b : cbuffer) : Int :=
  if b._size % 2 ^ 32 < 2 ^ 31 then ((b._size % 2 ^ 32 : Nat) : Int)
  else ((b._size % 2 ^ 32 : Nat) : Int) - 2 ^ 32

/-- Loop of `get_size`: `while(tmp != _end) { tmp = tmp->next; csize++; }`.
A walk longer than the number of cells has entered a cycle that misses
`_end`; it is cut off with `no_fuel`. -/
def size_loop (h : Heap T) (e : Nat) : Nat → Nat → Nat → Except Fault Nat
  | 0, _, _ => .error .no_fuel
  | fuel + 1, tmp, csize =>
    if tmp = e then .ok csize else
    match h.read tmp with
    | .error f => .error f
    | .ok it => size_loop h e fuel it.next (csize + 1)

/-- Member `int get_size() const`. -/
def get_size (b : cbuffer) (h : Heap T) : Except Fault Nat :=
  if b._head = 0 then .ok 0 else size_loop h b._end (h.cells.length + 1) b._head 0

/-- Loop of `operator[]`: `for(int i=0; i<index; i++) tmp = tmp->next;`. -/
def index_loop (h : Heap T) : Nat → Nat → Except Fault Nat
  | 0, tmp => .ok tmp
  | k + 1, tmp =>
    match h.read tmp with
    | .error f => .error f
    | .ok it => index_loop h k it.next

/-- Member `operator[]` (both overloads have the same body): the address of
the node whose `value` the returned reference designates. -/
def index_ref (b : cbuffer) (h : Heap T) (index : Nat) : Except Fault Nat :=
  match get_size b h with
  | .error f => .error f
  | .ok sz =>
    if index < sz then
      match index_loop h index b._head with
      | .error f => .error f
      | .ok tmp =>
        match h.read tmp with
        | .error f => .error f
        | .ok _ => .ok tmp
    else .error .assert_failed

/-- Reading `b[index]`. -/
def index_get (b : cbuffer) (h : Heap T) (index : Nat) : Except Fault T :=
  match index_ref b h index with
  | .error f => .error f
  | .ok tmp =>
    match h.read tmp with
    | .error f => .error f
    | .ok it =>
      match it.value with
      | none => .error .indeterminate
      | some v => .ok v

/-- Assignment `b[index] = v` through the mutable overload. -/
def index_set (b : cbuffer) (h : Heap T) (index : Nat) (v : T) : Except Fault (Heap T) :=
  match index_ref b h index with
  | .error f => .error f
  | .ok tmp => h.setValue tmp v

/-- Loop of the copy constructor:
`while(tmp != other._end) { insert(tmp->value); tmp = tmp->next; }`.
The chain of `other` has no more nodes than the free store has cells when
the loop starts, which bounds the rounds. -/
def copy_loop (e : Nat) : Nat → Nat → cbuffer → Heap T → Outcome (cbuffer × Heap T)
  | 0, _, _, _ => .fault .no_fuel
  | fuel + 1, tmp, b, h =>
    if tmp = e then .ok (b, h) else
    match h.read tmp with
    | .error f => .fault f
    | .ok it =>
      match it.value with
      | none => .fault .indeterminate
      | some v =>
        match insert v b h with
        | .fault f => .fault f
        | .threw s => .threw s
        | .ok (b1, h1) =>
          match h1.read tmp with
          | .error f => .fault f
          | .ok it1 => copy_loop e fuel it1.next b1 h1

/-- Handler `catch(...) { clear(); throw; }` of the two filling constructors. -/
def rethrow_cleared (o : Outcome (cbuffer × Heap T)) : Outcome (cbuffer × Heap T) :=
  match o with
  | .threw (b, h) =>
    match clear b h with
    | .error f => .fault f
    | .ok s => .threw s
  | o => o

/-- Copy constructor `cbuffer(const cbuffer &other)`. -/
def copy (other : cbuffer) (h : Heap T) : Outcome (cbuffer × Heap T) :=
  if other._head = 0 then .ok (⟨0, 0, other._size⟩, h) else
  rethrow_cleared (copy_loop other._end (h.cells.length + 1) other._head ⟨0, 0, other._size⟩ h)

/-- Loop of the range constructor: `for(; begin!=end; ++begin) insert(static_cast<T>(*begin));`
over a source sequence given as the list of its values. -/
def range_loop : List T → cbuffer → Heap T → Outcome (cbuffer × Heap T)
  | [], b, h => .ok (b, h)
  | v :: vs, b, h =>
    match insert v b h with
    | .ok (b1, h1) => range_loop vs b1 h1
    | o => o

/-- Range constructor `cbuffer(unsigned int size, IterT begin, IterT end)`. -/
def range (size : Nat) (src : List T) (h : Heap T) : Outcome (cbuffer × Heap T) :=
  rethrow_cleared (range_loop src (cbuffer.new size) h)

/-! ## Iterators -/

/-- Data members of `cbuffer<T>::iterator`. -/
structure iterator where
  i : Nat
  i_end : Nat
  deriving DecidableEq, Repr

/-- Data members of `cbuffer<T>::const_iterator`. -/
structure const_iterator where
  i : Nat
  i_end : Nat
  deriving DecidableEq, Repr

/-- Member `iterator begin()`. -/
def cbuffer.begin (b : cbuffer) : iterator := ⟨b._head, b._end⟩

/-- Member `iterator end()`. -/
def cbuffer.end_ (b : cbuffer) : iterator := ⟨b._end, b._end⟩

/-- Member `const_iterator begin() const`. -/
def cbuffer.cbegin (b : cbuffer) : const_iterator := ⟨b._head, b._end⟩

/-- Member `const_iterator end() const`. -/
def cbuffer.cend (b : cbuffer) : const_iterator := ⟨b._end, b._end⟩

/-- Member `iterator::operator*`. -/
def iterator.deref (h : Heap T) (it : iterator) : Except Fault T :=
  if it.i = it.i_end then .error .assert_failed else
  match h.read it.i with
  | .error f => .error f
  | .ok n =>
    match n.value with
    | none => .error .indeterminate
    | some v => .ok v

/-- Member `iterator::operator++()`. -/
def iterator.incr (h : Heap T) (it : iterator) : Except Fault iterator :=
  match h.read it.i with
  | .error f => .error f
  | .ok n => .ok { it with i := n.next }

/-- Member `const_iterator::operator*`. -/
def const_iterator.deref (h : Heap T) (it : const_iterator) : Except Fault T :=
  if it.i = it.i_end then .error .assert_failed else
  match h.read it.i with
  | .error f => .error f
  | .ok n =>
    match n.value with
    | none => .error .indeterminate
    | some v => .ok v

/-- Member `const_iterator::operator++()`. -/
def const_iterator.incr (h : Heap T) (it : const_iterator) : Except Fault const_iterator :=
  match h.read it.i with
  | .error f => .error f
  | .ok n => .ok { it with i := n.next }

/-- The traversal `for(i=b.begin(), ie=b.end(); i!=ie; ++i) visit(*i);` as used
by the tests: the values visited, in order.  `operator!=` compares the `i`
members only. -/
def traverse_loop (h : Heap T) (ie : iterator) : Nat → iterator → Except Fault (List T)
  | 0, _ => .error .no_fuel
  | fuel + 1, it =>
    if it.i = ie.i then .ok [] else
    match it.deref h with
    | .error f => .error f
    | .ok v =>
      match it.incr h with
      | .error f => .error f
      | .ok it1 =>
        match traverse_loop h ie fuel it1 with
        | .error f => .error f
        | .ok vs => .ok (v :: vs)

/-- Traversal of a whole buffer with the `iterator` pair. -/
def traverse (b : cbuffer) (h : Heap T) : Except Fault (List T) :=
  traverse_loop h b.end_ (h.cells.length + 1) b.begin

/-- The same traversal with the `const_iterator` pair, as in `operator<<`. -/
def const_traverse_loop (h : Heap T) (ie : const_iterator) :
    Nat → const_iterator → Except Fault (List T)
  | 0, _ => .error .no_fuel
  | fuel + 1, it =>
    if it.i = ie.i then .ok [] else
    match it.deref h with
    | .error f => .error f
    | .ok v =>
      match it.incr h with
      | .error f => .error f
      | .ok it1 =>
        match const_traverse_loop h ie fuel it1 with
        | .error f => .error f
        | .ok vs => .ok (v :: vs)

/-- Traversal of a whole buffer with the `const_iterator` pair. -/
def const_traverse (b : cbuffer) (h : Heap T) : Except Fault (List T) :=
  const_traverse_loop h b.cend (h.cells.length + 1) b.cbegin

/-! ## Call sequences -/

/-- A call of one of the three mutating members. -/
inductive Op (T : Type) where
  | insert (v : T)
  | delete_head
  | clear
  deriving DecidableEq, Repr

/-- One call on the buffer `b` in the free store `h`. -/
def step (op : Op T) (b : cbuffer) (h : Heap T) : Outcome (cbuffer × Heap T) :=
  match op with
  | .insert v => insert v b h
  | .delete_head =>
    match delete_head b h with
    | .error f => .fault f
    | .ok s => .ok s
  | .clear =>
    match clear b h with
    | .error f => .fault f
    | .ok s => .ok s

/-- A sequence of calls, stopped by the first one that does not return. -/
def run : List (Op T) → cbuffer → Heap T → Outcome (cbuffer × Heap T)
  | [], b, h => .ok (b, h)
  | op :: ops, b, h =>
    match step op b h with
    | .ok (b1, h1) => run ops b1 h1
    | o => o

/-- The values passed to `insert` by a call sequence, in call order. -/
def inserted : List (Op T) → List T
  | [] => []
  | .insert v :: ops => v :: inserted ops
  | _ :: ops => inserted ops

/-- The logical contents read through `operator[]` at positions
`0 .. get_size()-1`. -/
def contents (b : cbuffer) (h : Heap T) : Except Fault (List T) :=
  match get_size b h with
  | .error f => .error f
  | .ok sz => (List.range sz).mapM (index_get b h)

/-! ## Shape of the chain

The predicates of this section are not code of the class: they describe the
states the class reaches, and the proofs below show that every returning call
leads from one of them to one of them. -/

/-- Following `next` from `p` passes exactly the nodes `ns` (address and stored
value, in order) and arrives at `q`. -/
def Seg (h : Heap T) : Nat → Nat → List (Nat × T) → Prop
  | p, q, [] => p = q
  | p, q, n :: ns => p = n.1 ∧ ∃ nx, h.read n.1 = .ok ⟨some n.2, nx⟩ ∧ Seg h nx q ns

/-- The three shapes a buffer takes between calls: no chain at all
(`_head == 0`), a chain of element nodes from `_head` to the dummy node, or
`_head` on the dummy node itself with nodes hanging behind it. -/
inductive Shape (T : Type) where
  | empty
  | filled (ns : List (Nat × T))
  | drained (js : List (Nat × T))

/-- The elements a buffer of the given shape holds, oldest first. -/
def Shape.vals : Shape T → List T
  | .filled ns => ns.map Prod.snd
  | _ => []

/-- The nodes a buffer of the given shape reads or writes. -/
def Shape.owned (b : cbuffer) : Shape T → List Nat
  | .empty => []
  | .filled ns => b._end :: ns.map Prod.fst
  | .drained js => b._end :: js.map Prod.fst

/-- The buffer `b` has the shape `s` in the free store `h`. -/
def Rep (b : cbuffer) (h : Heap T) : Shape T → Prop
  | .empty => b._head = 0
  | .filled ns =>
    ns ≠ [] ∧ Seg h b._head b._end ns ∧ (∃ x, h.read b._end = .ok ⟨x, b._head⟩) ∧
      (b._end :: ns.map Prod.fst).Nodup ∧ ns.length ≤ b._size
  | .drained js =>
    b._head = b._end ∧ (∃ x nx, h.read b._end = .ok ⟨x, nx⟩ ∧ Seg h nx b._end js) ∧
      (b._end :: js.map Prod.fst).Nodup ∧ js.length < b._size

/-- The free store `h1` extends `h` and differs from it on old cells only
inside `own`. -/
def Frame (h h1 : Heap T) (own : List Nat) : Prop :=
  h.cells.length ≤ h1.cells.length ∧
    ∀ q, q ≤ h.cells.length → q ∉ own → h1.read q = h.read q

/-- Shape left by `delete_head` when `rest` are the nodes behind the first:
with none left, `_head` is on the dummy node. -/
def Shape.afterHead (rest : List (Nat × T)) : Shape T :=
  match rest with
  | [] => .drained []
  | _ :: _ => .filled rest

/-! ## The scenario of `test_cbuffer_int` -/

/-- The calls of `test_cbuffer_int` up to its second assertion: capacity 5,
values 1, 20, 99, 34, 71, 12, 55. -/
def test_int_calls : List (Op Nat) :=
  [.insert 1, .insert 20, .insert 99, .insert 34, .insert 71, .insert 12, .insert 55]

/-- The buffer `cb` of `test_cbuffer_int` after those calls. -/
def test_int_cb : cbuffer := ⟨4, 2, 5⟩

/-- The free store of `test_cbuffer_int` after those calls. -/
def test_int_heap : Heap Nat :=
  ⟨[none, some ⟨none, 4⟩, none, some ⟨some 99, 5⟩, some ⟨some 34, 6⟩, some ⟨some 71, 7⟩,
    some ⟨some 12, 8⟩, some ⟨some 55, 2⟩], none⟩

/-! ## Destruction and assignment -/

/-- Destructor `~cbuffer()`: `clear(); if(_end!= 0) { delete _end; _end = 0; } _size = 0;`.
The members of the dying object are dropped with it; what remains is the free
store. -/
def destroy (b : cbuffer) (h : Heap T) : Except Fault (Heap T) :=
  match clear b h with
  | .error f => .error f
  | .ok (b1, h1) => if b1._end ≠ 0 then h1.delete b1._end else .ok h1

/-- Member `operator=` on the path `this != &other`: `cbuffer tmp(other);`, the
three `std::swap`s, and the destruction of `tmp`, which by then holds the old
members of `*this`.  When the copy constructor throws, no swap has happened
and `tmp` never existed, so `*this` keeps its members. -/
def assign (this other : cbuffer) (h : Heap T) : Outcome (cbuffer × Heap T) :=
  match copy other h with
  | .fault f => .fault f
  | .threw (_, h1) => .threw (this, h1)
  | .ok (tmp, h1) =>
    match destroy this h1 with
    | .error f => .fault f
    | .ok h2 => .ok (tmp, h2)

/-! ## Programs over several buffers

The objects of a program are the entries of a list, named by their position;
their nodes share one free store. -/

/-- One statement of a program over several buffers: a declaration with one
of the four constructors (the new object takes the next position), a call of
a member on the object at position `i`, or the assignment
`objs[i] = objs[j]`. -/
inductive Act (T : Type) where
  | construct (size : Nat)
  | construct_default
  | construct_copy (j : Nat)
  | construct_range (size : Nat) (src : List T)
  | insert (i : Nat) (v : T)
  | delete_head (i : Nat)
  | clear (i : Nat)
  | index_set (i k : Nat) (v : T)
  | assign (i j : Nat)
  deriving DecidableEq, Repr

/-- Outcome of a member call on the object at position `i`. -/
def at_object (objs : List cbuffer) (i : Nat) (o : Outcome (cbuffer × Heap T)) :
    Outcome (List cbuffer × Heap T) :=
  match o with
  | .ok (b, h) => .ok (objs.set i b, h)
  | .threw (b, h) => .threw (objs.set i b, h)
  | .fault f => .fault f

/-- Outcome of a declaration: a constructor that throws leaves no object. -/
def new_object (objs : List cbuffer) (o : Outcome (cbuffer × Heap T)) :
    Outcome (List cbuffer × Heap T) :=
  match o with
  | .ok (b, h) => .ok (objs ++ [b], h)
  | .threw (_, h) => .threw (objs, h)
  | .fault f => .fault f

/-- A member that does not allocate, as an `Outcome`. -/
def no_throw (r : Except Fault (cbuffer × Heap T)) : Outcome (cbuffer × Heap T) :=
  match r with
  | .error f => .fault f
  | .ok s => .ok s

/-- One statement.  A statement naming a position that holds no object is not
a program; it is given the outcome `fault wild_pointer`.  In `assign i j` the
test `this != &other` is the comparison of the two positions. -/
def act (a : Act T) (objs : List cbuffer) (h : Heap T) : Outcome (List cbuffer × Heap T) :=
  match a with
  | .construct size => .ok (objs ++ [cbuffer.new size], h)
  | .construct_default => .ok (objs ++ [cbuffer.default], h)
  | .construct_copy j =>
    match objs[j]? with
    | none => .fault .wild_pointer
    | some b => new_object objs (copy b h)
  | .construct_range size src => new_object objs (range size src h)
  | .insert i v =>
    match objs[i]? with
    | none => .fault .wild_pointer
    | some b => at_object objs i (insert v b h)
  | .delete_head i =>
    match objs[i]? with
    | none => .fault .wild_pointer
    | some b => at_object objs i (no_throw (delete_head b h))
  | .clear i =>
    match objs[i]? with
    | none => .fault .wild_pointer
    | some b => at_object objs i (no_throw (clear b h))
  | .index_set i k v =>
    match objs[i]? with
    | none => .fault .wild_pointer
    | some b =>
      match index_set b h k v with
      | .error f => .fault f
      | .ok h1 => .ok (objs, h1)
  | .assign i j =>
    match objs[i]?, objs[j]? with
    | some a, some b => if i = j then .ok (objs, h) else at_object objs i (assign a b h)
    | _, _ => .fault .wild_pointer

/-- A program: its statements in order, stopped by the first one that does
not return. -/
def exec : List (Act T) → List cbuffer → Heap T → Outcome (List cbuffer × Heap T)
  | [], objs, h => .ok (objs, h)
  | a :: as, objs, h =>
    match act a objs h with
    | .ok (objs1, h1) => exec as objs1 h1
    | o => o

/-- The pointers an object holds or reaches through its chain, apart from a
null `_head`. -/
def Shape.ptrs (b : cbuffer) (s : Shape T) : List Nat := b._end :: s.owned b

/-- The member `_end` is null or points to a live node. -/
def EndLive (b : cbuffer) (h : Heap T) : Prop := b._end = 0 ∨ ∃ it, h.read b._end = .ok it

/-- What a returning call on one object guarantees: the object has a shape
again, the call changed old cells only among the nodes of the object, and
every pointer the object holds afterwards is null, one it held before, or a
node allocated by the call. -/
def Moves (b : cbuffer) (h : Heap T) (s : Shape T) (b1 : cbuffer) (h1 : Heap T)
    (s1 : Shape T) : Prop :=
  Rep b1 h1 s1 ∧ EndLive b1 h1 ∧ Frame h h1 (s.ptrs b) ∧
    ∀ p ∈ s1.ptrs b1, p = 0 ∨ p ∈ s.ptrs b ∨ h.cells.length < p

/-- The objects `objs` have the shapes `ss` in the free store `h`, each `_end`
is null or points to a live node, and no two objects hold a common non-null
pointer. -/
def Sound (objs : List cbuffer) (h : Heap T) (ss : List (Shape T)) : Prop :=
  ss.length = objs.length ∧
    (∀ (i : Nat) (b : cbuffer) (s : Shape T), objs[i]? = some b → ss[i]? = some s →
      Rep b h s ∧ EndLive b h) ∧
    (∀ (i j : Nat) (b1 : cbuffer) (s1 : Shape T) (b2 : cbuffer) (s2 : Shape T),
      i ≠ j → objs[i]? = some b1 → ss[i]? = some s1 →
      objs[j]? = some b2 → ss[j]? = some s2 →
      ∀ p ∈ s1.ptrs b1, p ≠ 0 → p ∉ s2.ptrs b2)

/-- The statements of `test_cbuffer_int`: `cb(5)` and its seven inserts,
`ck(cb)`, `cb.delete_head()`, `cb[0] = 33`, `cb[3] = 11`, `ch`, `ch = cb`. -/
def test_int_program : List (Act Nat) :=
  [.construct 5, .insert 0 1, .insert 0 20, .insert 0 99, .insert 0 34, .insert 0 71,
    .insert 0 12, .insert 0 55, .construct_copy 0, .delete_head 0, .index_set 0 0 33,
    .index_set 0 3 11, .construct_default, .assign 2 0]

/-- The position of the object a statement may change; a declaration changes
none of the objects already there. -/
def Act.target : Act T → Option Nat
  | .construct _ => none
  | .construct_default => none
  | .construct_copy _ => none
  | .construct_range _ _ => none
  | .insert i _ => some i
  | .delete_head i => some i
  | .clear i => some i
  | .index_set i _ _ => some i
  | .assign i _ => some i

/-- A call on one object: `insert(v)`, `delete_head()`, `clear()` or the
assignment `b[k] = v`. -/
inductive Call (T : Type) where
  | insert (v : T)
  | delete_head
  | clear
  | index_set (k : Nat) (v : T)
  deriving DecidableEq, Repr

/-- The call as a statement on the object at position `i`. -/
def Call.on (i : Nat) : Call T → Act T
  | .insert v => .insert i v
  | .delete_head => .delete_head i
  | .clear => .clear i
  | .index_set k v => .index_set i k v

/-! ## Comparison of iterators -/

/-- Member `bool iterator::operator==(const iterator &other) const`:
`return i == other.i;`. -/
def iterator.operator_eq (x other : iterator) : Bool := x.i == other.i

/-- Member `bool iterator::operator==(const const_iterator &other) const`:
`return i == other.i;`. -/
def iterator.operator_eq_const (x : iterator) (other : const_iterator) : Bool := x.i == other.i

/-- Member `bool const_iterator::operator==(const const_iterator &other) const`:
`return i == other.i;`. -/
def const_iterator.operator_eq (x other : const_iterator) : Bool := x.i == other.i

/-- Member `bool const_iterator::operator==(const iterator &other) const`:
`return i == other.i;`. -/
def const_iterator.operator_eq_iterator (x : const_iterator) (other : iterator) : Bool :=
  x.i == other.i

/-- The iterator after `k` increments. -/
def iterator.advance (h : Heap T) : Nat → iterator → Except Fault iterator
  | 0, it => .ok it
  | k + 1, it =>
    match it.incr h with
    | .error f => .error f
    | .ok it1 => iterator.advance h k it1

/-- The constant iterator after `k` increments. -/
def const_iterator.advance (h : Heap T) : Nat → const_iterator → Except Fault const_iterator
  | 0, it => .ok it
  | k + 1, it =>
    match it.incr h with
    | .error f => .error f
    | .ok it1 => const_iterator.advance h k it1

/-- The iterators obtained from `b`: `b.end()`, and `b.begin()` incremented at
most `get_size()` times. -/
def cbuffer.obtained (b : cbuffer) (h : Heap T) (x : iterator) : Prop :=
  x = b.end_ ∨ ∃ n k, get_size b h = .ok n ∧ k ≤ n ∧ iterator.advance h k b.begin = .ok x

/-- The constant iterators obtained from `b`, likewise. -/
def cbuffer.const_obtained (b : cbuffer) (h : Heap T) (x : const_iterator) : Prop :=
  x = b.cend ∨ ∃ n k, get_size b h = .ok n ∧ k ≤ n ∧ const_iterator.advance h k b.cbegin = .ok x

/-! ## Free store lemmas -/

theorem Heap.read_ok_le {h : Heap T} {p : Nat} {it : item T} (hr : h.read p = .ok it) :
    1 ≤ p ∧ p ≤ h.cells.length := by
  cases p with
  | zero => simp [Heap.read] at hr
  | succ a =>
    simp only [Heap.read] at hr
    by_cases hlt : a < h.cells.length
    · omega
    · rw [List.getElem?_eq_none (by omega)] at hr
      simp at hr

theorem Heap.read_store_ne (h : Heap T) {p q : Nat} (c : Option (item T)) (hne : q ≠ p) :
    (h.store p c).read q = h.read q := by
  cases p with
  | zero => rfl
  | succ a =>
    cases q with
    | zero => rfl
    | succ b =>
      have hab : a ≠ b := by omega
      simp [Heap.read, Heap.store, List.getElem?_set_ne hab]

theorem Heap.read_store_some (h : Heap T) {p : Nat} {it : item T} (x : item T)
    (hr : h.read p = .ok it) : (h.store p (some x)).read p = .ok x := by
  have hle := Heap.read_ok_le hr
  cases p with
  | zero => omega
  | succ a =>
    have hlt : a < h.cells.length := by omega
    simp [Heap.read, Heap.store, List.getElem?_set_self, hlt]

theorem Heap.read_store_none (h : Heap T) {p : Nat} {it : item T}
    (hr : h.read p = .ok it) : (h.store p none).read p = .error .use_after_free := by
  have hle := Heap.read_ok_le hr
  cases p with
  | zero => omega
  | succ a =>
    have hlt : a < h.cells.length := by omega
    simp [Heap.read, Heap.store, List.getElem?_set_self, hlt]

@[simp] theorem Heap.store_length (h : Heap T) (p : Nat) (c : Option (item T)) :
    (h.store p c).cells.length = h.cells.length := by
  cases p <;> simp [Heap.store]

@[simp] theorem Heap.store_avail (h : Heap T) (p : Nat) (c : Option (item T)) :
    (h.store p c).avail = h.avail := by
  cases p <;> simp [Heap.store]

theorem Heap.alloc_eq (h : Heap T) (it : item T) (hav : h.avail = none) :
    h.alloc it = some (h.cells.length + 1, ⟨h.cells ++ [some it], none⟩) := by
  simp [Heap.alloc, hav]

theorem Heap.setNext_ok {h : Heap T} {p : Nat} {it : item T} (hr : h.read p = .ok it)
    (n : Nat) : h.setNext p n = .ok (h.store p (some { it with next := n })) := by
  simp [Heap.setNext, Heap.write, hr]

theorem Heap.setNext_error {h : Heap T} {p : Nat} {f : Fault} (hr : h.read p = .error f)
    (n : Nat) : h.setNext p n = .error f := by
  simp [Heap.setNext, hr]

theorem Heap.setValue_ok {h : Heap T} {p : Nat} {it : item T} (hr : h.read p = .ok it)
    (v : T) : h.setValue p v = .ok (h.store p (some { it with value := some v })) := by
  simp [Heap.setValue, Heap.write, hr]

theorem Heap.delete_ok {h : Heap T} {p : Nat} {it : item T} (hr : h.read p = .ok it) :
    h.delete p = .ok (h.store p none) := by
  have hle := Heap.read_ok_le hr
  have hp : p ≠ 0 := by omega
  simp [Heap.delete, hr, hp]

/-! ## Chain segments -/

theorem Seg.transport {h h1 : Heap T} {ns : List (Nat × T)} :
    ∀ {p q : Nat}, Seg h p q ns → (∀ a ∈ ns.map Prod.fst, h1.read a = h.read a) →
      Seg h1 p q ns := by
  induction ns with
  | nil => intro p q hs _; exact hs
  | cons n ns ih =>
    intro p q hs hf
    obtain ⟨hp, nx, hr, hrest⟩ := hs
    refine ⟨hp, nx, ?_, ih hrest (fun a ha => hf a (by simp at ha ⊢; exact Or.inr ha))⟩
    rw [hf n.1 (by simp)]
    exact hr

theorem Seg.snoc {h : Heap T} {ns : List (Nat × T)} {t : Nat × T} :
    ∀ {p q : Nat}, Seg h p q (ns ++ [t]) ↔
      (Seg h p t.1 ns ∧ h.read t.1 = .ok ⟨some t.2, q⟩) := by
  induction ns with
  | nil =>
    intro p q
    simp only [List.nil_append, Seg]
    constructor
    · rintro ⟨hp, nx, hr, hq⟩
      subst hq
      exact ⟨hp, hr⟩
    · rintro ⟨hp, hr⟩
      exact ⟨hp, q, hr, rfl⟩
  | cons n ns ih =>
    intro p q
    simp only [List.cons_append, Seg]
    constructor
    · rintro ⟨hp, nx, hr, hrest⟩
      obtain ⟨h1, h2⟩ := ih.mp hrest
      exact ⟨⟨hp, nx, hr, h1⟩, h2⟩
    · rintro ⟨⟨hp, nx, hr, h1⟩, h2⟩
      exact ⟨hp, nx, hr, ih.mpr ⟨h1, h2⟩⟩

theorem Seg.addr_le {h : Heap T} {ns : List (Nat × T)} :
    ∀ {p q : Nat}, Seg h p q ns → ∀ a ∈ ns.map Prod.fst, 1 ≤ a ∧ a ≤ h.cells.length := by
  induction ns with
  | nil => intro p q _ a ha; simp at ha
  | cons n ns ih =>
    intro p q hs a ha
    obtain ⟨_, nx, hr, hrest⟩ := hs
    simp only [List.map_cons, List.mem_cons] at ha
    rcases ha with ha | ha
    · subst ha; exact Heap.read_ok_le hr
    · exact ih hrest a ha

theorem Seg.head_eq {h : Heap T} {n : Nat × T} {ns : List (Nat × T)} {p q : Nat}
    (hs : Seg h p q (n :: ns)) : p = n.1 := hs.1

theorem Seg.head_pos {h : Heap T} {n : Nat × T} {ns : List (Nat × T)} {p q : Nat}
    (hs : Seg h p q (n :: ns)) : p ≠ 0 := by
  obtain ⟨hp, nx, hr, _⟩ := hs
  have := Heap.read_ok_le hr
  omega

theorem Seg.read_get {h : Heap T} {ns : List (Nat × T)} :
    ∀ {p q : Nat}, Seg h p q ns → ∀ (i : Nat) (hi : i < ns.length),
      ∃ nx, h.read ns[i].1 = .ok ⟨some ns[i].2, nx⟩ := by
  induction ns with
  | nil => intro p q _ i hi; simp at hi
  | cons n ns ih =>
    intro p q hs i hi
    obtain ⟨_, nx, hr, hrest⟩ := hs
    cases i with
    | zero => exact ⟨nx, hr⟩
    | succ j => exact ih hrest j (by simpa using hi)

/-- Distinct addresses of allocated nodes are no more than the cells. -/
theorem length_le_cells {n : Nat} {as : List Nat} (hnd : as.Nodup)
    (hle : ∀ a ∈ as, 1 ≤ a ∧ a ≤ n) : as.length ≤ n := by
  have hsub : as ⊆ List.range' 1 n := by
    intro a ha
    have := hle a ha
    rw [List.mem_range'_1]
    omega
  have := (List.Nodup.subperm hnd hsub).length_le
  simpa using this

theorem size_loop_seg {h : Heap T} {e : Nat} {ns : List (Nat × T)} :
    ∀ {p fuel c : Nat}, Seg h p e ns → e ∉ ns.map Prod.fst → ns.length < fuel →
      size_loop h e fuel p c = .ok (c + ns.length) := by
  induction ns with
  | nil =>
    intro p fuel c hs _ hf
    cases fuel with
    | zero => simp at hf
    | succ k =>
      have : p = e := hs
      simp [size_loop, this]
  | cons n ns ih =>
    intro p fuel c hs he hf
    obtain ⟨hp, nx, hr, hrest⟩ := hs
    cases fuel with
    | zero => simp at hf
    | succ k =>
      have hne : p ≠ e := by
        intro heq
        apply he
        simp [← heq, hp]
      have he1 : e ∉ ns.map Prod.fst := fun hm => he (by simp at hm ⊢; exact Or.inr hm)
      have hk : ns.length < k := by simpa using hf
      subst hp
      simp only [size_loop, hne, if_false, hr]
      rw [ih hrest he1 hk]
      simp only [List.length_cons]
      congr 1
      omega

theorem index_loop_seg {h : Heap T} {ns : List (Nat × T)} :
    ∀ {p q : Nat}, Seg h p q ns → ∀ (i : Nat) (hi : i < ns.length),
      index_loop h i p = .ok ns[i].1 := by
  induction ns with
  | nil => intro p q _ i hi; simp at hi
  | cons n ns ih =>
    intro p q hs i hi
    obtain ⟨hp, nx, hr, hrest⟩ := hs
    subst hp
    cases i with
    | zero => simp [index_loop]
    | succ j =>
      simp only [index_loop, hr]
      exact ih hrest j (by simpa using hi)

/-- The dummy node and the chain nodes all lie inside the free store. -/
theorem Rep.owned_le {b : cbuffer} {h : Heap T} {s : Shape T} (hr : Rep b h s) :
    ∀ a ∈ s.owned b, 1 ≤ a ∧ a ≤ h.cells.length := by
  intro a ha
  cases s with
  | empty => simp [Shape.owned] at ha
  | filled ns =>
    obtain ⟨_, hs, ⟨x, he⟩, _, _⟩ := hr
    simp only [Shape.owned, List.mem_cons] at ha
    rcases ha with ha | ha
    · subst ha; exact Heap.read_ok_le he
    · exact hs.addr_le a ha
  | drained js =>
    obtain ⟨_, ⟨x, nx, he, hs⟩, _, _⟩ := hr
    simp only [Shape.owned, List.mem_cons] at ha
    rcases ha with ha | ha
    · subst ha; exact Heap.read_ok_le he
    · exact hs.addr_le a ha

theorem Rep.owned_nodup {b : cbuffer} {h : Heap T} {s : Shape T} (hr : Rep b h s) :
    (s.owned b).Nodup := by
  cases s with
  | empty => simp [Shape.owned]
  | filled ns => exact hr.2.2.2.1
  | drained js => exact hr.2.2.1

/-- `get_size` counts the elements of the shape. -/
theorem get_size_rep {b : cbuffer} {h : Heap T} {s : Shape T} (hr : Rep b h s) :
    get_size b h = .ok s.vals.length := by
  have hlen := length_le_cells hr.owned_nodup hr.owned_le
  cases s with
  | empty =>
    have : b._head = 0 := hr
    simp [get_size, this, Shape.vals]
  | filled ns =>
    obtain ⟨hne, hs, _, hnd, _⟩ := hr
    cases ns with
    | nil => exact absurd rfl hne
    | cons n ns =>
      have hp := hs.head_pos
      have he : b._end ∉ (n :: ns).map Prod.fst := (List.nodup_cons.mp hnd).1
      simp only [Shape.owned, List.length_cons, List.length_map] at hlen
      simp only [get_size, hp, if_false, Shape.vals, List.length_map]
      rw [size_loop_seg hs he (by simp only [List.length_cons]; omega)]
      simp
  | drained js =>
    obtain ⟨hhe, ⟨x, nx, he, _⟩, _, _⟩ := hr
    have := Heap.read_ok_le he
    have hp : b._head ≠ 0 := by omega
    simp [get_size, hp, size_loop, hhe, Shape.vals]

/-- `operator[]` inside the live range designates the node of that position. -/
theorem index_ref_filled {b : cbuffer} {h : Heap T} {ns : List (Nat × T)}
    (hr : Rep b h (.filled ns)) (i : Nat) (hi : i < ns.length) :
    index_ref b h i = .ok ns[i].1 := by
  have hsz := get_size_rep hr
  obtain ⟨_, hs, _, _, _⟩ := hr
  obtain ⟨nx, hrd⟩ := hs.read_get i hi
  simp only [Shape.vals, List.length_map] at hsz
  simp [index_ref, hsz, hi, index_loop_seg hs i hi, hrd]

/-- `operator[]` at or beyond `get_size()` fails its assertion. -/
theorem index_ref_ge {b : cbuffer} {h : Heap T} {s : Shape T} (hr : Rep b h s) (i : Nat)
    (hi : s.vals.length ≤ i) : index_ref b h i = .error .assert_failed := by
  have hsz := get_size_rep hr
  have : ¬ i < s.vals.length := by omega
  simp [index_ref, hsz, this]

theorem index_get_filled {b : cbuffer} {h : Heap T} {ns : List (Nat × T)}
    (hr : Rep b h (.filled ns)) (i : Nat) (hi : i < ns.length) :
    index_get b h i = .ok ns[i].2 := by
  have href := index_ref_filled hr i hi
  obtain ⟨_, hs, _, _, _⟩ := hr
  obtain ⟨nx, hrd⟩ := hs.read_get i hi
  simp [index_get, href, hrd]

theorem index_get_ge {b : cbuffer} {h : Heap T} {s : Shape T} (hr : Rep b h s) (i : Nat)
    (hi : s.vals.length ≤ i) : index_get b h i = .error .assert_failed := by
  simp [index_get, index_ref_ge hr i hi]

/-! ## Frame reasoning -/

theorem Frame.refl (h : Heap T) (own : List Nat) : Frame h h own :=
  ⟨Nat.le_refl _, fun _ _ _ => rfl⟩

theorem Frame.trans {h h1 h2 : Heap T} {own own1 : List Nat} (f1 : Frame h h1 own)
    (f2 : Frame h1 h2 own1) (hsub : ∀ a ∈ own1, a ∈ own ∨ h.cells.length < a) :
    Frame h h2 own := by
  refine ⟨Nat.le_trans f1.1 f2.1, fun q hq hno => ?_⟩
  rw [f2.2 q (Nat.le_trans hq f1.1) ?_, f1.2 q hq hno]
  intro hm
  rcases hsub q hm with h3 | h3
  · exact hno h3
  · omega

theorem Rep.frame {b : cbuffer} {h h1 : Heap T} {s : Shape T} (hr : Rep b h s)
    (hf : ∀ a ∈ s.owned b, h1.read a = h.read a) : Rep b h1 s := by
  cases s with
  | empty => exact hr
  | filled ns =>
    obtain ⟨hne, hs, ⟨x, he⟩, hnd, hle⟩ := hr
    refine ⟨hne, hs.transport (fun a ha => hf a (by simp [Shape.owned] at ha ⊢; exact Or.inr ha)),
      ⟨x, ?_⟩, hnd, hle⟩
    rw [hf b._end (by simp [Shape.owned])]
    exact he
  | drained js =>
    obtain ⟨hhe, ⟨x, nx, he, hs⟩, hnd, hlt⟩ := hr
    refine ⟨hhe, ⟨x, nx, ?_,
      hs.transport (fun a ha => hf a (by simp [Shape.owned] at ha ⊢; exact Or.inr ha))⟩, hnd, hlt⟩
    rw [hf b._end (by simp [Shape.owned])]
    exact he

/-- A buffer keeps its shape when another party changes the free store outside
the nodes the buffer owns. -/
theorem Rep.of_frame {b : cbuffer} {h h1 : Heap T} {s : Shape T} {own : List Nat}
    (hr : Rep b h s) (hf : Frame h h1 own) (hdis : ∀ a ∈ s.owned b, a ∉ own) :
    Rep b h1 s :=
  hr.frame (fun a ha => hf.2 a (hr.owned_le a ha).2 (hdis a ha))

theorem Heap.alloc_some {h h1 : Heap T} {it : item T} {i : Nat}
    (ha : h.alloc it = some (i, h1)) :
    i = h.cells.length + 1 ∧ h1.cells = h.cells ++ [some it] ∧
      (h.avail = none → h1.avail = none) := by
  unfold Heap.alloc at ha
  split at ha
  · simp at ha
  · simp only [Option.some.injEq, Prod.mk.injEq] at ha
    obtain ⟨h2, h3⟩ := ha
    subst h3
    rename_i heq
    exact ⟨h2.symm, rfl, fun hn => by simp [hn] at heq⟩
  · simp only [Option.some.injEq, Prod.mk.injEq] at ha
    obtain ⟨h2, h3⟩ := ha
    subst h3
    exact ⟨h2.symm, rfl, fun _ => rfl⟩

theorem Heap.alloc_read_old {h h1 : Heap T} {it : item T} {i : Nat}
    (ha : h.alloc it = some (i, h1)) {q : Nat} (hq : q ≤ h.cells.length) :
    h1.read q = h.read q := by
  obtain ⟨_, hc, _⟩ := Heap.alloc_some ha
  cases q with
  | zero => rfl
  | succ a =>
    have : a < h.cells.length := by omega
    simp [Heap.read, hc, List.getElem?_append_left this]

theorem Heap.alloc_read_new {h h1 : Heap T} {it : item T} {i : Nat}
    (ha : h.alloc it = some (i, h1)) : h1.read i = .ok it := by
  obtain ⟨hi, hc, _⟩ := Heap.alloc_some ha
  subst hi
  simp [Heap.read, hc]

theorem Heap.alloc_length {h h1 : Heap T} {it : item T} {i : Nat}
    (ha : h.alloc it = some (i, h1)) : h1.cells.length = h.cells.length + 1 := by
  obtain ⟨_, hc, _⟩ := Heap.alloc_some ha
  simp [hc]

/-! ## `delete_head` on each shape -/

theorem Shape.afterHead_vals (rest : List (Nat × T)) :
    (Shape.afterHead rest).vals = rest.map Prod.snd := by
  cases rest <;> simp [Shape.afterHead, Shape.vals]

theorem delete_head_empty {b : cbuffer} {h : Heap T} (hr : Rep b h .empty) :
    delete_head b h = .ok (b, h) := by
  have : b._head = 0 := hr
  simp [delete_head, this]

/-- On a chain of element nodes `delete_head` unlinks and deletes the first
one; when it was the only one, `_head` lands on the dummy node. -/
theorem delete_head_filled {b : cbuffer} {h : Heap T} {n : Nat × T} {ns : List (Nat × T)}
    (hr : Rep b h (.filled (n :: ns))) :
    ∃ nx h1, delete_head b h = .ok ({ b with _head := nx }, h1) ∧
      Rep { b with _head := nx } h1 (Shape.afterHead ns) ∧
      Frame h h1 (Shape.owned b (.filled (n :: ns))) ∧
      h1.cells.length = h.cells.length ∧ h1.avail = h.avail := by
  obtain ⟨_, hs, ⟨x, he⟩, hnd, hle⟩ := hr
  obtain ⟨hp, nx, hrd, hrest⟩ := hs
  have hp0 : b._head ≠ 0 := by
    have := Heap.read_ok_le hrd
    omega
  simp only [List.map_cons, List.nodup_cons, List.mem_cons, not_or] at hnd
  obtain ⟨⟨hen, hens⟩, hnns, hndns⟩ := hnd
  have he1 : (h.store n.1 none).read b._end = .ok ⟨x, b._head⟩ := by
    rw [Heap.read_store_ne _ _ hen]; exact he
  refine ⟨nx, (h.store n.1 none).store b._end (some ⟨x, nx⟩), ?_, ?_, ?_, by simp, by simp⟩
  · have hn0 : n.1 ≠ 0 := hp ▸ hp0
    simp [delete_head, hn0, hp, hrd, Heap.delete_ok hrd, Heap.setNext_ok (hp ▸ he1)]
  · have hfr : ∀ a ∈ ns.map Prod.fst,
        ((h.store n.1 none).store b._end (some ⟨x, nx⟩)).read a = h.read a := by
      intro a ha
      rw [Heap.read_store_ne, Heap.read_store_ne]
      · intro h1; exact hnns (h1 ▸ ha)
      · intro h1; exact hens (h1 ▸ ha)
    have hE : ((h.store n.1 none).store b._end (some ⟨x, nx⟩)).read b._end = .ok ⟨x, nx⟩ :=
      Heap.read_store_some _ _ he1
    cases ns with
    | nil =>
      have hnx : nx = b._end := hrest
      refine ⟨hnx, ⟨x, nx, hE, hnx⟩, by simp, ?_⟩
      simp only [List.length_cons, List.length_nil] at hle ⊢
      omega
    | cons m ms =>
      refine ⟨by simp, hrest.transport hfr, ⟨x, hE⟩, ?_, ?_⟩
      · exact List.nodup_cons.mpr ⟨hens, hndns⟩
      · simp only [List.length_cons] at hle ⊢
        omega
  · refine ⟨by simp, fun q _ hq => ?_⟩
    simp only [Shape.owned, List.map_cons, List.mem_cons, not_or] at hq
    rw [Heap.read_store_ne _ _ hq.1, Heap.read_store_ne _ _ hq.2.1]

/-- With `_head` on the dummy node, `delete_head` deletes the dummy node and
then stores through the pointer to it. -/
theorem delete_head_drained {b : cbuffer} {h : Heap T} {js : List (Nat × T)}
    (hr : Rep b h (.drained js)) : delete_head b h = .error .use_after_free := by
  obtain ⟨hhe, ⟨x, nx, he, _⟩, _, _⟩ := hr
  have hp0 : b._head ≠ 0 := by
    have := Heap.read_ok_le he
    omega
  have h1 : (h.store b._end none).read b._end = .error .use_after_free :=
    Heap.read_store_none _ he
  have he0 : b._end ≠ 0 := hhe ▸ hp0
  simp [delete_head, he0, hhe, he, Heap.delete_ok he, Heap.setNext_error h1]

/-! ## `clear` on each shape -/

theorem clear_loop_seg {e : Nat} {ns : List (Nat × T)} :
    ∀ {h : Heap T} {p fuel : Nat}, Seg h p e ns → (e :: ns.map Prod.fst).Nodup →
      ns.length < fuel →
      ∃ h1, clear_loop e fuel h p = .ok h1 ∧ Frame h h1 (ns.map Prod.fst) ∧
        h1.cells.length = h.cells.length ∧ h1.avail = h.avail := by
  induction ns with
  | nil =>
    intro h p fuel hs _ hf
    cases fuel with
    | zero => simp at hf
    | succ k =>
      have : p = e := hs
      exact ⟨h, by simp [clear_loop, this], Frame.refl _ _, rfl, rfl⟩
  | cons n ns ih =>
    intro h p fuel hs hnd hf
    obtain ⟨hp, nx, hrd, hrest⟩ := hs
    simp only [List.map_cons, List.nodup_cons, List.mem_cons, not_or] at hnd
    obtain ⟨⟨hen, hens⟩, hnns, hndns⟩ := hnd
    cases fuel with
    | zero => simp at hf
    | succ k =>
      have hk : ns.length < k := by simpa using hf
      have hrest1 : Seg (h.store n.1 none) nx e ns :=
        hrest.transport (fun a ha => Heap.read_store_ne _ _ (fun h1 => hnns (h1 ▸ ha)))
      obtain ⟨h1, hcl, hfr, hlen, hav⟩ :=
        ih hrest1 (List.nodup_cons.mpr ⟨hens, hndns⟩) hk
      have hpe : n.1 ≠ e := fun h2 => hen h2.symm
      refine ⟨h1, ?_, ⟨by simp [hlen], fun q hq hno => ?_⟩, by simp [hlen], by simp [hav]⟩
      · subst hp
        simp [clear_loop, hpe, hrd, Heap.delete_ok hrd, hcl]
      · simp only [List.map_cons, List.mem_cons, not_or] at hno
        rw [hfr.2 q (by simpa using hq) hno.2, Heap.read_store_ne _ _ hno.1]

/-- Whatever the shape, `clear` returns and leaves a buffer with no chain. -/
theorem clear_rep {b : cbuffer} {h : Heap T} {s : Shape T} (hr : Rep b h s) :
    ∃ h1, clear b h = .ok ({ b with _head := 0 }, h1) ∧ Frame h h1 (s.owned b) ∧
      h1.cells.length = h.cells.length ∧ h1.avail = h.avail := by
  have hlen := length_le_cells hr.owned_nodup hr.owned_le
  cases s with
  | empty =>
    have h0 : b._head = 0 := hr
    refine ⟨h, ?_, Frame.refl _ _, rfl, rfl⟩
    cases b
    simp only at h0
    simp [clear, h0]
  | filled ns =>
    obtain ⟨hne, hs, _, hnd, _⟩ := hr
    cases ns with
    | nil => exact absurd rfl hne
    | cons n ns =>
      have hp := hs.head_pos
      simp only [Shape.owned, List.length_cons, List.length_map] at hlen
      obtain ⟨h1, hcl, hfr, hl, hav⟩ :=
        clear_loop_seg hs hnd
          (show (n :: ns).length < h.cells.length + 1 by
            simp only [List.length_cons]; omega)
      refine ⟨h1, by simp [clear, hp, hcl], ⟨hfr.1, fun q hq hno => hfr.2 q hq ?_⟩, hl, hav⟩
      intro hm
      exact hno (by simp only [Shape.owned, List.mem_cons]; exact Or.inr hm)
  | drained js =>
    obtain ⟨hhe, ⟨x, nx, he, _⟩, _, _⟩ := hr
    have := Heap.read_ok_le he
    have hp : b._end ≠ 0 := by omega
    exact ⟨h, by simp [clear, hp, clear_loop, hhe], Frame.refl _ _, rfl, rfl⟩

/-! ## `insert` on each shape -/

theorem insert_loop_seg {h : Heap T} {e size : Nat} {t : Nat × T} {ns : List (Nat × T)} :
    ∀ {p fuel n : Nat}, Seg h p e (ns ++ [t]) → e ∉ (ns ++ [t]).map Prod.fst →
      n + ns.length ≤ size → ns.length < fuel →
      insert_loop h e size fuel p n = .ok (t.1, n + ns.length) := by
  induction ns with
  | nil =>
    intro p fuel n hs _ _ hf
    obtain ⟨hp, nx, hrd, hq⟩ := hs
    have hq : nx = e := hq
    cases fuel with
    | zero => simp at hf
    | succ k =>
      subst hp
      simp [insert_loop, hrd, hq]
  | cons m ns ih =>
    intro p fuel n hs he hsz hf
    obtain ⟨hp, nx, hrd, hrest⟩ := hs
    cases fuel with
    | zero => simp at hf
    | succ k =>
      have hk : ns.length < k := by simpa using hf
      have he1 : e ∉ (ns ++ [t]).map Prod.fst :=
        fun hm => he (by simp only [List.cons_append, List.map_cons, List.mem_cons]; exact Or.inr hm)
      have hnx : nx ≠ e := by
        intro heq
        apply he1
        cases ns with
        | nil => simp [← heq, hrest.head_eq]
        | cons a as => simp [← heq, hrest.head_eq]
      simp only [List.length_cons] at hsz
      have hn : n < size := by omega
      subst hp
      simp only [insert_loop, hrd, hnx, ne_eq, not_false_eq_true, hn, and_self, if_true]
      rw [ih hrest he1 (by omega) hk]
      simp only [List.length_cons]
      congr 2
      omega

theorem insert_alloc_none {b : cbuffer} {h : Heap T} {v : T}
    (ha : h.alloc ⟨some v, b._end⟩ = none) : insert v b h = .threw (b, h) := by
  simp [insert, ha]

theorem exists_snoc {α : Type} {l : List α} (hne : l ≠ []) : ∃ l1 t, l = l1 ++ [t] :=
  ⟨l.dropLast, l.getLast hne, (List.dropLast_append_getLast hne).symm⟩

/-- First `insert` into a buffer without a chain: the new node becomes the
head and a new dummy node closes the chain. -/
theorem insert_empty {b : cbuffer} {h h1 h2 : Heap T} {v : T} {i e : Nat}
    (hr : Rep b h .empty) (hsz : 0 < b._size)
    (ha : h.alloc ⟨some v, b._end⟩ = some (i, h1)) (ha2 : h1.alloc ⟨none, i⟩ = some (e, h2)) :
    ∃ h3, insert v b h = .ok (⟨i, e, b._size⟩, h3) ∧
      Rep ⟨i, e, b._size⟩ h3 (.filled [(i, v)]) ∧ Frame h h3 [] ∧
      h3.cells.length = h.cells.length + 2 ∧ h3.avail = h2.avail ∧
      i = h.cells.length + 1 ∧ e = h.cells.length + 2 := by
  have h0 : b._head = 0 := hr
  obtain ⟨hi, _, _⟩ := Heap.alloc_some ha
  obtain ⟨he, _, _⟩ := Heap.alloc_some ha2
  have hl1 := Heap.alloc_length ha
  have hl2 := Heap.alloc_length ha2
  have hei : e ≠ i := by omega
  have hri : h2.read i = .ok ⟨some v, b._end⟩ := by
    rw [Heap.alloc_read_old ha2 (by omega)]
    exact Heap.alloc_read_new ha
  have hre : h2.read e = .ok ⟨none, i⟩ := Heap.alloc_read_new ha2
  refine ⟨h2.store i (some ⟨some v, e⟩), ?_, ?_, ?_, by simp; omega, by simp, hi, by omega⟩
  · simp [insert, ha, ha2, h0, hsz, Heap.setNext_ok hri]
  · refine ⟨by simp, ⟨rfl, e, Heap.read_store_some _ _ hri, rfl⟩, ⟨none, ?_⟩, ?_, ?_⟩
    · show (h2.store i _).read e = _
      rw [Heap.read_store_ne _ _ hei]
      exact hre
    · simp [hei]
    · simp only [List.length_cons, List.length_nil]
      omega
  · refine ⟨by simp; omega, fun q hq _ => ?_⟩
    rw [Heap.read_store_ne _ _ (by omega), Heap.alloc_read_old ha2 (by omega),
      Heap.alloc_read_old ha hq]

/-- When the allocation of the dummy node throws, `_head` already points to
the new node. -/
theorem insert_empty_threw {b : cbuffer} {h h1 : Heap T} {v : T} {i : Nat}
    (hr : Rep b h .empty) (hsz : 0 < b._size)
    (ha : h.alloc ⟨some v, b._end⟩ = some (i, h1)) (ha2 : h1.alloc ⟨none, i⟩ = none) :
    insert v b h = .threw ({ b with _head := i }, h1) := by
  have h0 : b._head = 0 := hr
  simp [insert, ha, ha2, h0, hsz]

/-- With capacity `0` the first `insert` dereferences the null `_head`. -/
theorem insert_empty_zero {b : cbuffer} {h h1 : Heap T} {v : T} {i : Nat}
    (hr : Rep b h .empty) (hsz : b._size = 0)
    (ha : h.alloc ⟨some v, b._end⟩ = some (i, h1)) :
    insert v b h = .fault .null_deref := by
  have h0 : b._head = 0 := hr
  simp [insert, ha, h0, hsz, insert_loop, Heap.read]

/-- Below capacity `insert` links the new node behind the last one. -/
theorem insert_filled_room {b : cbuffer} {h h1 : Heap T} {ns : List (Nat × T)} {v : T}
    {i : Nat} (hr : Rep b h (.filled ns)) (hlt : ns.length < b._size)
    (ha : h.alloc ⟨some v, b._end⟩ = some (i, h1)) :
    ∃ h2, insert v b h = .ok (b, h2) ∧ Rep b h2 (.filled (ns ++ [(i, v)])) ∧
      Frame h h2 (Shape.owned b (.filled ns)) ∧
      h2.cells.length = h.cells.length + 1 ∧ h2.avail = h1.avail ∧
      i = h.cells.length + 1 := by
  have hown := hr.owned_le
  obtain ⟨hne, hs, ⟨x, he⟩, hnd, _⟩ := hr
  obtain ⟨hi, _, _⟩ := Heap.alloc_some ha
  have hl1 := Heap.alloc_length ha
  obtain ⟨ns1, t, hcat⟩ := exists_snoc hne
  subst hcat
  have hs1 : Seg h1 b._head b._end (ns1 ++ [t]) :=
    hs.transport (fun a ha1 => Heap.alloc_read_old ha (hs.addr_le a ha1).2)
  have hp0 : b._head ≠ 0 := by
    cases ns1 with
    | nil => exact hs.head_pos
    | cons a as => exact hs.head_pos
  have henot : b._end ∉ (ns1 ++ [t]).map Prod.fst := (List.nodup_cons.mp hnd).1
  simp only [List.length_append, List.length_cons, List.length_nil] at hlt
  have hloop := insert_loop_seg hs1 henot (show 1 + ns1.length ≤ b._size by omega)
    (show ns1.length < b._size + 1 by omega)
  obtain ⟨hseg1, hrt⟩ := Seg.snoc.mp hs1
  have hti : t.1 ≠ i := by
    have := (Heap.read_ok_le (Seg.snoc.mp hs).2).2
    omega
  have hn : 1 + ns1.length < b._size := by omega
  refine ⟨h1.store t.1 (some ⟨some t.2, i⟩), ?_, ?_, ?_, by simp; omega, by simp, hi⟩
  · simp [insert, ha, hp0, hloop, hn, Heap.setNext_ok hrt]
  · simp only [List.map_append, List.map_cons, List.map_nil] at hnd
    have hnd' : (b._end :: (ns1.map Prod.fst ++ [t.1])).Nodup := hnd
    rw [List.nodup_cons, List.nodup_append] at hnd'
    obtain ⟨hE, hnd1, _, hdis⟩ := hnd'
    have hE1 : b._end ≠ t.1 := fun h2 => hE (by simp [← h2])
    have hEi : b._end ≠ i := by
      have := (Heap.read_ok_le he).2
      omega
    refine ⟨by simp, ?_, ⟨x, ?_⟩, ?_, ?_⟩
    · refine Seg.snoc.mpr ⟨Seg.snoc.mpr ⟨hseg1.transport (fun a ha1 => ?_), ?_⟩, ?_⟩
      · refine Heap.read_store_ne _ _ (fun h2 => ?_)
        exact hdis ha1 (by simp [h2])
      · exact Heap.read_store_some _ _ hrt
      · show (h1.store t.1 _).read i = _
        rw [Heap.read_store_ne _ _ (Ne.symm hti)]
        exact Heap.alloc_read_new ha
    · rw [Heap.read_store_ne _ _ hE1, Heap.alloc_read_old ha (Heap.read_ok_le he).2]
      exact he
    · simp only [List.map_append, List.map_cons, List.map_nil, List.append_assoc]
      rw [← List.append_assoc, List.nodup_cons, List.nodup_append]
      refine ⟨?_, hnd.of_cons, by simp, ?_⟩
      · simp only [List.mem_append, List.mem_singleton, not_or]
        exact ⟨by simpa using hE, hEi⟩
      · intro a ha1 ha2
        simp only [List.mem_singleton] at ha2
        subst ha2
        have := (hown a (by simp only [Shape.owned, List.mem_cons, List.map_append]; exact Or.inr (by simpa using ha1))).2
        omega
    · simp only [List.length_append, List.length_cons, List.length_nil]
      omega
  · refine ⟨by simp; omega, fun q hq hno => ?_⟩
    have hqt : q ≠ t.1 := fun h2 => hno (by simp [Shape.owned, h2])
    rw [Heap.read_store_ne _ _ hqt, Heap.alloc_read_old ha hq]

theorem nodup_snoc (l : List Nat) (a : Nat) : (l ++ [a]).Nodup ↔ a ∉ l ∧ l.Nodup := by
  rw [List.nodup_append_comm]
  simp

/-- At capacity (two or more) `insert` deletes the head node, moves `_head` to
the second node and links the new node behind the last one. -/
theorem insert_filled_full {b : cbuffer} {h h1 : Heap T} {n : Nat × T}
    {rest : List (Nat × T)} {v : T} {i : Nat} (hr : Rep b h (.filled (n :: rest)))
    (hrest : rest ≠ []) (hfull : (n :: rest).length = b._size)
    (ha : h.alloc ⟨some v, b._end⟩ = some (i, h1)) :
    ∃ nx h4, insert v b h = .ok ({ b with _head := nx }, h4) ∧
      Rep { b with _head := nx } h4 (.filled (rest ++ [(i, v)])) ∧
      Frame h h4 (Shape.owned b (.filled (n :: rest))) ∧
      h4.cells.length = h.cells.length + 1 ∧ h4.avail = h1.avail ∧
      i = h.cells.length + 1 := by
  have hown := hr.owned_le
  obtain ⟨_, hs, ⟨x, he⟩, hnd, _⟩ := hr
  obtain ⟨hi, _, _⟩ := Heap.alloc_some ha
  have hl1 := Heap.alloc_length ha
  obtain ⟨rest1, t, hcat⟩ := exists_snoc hrest
  subst hcat
  have hold : ∀ a ∈ Shape.owned b (.filled (n :: (rest1 ++ [t]))), h1.read a = h.read a :=
    fun a ha1 => Heap.alloc_read_old ha (hown a ha1).2
  have halli : ∀ a ∈ Shape.owned b (.filled (n :: (rest1 ++ [t]))), a ≠ i :=
    fun a ha1 => by have := (hown a ha1).2; omega
  simp only [Shape.owned, List.map_cons, List.map_append, List.map_nil, List.mem_cons,
    List.mem_append, List.not_mem_nil, or_false, forall_eq_or_imp] at hold halli
  obtain ⟨hE_old, hn_old, hrest_old⟩ := hold
  obtain ⟨hEi, hni, hresti⟩ := halli
  have hs1 : Seg h1 b._head b._end (n :: (rest1 ++ [t])) :=
    hs.transport (fun a ha1 => Heap.alloc_read_old ha (hs.addr_le a ha1).2)
  obtain ⟨hp, nx, hrd, hseg⟩ := hs
  have hp0 : b._head ≠ 0 := by
    have := Heap.read_ok_le hrd
    omega
  have henot : b._end ∉ ((n :: rest1) ++ [t]).map Prod.fst := (List.nodup_cons.mp hnd).1
  simp only [List.length_cons, List.length_append, List.length_nil] at hfull
  have hs2 : Seg h1 b._head b._end ((n :: rest1) ++ [t]) := hs1
  have hloop := insert_loop_seg hs2 henot
    (show 1 + (n :: rest1).length ≤ b._size by simp only [List.length_cons]; omega)
    (show (n :: rest1).length < b._size + 1 by simp only [List.length_cons]; omega)
  have hcnt : 1 + (n :: rest1).length = b._size := by
    simp only [List.length_cons]; omega
  rw [hcnt] at hloop
  simp only [List.map_cons, List.map_append, List.map_nil] at hnd
  have hnd' : (b._end :: n.1 :: (rest1.map Prod.fst ++ [t.1])).Nodup := hnd
  simp only [List.nodup_cons, List.mem_cons, List.mem_append, not_or, nodup_snoc,
    List.not_mem_nil, or_false] at hnd'
  obtain ⟨⟨hEn, hE1, hEt⟩, ⟨hn1, hnt⟩, hdis, hnd1⟩ := hnd'
  obtain ⟨hseg1, hrt⟩ := Seg.snoc.mp hseg
  have hrd1 : h1.read b._head = .ok ⟨some n.2, nx⟩ := by
    rw [hp, hn_old]; exact hrd
  have hE2 : (h1.store b._head none).read b._end = .ok ⟨x, b._head⟩ := by
    rw [Heap.read_store_ne _ _ (hp ▸ hEn), hE_old]; exact he
  have ht3 : ((h1.store b._head none).store b._end (some ⟨x, nx⟩)).read t.1 =
      .ok ⟨some t.2, b._end⟩ := by
    rw [Heap.read_store_ne _ _ (Ne.symm hEt), Heap.read_store_ne _ _ (hp ▸ Ne.symm hnt),
      hrest_old t.1 (Or.inr rfl)]
    exact hrt
  refine ⟨nx, ((h1.store b._head none).store b._end (some ⟨x, nx⟩)).store t.1
    (some ⟨some t.2, i⟩), ?_, ?_, ?_, by simp; omega, by simp, hi⟩
  · simp [insert, ha, hp0, hloop, hrd1, Heap.delete_ok hrd1, Heap.setNext_ok hE2,
      Heap.setNext_ok ht3]
  · refine ⟨by simp, ?_, ⟨x, ?_⟩, ?_, ?_⟩
    · refine Seg.snoc.mpr ⟨Seg.snoc.mpr ⟨hseg1.transport (fun a ha1 => ?_), ?_⟩, ?_⟩
      · have hat : a ≠ t.1 := fun h2 => hdis (h2 ▸ ha1)
        have haE : a ≠ b._end := fun h2 => hE1 (h2 ▸ ha1)
        have han : a ≠ b._head := fun h2 => hn1 (hp ▸ h2 ▸ ha1)
        rw [Heap.read_store_ne _ _ hat, Heap.read_store_ne _ _ haE,
          Heap.read_store_ne _ _ han, hrest_old a (Or.inl ha1)]
      · exact Heap.read_store_some _ _ ht3
      · show (Heap.store _ t.1 _).read i = _
        rw [Heap.read_store_ne _ _ (Ne.symm (hresti t.1 (Or.inr rfl))),
          Heap.read_store_ne _ _ (Ne.symm hEi), Heap.read_store_ne _ _ (hp ▸ Ne.symm hni)]
        exact Heap.alloc_read_new ha
    · show (Heap.store _ t.1 _).read b._end = _
      rw [Heap.read_store_ne _ _ hEt]
      exact Heap.read_store_some _ _ hE2
    · show (b._end :: ((rest1 ++ [t]) ++ [(i, v)]).map Prod.fst).Nodup
      simp only [List.map_append, List.map_cons, List.map_nil, List.nodup_cons,
        List.mem_append, List.mem_cons, not_or, nodup_snoc, List.not_mem_nil, or_false]
      exact ⟨⟨⟨hE1, hEt⟩, hEi⟩, ⟨fun h2 => hresti i (Or.inl h2) rfl,
        fun h2 => hresti t.1 (Or.inr rfl) h2.symm⟩, hdis, hnd1⟩
    · show ((rest1 ++ [t]) ++ [(i, v)]).length ≤ b._size
      simp only [List.length_append, List.length_cons, List.length_nil]
      omega
  · refine ⟨by simp; omega, fun q hq hno => ?_⟩
    simp only [Shape.owned, List.map_cons, List.map_append, List.map_nil, List.mem_cons,
      List.mem_append, List.not_mem_nil, or_false, not_or] at hno
    obtain ⟨hqE, hqn, _, hqt⟩ := hno
    rw [Heap.read_store_ne _ _ hqt, Heap.read_store_ne _ _ hqE,
      Heap.read_store_ne _ _ (hp ▸ hqn), Heap.alloc_read_old ha hq]

/-- At capacity one, `insert` deletes the head node and then stores through
the pointer to it. -/
theorem insert_filled_one {b : cbuffer} {h h1 : Heap T} {n : Nat × T} {v : T} {i : Nat}
    (hr : Rep b h (.filled [n])) (hfull : b._size = 1)
    (ha : h.alloc ⟨some v, b._end⟩ = some (i, h1)) :
    insert v b h = .fault .use_after_free := by
  have hown := hr.owned_le
  obtain ⟨_, hs, ⟨x, he⟩, hnd, _⟩ := hr
  have hs1 : Seg h1 b._head b._end ([] ++ [n]) :=
    hs.transport (fun a ha1 => Heap.alloc_read_old ha (hs.addr_le a ha1).2)
  have henot : b._end ∉ ([] ++ [n]).map Prod.fst := (List.nodup_cons.mp hnd).1
  have hloop := insert_loop_seg hs1 henot
    (show 1 + ([] : List (Nat × T)).length ≤ b._size by simp only [List.length_nil]; omega)
    (show ([] : List (Nat × T)).length < b._size + 1 by simp only [List.length_nil]; omega)
  obtain ⟨hp, nx, hrd, hseg⟩ := hs
  have hnx : nx = b._end := hseg
  have hp0 : b._head ≠ 0 := by
    have := Heap.read_ok_le hrd
    omega
  have hEn : b._end ≠ b._head := by
    intro h2
    apply henot
    simp [h2, hp]
  have hrd1 : h1.read b._head = .ok ⟨some n.2, nx⟩ := by
    rw [hp, Heap.alloc_read_old ha (Heap.read_ok_le hrd).2]; exact hrd
  have hE2 : (h1.store b._head none).read b._end = .ok ⟨x, b._head⟩ := by
    rw [Heap.read_store_ne _ _ hEn, Heap.alloc_read_old ha (Heap.read_ok_le he).2]; exact he
  have ht3 : ((h1.store b._head none).store b._end (some ⟨x, nx⟩)).read b._head =
      .error .use_after_free := by
    rw [Heap.read_store_ne _ _ (Ne.symm hEn)]
    exact Heap.read_store_none _ hrd1
  simp only [List.length_nil, Nat.add_zero] at hloop
  rw [← hp] at hloop
  have hloop1 : insert_loop h1 b._end b._size (b._size + 1) b._head 1 =
      .ok (b._head, b._size) := by rw [hloop, hfull]
  simp [insert, ha, hp0, hloop1, hrd1, Heap.delete_ok hrd1, Heap.setNext_ok hE2,
    Heap.setNext_error ht3]

theorem insert_loop_drained {h : Heap T} {e size nx : Nat} {x : Option T}
    {js : List (Nat × T)} (he : h.read e = .ok ⟨x, nx⟩) (hs : Seg h nx e js)
    (hnot : e ∉ js.map Prod.fst) (hlt : js.length < size) :
    ∃ tmp, insert_loop h e size (size + 1) e 1 = .ok (tmp, js.length + 1) ∧
      (js = [] → tmp = e) ∧ (∀ js1 t, js = js1 ++ [t] → tmp = t.1) := by
  by_cases hnil : js = []
  · subst hnil
    have hnx : nx = e := hs
    refine ⟨e, by simp [insert_loop, he, hnx], fun _ => rfl, fun js1 t h1 => ?_⟩
    simp at h1
  · obtain ⟨js1, t, hcat⟩ := exists_snoc hnil
    subst hcat
    have hnx : nx ≠ e := by
      intro heq
      apply hnot
      cases js1 with
      | nil => simp [← heq, hs.head_eq]
      | cons a as => simp [← heq, hs.head_eq]
    simp only [List.length_append, List.length_cons, List.length_nil] at hlt ⊢
    have h1s : 1 < size := by omega
    have hloop := insert_loop_seg hs hnot (show 2 + js1.length ≤ size by omega)
      (show js1.length < size by omega)
    refine ⟨t.1, ?_, fun h1 => by simp at h1, fun js2 t2 h1 => ?_⟩
    · simp only [insert_loop, he, hnx, ne_eq, not_false_eq_true, h1s, and_self, if_true]
      rw [hloop]
      congr 2
      omega
    · have := List.append_inj' h1 rfl
      simp only [List.cons.injEq, and_true] at this
      rw [this.2]

/-- With `_head` on the dummy node and room left, `insert` links the new node
behind the nodes hanging after the dummy node; `_head` stays on the dummy
node, so the buffer keeps reporting no element. -/
theorem insert_drained_room {b : cbuffer} {h h1 : Heap T} {js : List (Nat × T)} {v : T}
    {i : Nat} (hr : Rep b h (.drained js)) (hlt : js.length + 1 < b._size)
    (ha : h.alloc ⟨some v, b._end⟩ = some (i, h1)) :
    ∃ h2, insert v b h = .ok (b, h2) ∧ Rep b h2 (.drained (js ++ [(i, v)])) ∧
      Frame h h2 (Shape.owned b (.drained js)) ∧
      h2.cells.length = h.cells.length + 1 ∧ h2.avail = h1.avail ∧
      i = h.cells.length + 1 := by
  have hown := hr.owned_le
  obtain ⟨hhe, ⟨x, nx, he, hs⟩, hnd, _⟩ := hr
  obtain ⟨hi, _, _⟩ := Heap.alloc_some ha
  have hl1 := Heap.alloc_length ha
  have hEle := (Heap.read_ok_le he)
  have hp0 : b._head ≠ 0 := by omega
  have hEi : b._end ≠ i := by omega
  have he1 : h1.read b._end = .ok ⟨x, nx⟩ := by
    rw [Heap.alloc_read_old ha hEle.2]; exact he
  have hs1 : Seg h1 nx b._end js :=
    hs.transport (fun a ha1 => Heap.alloc_read_old ha (hs.addr_le a ha1).2)
  have henot : b._end ∉ js.map Prod.fst := (List.nodup_cons.mp hnd).1
  obtain ⟨tmp, hloop0, htnil, htsnoc⟩ :=
    insert_loop_drained he1 hs1 henot (show js.length < b._size by omega)
  have hloop : insert_loop h1 b._end b._size (b._size + 1) b._head 1 =
      .ok (tmp, js.length + 1) := by rw [hhe]; exact hloop0
  have hjsi : ∀ a ∈ js.map Prod.fst, a ≠ i := fun a ha1 => by
    have := (hs.addr_le a ha1).2
    omega
  by_cases hnil : js = []
  · subst hnil
    have htmp := htnil rfl
    subst htmp
    have hnx : nx = b._end := hs
    refine ⟨h1.store b._end (some ⟨x, i⟩), ?_, ?_, ?_, by simp; omega, by simp, hi⟩
    · simp only [List.length_nil] at hlt hloop
      simp [insert, ha, hp0, hloop, hlt, Heap.setNext_ok he1]
    · refine ⟨hhe, ⟨x, i, Heap.read_store_some _ _ he1, rfl, b._end, ?_, rfl⟩, ?_, ?_⟩
      · show (h1.store b._end _).read i = _
        rw [Heap.read_store_ne _ _ (Ne.symm hEi)]
        exact Heap.alloc_read_new ha
      · simp [hEi]
      · simp only [List.nil_append, List.length_cons, List.length_nil] at hlt ⊢
        omega
    · refine ⟨by simp; omega, fun q hq hno => ?_⟩
      have hqE : q ≠ b._end := fun h2 => hno (by simp [Shape.owned, h2])
      rw [Heap.read_store_ne _ _ hqE, Heap.alloc_read_old ha hq]
  · obtain ⟨js1, t, hcat⟩ := exists_snoc hnil
    subst hcat
    have htmp := htsnoc js1 t rfl
    subst htmp
    obtain ⟨hseg1, hrt⟩ := Seg.snoc.mp hs1
    simp only [List.map_append, List.map_cons, List.map_nil] at hnd hjsi
    have hnd' : (b._end :: (js1.map Prod.fst ++ [t.1])).Nodup := hnd
    simp only [List.nodup_cons, List.mem_cons, List.mem_append, not_or, nodup_snoc,
      List.not_mem_nil, or_false] at hnd' hjsi
    obtain ⟨⟨hE1, hEt⟩, hdis, hnd1⟩ := hnd'
    simp only [List.length_append, List.length_cons, List.length_nil] at hlt hloop
    have hn : js1.length + 1 + 1 < b._size := hlt
    refine ⟨h1.store t.1 (some ⟨some t.2, i⟩), ?_, ?_, ?_, by simp; omega, by simp, hi⟩
    · simp [insert, ha, hp0, hloop, hn, Heap.setNext_ok hrt]
    · refine ⟨hhe, ⟨x, nx, ?_, ?_⟩, ?_, ?_⟩
      · rw [Heap.read_store_ne _ _ hEt]
        exact he1
      · refine Seg.snoc.mpr ⟨Seg.snoc.mpr ⟨hseg1.transport (fun a ha1 => ?_), ?_⟩, ?_⟩
        · exact Heap.read_store_ne _ _ (fun h2 => hdis (h2 ▸ ha1))
        · exact Heap.read_store_some _ _ hrt
        · show (h1.store t.1 _).read i = _
          rw [Heap.read_store_ne _ _ (Ne.symm (hjsi t.1 (Or.inr rfl)))]
          exact Heap.alloc_read_new ha
      · show (b._end :: ((js1 ++ [t]) ++ [(i, v)]).map Prod.fst).Nodup
        simp only [List.map_append, List.map_cons, List.map_nil, List.nodup_cons,
          List.mem_append, List.mem_cons, not_or, nodup_snoc, List.not_mem_nil, or_false]
        exact ⟨⟨⟨hE1, hEt⟩, hEi⟩, ⟨fun h2 => hjsi i (Or.inl h2) rfl,
          fun h2 => hjsi t.1 (Or.inr rfl) h2.symm⟩, hdis, hnd1⟩
      · show ((js1 ++ [t]) ++ [(i, v)]).length < b._size
        simp only [List.length_append, List.length_cons, List.length_nil]
        omega
    · refine ⟨by simp; omega, fun q hq hno => ?_⟩
      simp only [Shape.owned, List.map_append, List.map_cons, List.map_nil, List.mem_cons,
        List.mem_append, List.not_mem_nil, or_false, not_or] at hno
      rw [Heap.read_store_ne _ _ hno.2.2, Heap.alloc_read_old ha hq]

/-- With `_head` on the dummy node and the nodes behind it one short of the
capacity, `insert` deletes the dummy node and then stores through `_end`. -/
theorem insert_drained_full {b : cbuffer} {h h1 : Heap T} {js : List (Nat × T)} {v : T}
    {i : Nat} (hr : Rep b h (.drained js)) (hfull : js.length + 1 = b._size)
    (ha : h.alloc ⟨some v, b._end⟩ = some (i, h1)) :
    insert v b h = .fault .use_after_free := by
  obtain ⟨hhe, ⟨x, nx, he, hs⟩, hnd, _⟩ := hr
  have hEle := (Heap.read_ok_le he)
  have hp0 : b._head ≠ 0 := by omega
  have he1 : h1.read b._end = .ok ⟨x, nx⟩ := by
    rw [Heap.alloc_read_old ha hEle.2]; exact he
  have hs1 : Seg h1 nx b._end js :=
    hs.transport (fun a ha1 => Heap.alloc_read_old ha (hs.addr_le a ha1).2)
  have henot : b._end ∉ js.map Prod.fst := (List.nodup_cons.mp hnd).1
  obtain ⟨tmp, hloop0, _, _⟩ :=
    insert_loop_drained he1 hs1 henot (show js.length < b._size by omega)
  have hloop : insert_loop h1 b._end b._size (b._size + 1) b._head 1 =
      .ok (tmp, b._size) := by rw [hhe, hloop0, hfull]
  have hrd1 : h1.read b._head = .ok ⟨x, nx⟩ := hhe ▸ he1
  have hE2 : (h1.store b._head none).read b._end = .error .use_after_free := by
    rw [← hhe]
    exact Heap.read_store_none _ hrd1
  simp [insert, ha, hp0, hloop, hrd1, Heap.delete_ok hrd1, Heap.setNext_error hE2]

/-! ## Call sequences keep the shape -/

/-- What one returning `insert` does to a buffer of a known shape. -/
theorem insert_rep {b b1 : cbuffer} {h h1 : Heap T} {s : Shape T} {v : T}
    (hr : Rep b h s) (hst : insert v b h = .ok (b1, h1)) :
    ∃ s1, Rep b1 h1 s1 ∧ b1._size = b._size ∧ Frame h h1 (s.owned b) ∧
      (∀ a ∈ s1.owned b1, a ∈ s.owned b ∨ h.cells.length < a) ∧
      ((s = .empty ∧ s1.vals = [v]) ∨
        (s.vals ≠ [] ∧ s.vals.length < b._size ∧ s1.vals = s.vals ++ [v]) ∨
        (s.vals ≠ [] ∧ s.vals.length = b._size ∧ 2 ≤ b._size ∧
          s1.vals = s.vals.tail ++ [v]) ∨
        ((∃ js, s = .drained js) ∧ s1.vals = [])) := by
  cases hal : h.alloc ⟨some v, b._end⟩ with
  | none => rw [insert_alloc_none hal] at hst; cases hst
  | some r =>
    obtain ⟨i, ha1⟩ := r
    cases s with
    | empty =>
      by_cases hsz : b._size = 0
      · rw [insert_empty_zero hr hsz hal] at hst; cases hst
      · have hpos : 0 < b._size := Nat.pos_of_ne_zero hsz
        cases hal2 : ha1.alloc ⟨none, i⟩ with
        | none => rw [insert_empty_threw hr hpos hal hal2] at hst; cases hst
        | some r2 =>
          obtain ⟨e, ha2⟩ := r2
          obtain ⟨h3, hins, hrep, hfr, _, _, hi, he⟩ := insert_empty hr hpos hal hal2
          rw [hins] at hst
          cases hst
          refine ⟨.filled [(i, v)], hrep, rfl, hfr, ?_, Or.inl ⟨rfl, rfl⟩⟩
          intro a ha
          simp only [Shape.owned, List.map_cons, List.map_nil, List.mem_cons,
            List.not_mem_nil, or_false] at ha
          right
          rcases ha with ha | ha <;> omega
    | filled ns =>
      have hne : ns ≠ [] := hr.1
      have hle : ns.length ≤ b._size := hr.2.2.2.2
      have hvne : (Shape.filled ns).vals ≠ [] := by
        simpa [Shape.vals] using hne
      by_cases hlt : ns.length < b._size
      · obtain ⟨h2, hins, hrep, hfr, _, _, hi⟩ := insert_filled_room hr hlt hal
        rw [hins] at hst
        cases hst
        refine ⟨.filled (ns ++ [(i, v)]), hrep, rfl, hfr, ?_,
          Or.inr (Or.inl ⟨hvne, by simpa [Shape.vals] using hlt, by simp [Shape.vals]⟩)⟩
        intro a ha
        simp only [Shape.owned, List.map_append, List.map_cons, List.map_nil, List.mem_cons,
          List.mem_append, List.not_mem_nil, or_false] at ha ⊢
        rcases ha with ha | ha | ha
        · exact Or.inl (Or.inl ha)
        · exact Or.inl (Or.inr ha)
        · right; omega
      · have hfull : ns.length = b._size := by omega
        cases ns with
        | nil => exact absurd rfl hne
        | cons n rest =>
          by_cases hrest : rest = []
          · subst hrest
            rw [insert_filled_one hr (by simpa using hfull.symm) hal] at hst
            cases hst
          · obtain ⟨nx, h4, hins, hrep, hfr, _, _, hi⟩ :=
              insert_filled_full hr hrest hfull hal
            rw [hins] at hst
            cases hst
            have h2 : 2 ≤ b._size := by
              cases rest with
              | nil => exact absurd rfl hrest
              | cons m ms => simp only [List.length_cons] at hfull; omega
            refine ⟨.filled (rest ++ [(i, v)]), hrep, rfl, hfr, ?_,
              Or.inr (Or.inr (Or.inl ⟨hvne, by simpa [Shape.vals] using hfull, h2,
                by simp [Shape.vals]⟩))⟩
            intro a ha
            simp only [Shape.owned, List.map_append, List.map_cons, List.map_nil,
              List.mem_cons, List.mem_append, List.not_mem_nil, or_false] at ha ⊢
            rcases ha with ha | ha | ha
            · exact Or.inl (Or.inl ha)
            · exact Or.inl (Or.inr (Or.inr ha))
            · right; omega
    | drained js =>
      have hlt0 : js.length < b._size := hr.2.2.2
      by_cases hlt : js.length + 1 < b._size
      · obtain ⟨h2, hins, hrep, hfr, _, _, hi⟩ := insert_drained_room hr hlt hal
        rw [hins] at hst
        cases hst
        refine ⟨.drained (js ++ [(i, v)]), hrep, rfl, hfr, ?_,
          Or.inr (Or.inr (Or.inr ⟨⟨js, rfl⟩, rfl⟩))⟩
        intro a ha
        simp only [Shape.owned, List.map_append, List.map_cons, List.map_nil, List.mem_cons,
          List.mem_append, List.not_mem_nil, or_false] at ha ⊢
        rcases ha with ha | ha | ha
        · exact Or.inl (Or.inl ha)
        · exact Or.inl (Or.inr ha)
        · right; omega
      · rw [insert_drained_full hr (by omega) hal] at hst
        cases hst

/-- What one returning `delete_head` does to a buffer of a known shape. -/
theorem delete_head_rep {b b1 : cbuffer} {h h1 : Heap T} {s : Shape T}
    (hr : Rep b h s) (hst : delete_head b h = .ok (b1, h1)) :
    ∃ s1, Rep b1 h1 s1 ∧ b1._size = b._size ∧ Frame h h1 (s.owned b) ∧
      (∀ a ∈ s1.owned b1, a ∈ s.owned b) ∧ s1.vals = s.vals.tail ∧
      h1.cells.length = h.cells.length := by
  cases s with
  | empty =>
    rw [delete_head_empty hr] at hst
    cases hst
    exact ⟨.empty, hr, rfl, Frame.refl _ _, fun a ha => ha, rfl, rfl⟩
  | filled ns =>
    cases ns with
    | nil => exact absurd rfl hr.1
    | cons n rest =>
      obtain ⟨nx, h2, hdel, hrep, hfr, hlen, _⟩ := delete_head_filled hr
      rw [hdel] at hst
      cases hst
      cases rest with
      | nil =>
        refine ⟨.drained [], hrep, rfl, hfr, ?_, by simp [Shape.vals], hlen⟩
        intro a ha
        simp only [Shape.owned, List.map_nil, List.mem_cons, List.not_mem_nil,
          or_false] at ha
        simp [Shape.owned, ha]
      | cons m ms =>
        refine ⟨.filled (m :: ms), hrep, rfl, hfr, ?_, by simp [Shape.vals], hlen⟩
        intro a ha
        simp only [Shape.owned, List.map_cons, List.mem_cons] at ha ⊢
        rcases ha with ha | ha | ha
        · exact Or.inl ha
        · exact Or.inr (Or.inr (Or.inl ha))
        · exact Or.inr (Or.inr (Or.inr ha))
  | drained js =>
    rw [delete_head_drained hr] at hst
    cases hst

theorem suffix_append_right {α : Type} {a l : List α} (c : List α) (hs : a <:+ l) :
    a ++ c <:+ l ++ c := by
  obtain ⟨t, ht⟩ := hs
  exact ⟨t, by rw [← ht, List.append_assoc]⟩

theorem inserted_cons (op : Op T) (ops : List (Op T)) :
    inserted (op :: ops) = inserted [op] ++ inserted ops := by
  cases op <;> simp [inserted]

/-- One returning call keeps the buffer in one of the three shapes; the
elements held afterwards are a final part of the elements held before
followed by the value inserted, if any. -/
theorem step_rep {op : Op T} {b b1 : cbuffer} {h h1 : Heap T} {s : Shape T}
    (hr : Rep b h s) (hst : step op b h = .ok (b1, h1)) :
    ∃ s1, Rep b1 h1 s1 ∧ b1._size = b._size ∧ Frame h h1 (s.owned b) ∧
      (∀ a ∈ s1.owned b1, a ∈ s.owned b ∨ h.cells.length < a) ∧
      s1.vals <:+ s.vals ++ inserted [op] := by
  cases op with
  | insert v =>
    obtain ⟨s1, hrep, hsz, hfr, hown, hv⟩ := insert_rep hr hst
    refine ⟨s1, hrep, hsz, hfr, hown, ?_⟩
    simp only [inserted]
    rcases hv with ⟨_, hv⟩ | ⟨_, _, hv⟩ | ⟨_, _, _, hv⟩ | ⟨_, hv⟩
    · rw [hv]; exact List.suffix_append _ _
    · rw [hv]
    · rw [hv]; exact suffix_append_right _ (List.tail_suffix _)
    · rw [hv]; exact List.nil_suffix
  | delete_head =>
    simp only [step] at hst
    cases hd : delete_head b h with
    | error f => rw [hd] at hst; cases hst
    | ok r =>
      rw [hd] at hst
      cases hst
      obtain ⟨s1, hrep, hsz, hfr, hown, hv, _⟩ := delete_head_rep hr hd
      refine ⟨s1, hrep, hsz, hfr, fun a ha => Or.inl (hown a ha), ?_⟩
      rw [hv]
      simp only [inserted, List.append_nil]
      exact List.tail_suffix _
  | clear =>
    simp only [step] at hst
    obtain ⟨h2, hcl, hfr, _, _⟩ := clear_rep hr
    rw [hcl] at hst
    cases hst
    refine ⟨.empty, rfl, rfl, hfr, ?_, List.nil_suffix⟩
    intro a ha
    simp [Shape.owned] at ha

/-- A returning call sequence keeps the buffer in one of the three shapes. -/
theorem run_rep (ops : List (Op T)) :
    ∀ {b b1 : cbuffer} {h h1 : Heap T} {s : Shape T}, Rep b h s →
      run ops b h = .ok (b1, h1) →
      ∃ s1, Rep b1 h1 s1 ∧ b1._size = b._size ∧ Frame h h1 (s.owned b) ∧
        (∀ a ∈ s1.owned b1, a ∈ s.owned b ∨ h.cells.length < a) ∧
        s1.vals <:+ s.vals ++ inserted ops := by
  induction ops with
  | nil =>
    intro b b1 h h1 s hr hrun
    simp only [run] at hrun
    cases hrun
    exact ⟨s, hr, rfl, Frame.refl _ _, fun a ha => Or.inl ha, by simp [inserted]⟩
  | cons op ops ih =>
    intro b b1 h h1 s hr hrun
    simp only [run] at hrun
    cases hst : step op b h with
    | threw r => rw [hst] at hrun; cases hrun
    | fault f => rw [hst] at hrun; cases hrun
    | ok r =>
      obtain ⟨b2, h2⟩ := r
      rw [hst] at hrun
      simp only at hrun
      obtain ⟨s2, hrep2, hsz2, hfr2, hown2, hv2⟩ := step_rep hr hst
      obtain ⟨s1, hrep1, hsz1, hfr1, hown1, hv1⟩ := ih hrep2 hrun
      refine ⟨s1, hrep1, hsz1.trans hsz2, Frame.trans hfr2 hfr1 hown2, ?_, ?_⟩
      · intro a ha
        rcases hown1 a ha with h3 | h3
        · exact hown2 a h3
        · right
          have := hfr2.1
          omega
      · rw [inserted_cons, ← List.append_assoc]
        exact hv1.trans (suffix_append_right _ hv2)

/-- A freshly constructed buffer has no chain. -/
theorem rep_new (size : Nat) (h : Heap T) : Rep (cbuffer.new size) h .empty := rfl

/-- Every buffer reached from `cbuffer(size)` by returning calls is in one of
the three shapes, and holds a final part of the values inserted so far. -/
theorem reach_rep {ops : List (Op T)} {size : Nat} {b : cbuffer} {h0 h : Heap T}
    (hrun : run ops (cbuffer.new size) h0 = .ok (b, h)) :
    ∃ s, Rep b h s ∧ b._size = size % 2 ^ 32 ∧ s.vals <:+ inserted ops := by
  obtain ⟨s, hrep, hsz, _, _, hv⟩ := run_rep ops (rep_new size h0) hrun
  exact ⟨s, hrep, hsz, by simpa [Shape.vals] using hv⟩

/-! ## Observations are functions of the shape -/

/-- Reading `b[i]` is determined by the elements of the shape. -/
theorem index_get_rep {b : cbuffer} {h : Heap T} {s : Shape T} (hr : Rep b h s) (i : Nat) :
    index_get b h i =
      match s.vals[i]? with
      | some v => .ok v
      | none => .error .assert_failed := by
  by_cases hi : i < s.vals.length
  · cases s with
    | empty => simp [Shape.vals] at hi
    | drained js => simp [Shape.vals] at hi
    | filled ns =>
      simp only [Shape.vals, List.length_map] at hi
      rw [index_get_filled hr i hi]
      simp [Shape.vals, hi]
  · rw [index_get_ge hr i (by omega), List.getElem?_eq_none (by omega)]

/-- Two buffers whose shapes hold the same elements answer `get_size` and
every `operator[]` read alike. -/
theorem observe_eq {b c : cbuffer} {h h1 : Heap T} {s s1 : Shape T} (hr : Rep b h s)
    (hr1 : Rep c h1 s1) (hv : s1.vals = s.vals) :
    get_size c h1 = get_size b h ∧ ∀ i, index_get c h1 i = index_get b h i := by
  refine ⟨by rw [get_size_rep hr, get_size_rep hr1, hv], fun i => ?_⟩
  rw [index_get_rep hr, index_get_rep hr1, hv]

/-! ## `insert` with room, memory never running out -/

/-- In a buffer that is not full and whose `_head` is not on the dummy node,
`insert` returns and appends the value. -/
theorem insert_room {b : cbuffer} {h : Heap T} {s : Shape T} (v : T) (hr : Rep b h s)
    (hnd : ∀ js, s ≠ .drained js) (hlt : s.vals.length < b._size) (hav : h.avail = none) :
    ∃ b1 h1 ns1, insert v b h = .ok (b1, h1) ∧ Rep b1 h1 (.filled ns1) ∧
      ns1.map Prod.snd = s.vals ++ [v] ∧ b1._size = b._size ∧ Frame h h1 (s.owned b) ∧
      (∀ a ∈ Shape.owned b1 (.filled ns1), a ∈ s.owned b ∨ h.cells.length < a) ∧
      h1.avail = none := by
  have hal := Heap.alloc_eq h ⟨some v, b._end⟩ hav
  cases s with
  | drained js => exact absurd rfl (hnd js)
  | empty =>
    have hal2 := Heap.alloc_eq (T := T) ⟨h.cells ++ [some ⟨some v, b._end⟩], none⟩
      ⟨none, h.cells.length + 1⟩ rfl
    obtain ⟨h3, hins, hrep, hfr, _, hav3, hi, he⟩ :=
      insert_empty hr (Nat.lt_of_le_of_lt (Nat.zero_le _) hlt) hal hal2
    refine ⟨_, h3, _, hins, hrep, by simp [Shape.vals], rfl, hfr, ?_, by simpa using hav3⟩
    intro a ha
    simp only [Shape.owned, List.map_cons, List.map_nil, List.mem_cons, List.not_mem_nil,
      or_false] at ha
    right
    simp only [List.length_append, List.length_cons, List.length_nil] at ha
    rcases ha with ha | ha <;> omega
  | filled ns =>
    simp only [Shape.vals, List.length_map] at hlt
    obtain ⟨h2, hins, hrep, hfr, _, hav2, hi⟩ := insert_filled_room hr hlt hal
    refine ⟨b, h2, _, hins, hrep, by simp [Shape.vals], rfl, hfr, ?_, by simpa using hav2⟩
    intro a ha
    simp only [Shape.owned, List.map_append, List.map_cons, List.map_nil, List.mem_cons,
      List.mem_append, List.not_mem_nil, or_false] at ha ⊢
    rcases ha with ha | ha | ha
    · exact Or.inl (Or.inl ha)
    · exact Or.inl (Or.inr ha)
    · right; omega

/-! ## The copy constructor -/

/-- The loop of the copy constructor, started on the part `rest` of the
source chain with the nodes of the buffer under construction all allocated
after the first `n0` cells: it returns, appends the values of `rest`, and
leaves the first `n0` cells as they were. -/
theorem copy_loop_seg {e n0 : Nat} {rest : List (Nat × T)} :
    ∀ {p fuel : Nat} {c : cbuffer} {h : Heap T} {sc : Shape T},
      Seg h p e rest → e ∉ rest.map Prod.fst → (∀ a ∈ rest.map Prod.fst, a ≤ n0) →
      n0 ≤ h.cells.length → Rep c h sc → (∀ js, sc ≠ .drained js) →
      (∀ a ∈ sc.owned c, n0 < a) → sc.vals.length + rest.length ≤ c._size →
      h.avail = none → rest.length < fuel →
      ∃ c1 h1 s1, copy_loop e fuel p c h = .ok (c1, h1) ∧ Rep c1 h1 s1 ∧
        (∀ js, s1 ≠ .drained js) ∧
        s1.vals = sc.vals ++ rest.map Prod.snd ∧ c1._size = c._size ∧
        (∀ q, q ≤ n0 → h1.read q = h.read q) ∧ (∀ a ∈ s1.owned c1, n0 < a) ∧
        h.cells.length ≤ h1.cells.length ∧ h1.avail = none := by
  induction rest with
  | nil =>
    intro p fuel c h sc hs _ _ _ hr hnd hown _ hav hf
    have hp : p = e := hs
    cases fuel with
    | zero => simp at hf
    | succ k =>
      exact ⟨c, h, sc, by simp [copy_loop, hp], hr, hnd, by simp, rfl, fun _ _ => rfl, hown,
        Nat.le_refl _, hav⟩
  | cons n rest ih =>
    intro p fuel c h sc hs he hsrc hn0 hr hnd hown hsz hav hf
    obtain ⟨hp, nx, hrd, hrest⟩ := hs
    cases fuel with
    | zero => simp at hf
    | succ k =>
      have hk : rest.length < k := by simpa using hf
      simp only [List.map_cons, List.mem_cons, not_or, forall_eq_or_imp] at he hsrc
      have hpe : n.1 ≠ e := fun h2 => he.1 h2.symm
      simp only [List.length_cons] at hsz
      obtain ⟨c1, h1, ns1, hins, hrep1, hv1, hsz1, hfr1, hown1, hav1⟩ :=
        insert_room n.2 hr hnd (by omega) hav
      have hkeep : ∀ q, q ≤ n0 → h1.read q = h.read q := fun q hq =>
        hfr1.2 q (Nat.le_trans hq hn0) (fun hm => by have := hown q hm; omega)
      have hown1' : ∀ a ∈ Shape.owned c1 (.filled ns1), n0 < a := by
        intro a ha
        rcases hown1 a ha with h2 | h2
        · exact hown a h2
        · omega
      have hrest1 : Seg h1 nx e rest :=
        hrest.transport (fun a ha => hkeep a (hsrc.2 a ha))
      have hrd1 : h1.read n.1 = .ok ⟨some n.2, nx⟩ := by
        rw [hkeep n.1 hsrc.1]; exact hrd
      obtain ⟨c2, h2, s2, hloop, hrep2, hnd2, hv2, hsz2, hkeep2, hown2, hlen2, hav2⟩ :=
        ih hrest1 he.2 hsrc.2 (Nat.le_trans hn0 hfr1.1) hrep1 (fun js => by simp)
          hown1' (by
            have : (Shape.filled ns1).vals.length = sc.vals.length + 1 := by
              simp [Shape.vals, hv1]
            rw [this, hsz1]
            omega) hav1 hk
      refine ⟨c2, h2, s2, ?_, hrep2, hnd2, ?_, hsz2.trans hsz1, ?_, hown2,
        Nat.le_trans hfr1.1 hlen2, hav2⟩
      · subst hp
        simp [copy_loop, hpe, hrd, hins, hrd1, hloop]
      · rw [hv2]
        simp [Shape.vals, hv1]
      · intro q hq
        rw [hkeep2 q hq, hkeep q hq]

/-- The copy constructor on a buffer in one of the three shapes, memory never
running out: it returns a buffer with the same capacity holding the same
elements, built from new nodes only. -/
theorem copy_rep {b : cbuffer} {h : Heap T} {s : Shape T} (hr : Rep b h s)
    (hav : h.avail = none) :
    ∃ c h1 s1, copy b h = .ok (c, h1) ∧ Rep c h1 s1 ∧ s1.vals = s.vals ∧
      c._size = b._size ∧ (∀ q, q ≤ h.cells.length → h1.read q = h.read q) ∧
      (∀ a ∈ s1.owned c, h.cells.length < a) ∧ h.cells.length ≤ h1.cells.length ∧
      h1.avail = none := by
  have hlen := length_le_cells hr.owned_nodup hr.owned_le
  cases s with
  | empty =>
    have h0 : b._head = 0 := hr
    exact ⟨⟨0, 0, b._size⟩, h, .empty, by simp [copy, h0], rfl, rfl, rfl, fun _ _ => rfl,
      by simp [Shape.owned], Nat.le_refl _, hav⟩
  | drained js =>
    obtain ⟨hhe, ⟨x, nx, he, _⟩, _, _⟩ := hr
    have := Heap.read_ok_le he
    have hp : b._end ≠ 0 := by omega
    exact ⟨⟨0, 0, b._size⟩, h, .empty,
      by simp [copy, hhe, hp, copy_loop, rethrow_cleared], rfl, rfl, rfl,
      fun _ _ => rfl, by simp [Shape.owned], Nat.le_refl _, hav⟩
  | filled ns =>
    have hown := hr.owned_le
    obtain ⟨hne, hs, _, hnd, hle⟩ := hr
    have hp0 : b._head ≠ 0 := by
      cases ns with
      | nil => exact absurd rfl hne
      | cons n ns => exact hs.head_pos
    simp only [Shape.owned, List.length_cons, List.length_map] at hlen
    obtain ⟨c1, h1, s1, hloop, hrep1, _, hv1, hsz1, hkeep, hown1, hlen1, hav1⟩ :=
      copy_loop_seg hs (List.nodup_cons.mp hnd).1
        (show ∀ a ∈ ns.map Prod.fst, a ≤ h.cells.length from
          fun a ha => (hs.addr_le a ha).2)
        (Nat.le_refl _) (show Rep ⟨0, 0, b._size⟩ h Shape.empty from rfl)
        (fun js => by simp) (by simp [Shape.owned]) (by simpa [Shape.vals] using hle) hav
        (show ns.length < h.cells.length + 1 by omega)
    refine ⟨c1, h1, s1, ?_, hrep1, by simpa [Shape.vals] using hv1, hsz1, hkeep, hown1,
      hlen1, hav1⟩
    simp [copy, hp0, hloop, rethrow_cleared]

/-! ## The bounded loops never run out of fuel -/

theorem Heap.read_ne_no_fuel (h : Heap T) (p : Nat) : h.read p ≠ .error .no_fuel := by
  cases p with
  | zero => simp [Heap.read]
  | succ a =>
    simp only [Heap.read]
    split <;> simp

/-- The loop of `insert` stops within the fuel that `insert` gives it, in
every free store. -/
theorem insert_loop_total (h : Heap T) (e size : Nat) :
    ∀ fuel tmp n, 0 < fuel → size < fuel + n →
      insert_loop h e size fuel tmp n ≠ .error .no_fuel := by
  intro fuel
  induction fuel with
  | zero => intro tmp n h0; exact absurd h0 (Nat.lt_irrefl 0)
  | succ k ih =>
    intro tmp n _ hsz
    simp only [insert_loop]
    cases hr : h.read tmp with
    | error f =>
      have := Heap.read_ne_no_fuel h tmp
      rw [hr] at this
      simpa using this
    | ok it =>
      simp only
      split
      · rename_i hc
        exact ih it.next (n + 1) (by omega) (by omega)
      · simp

/-- Deleting a live node lowers the number of live nodes by one. -/
theorem live_store_none {cells : List (Option (item T))} {a : Nat} {it : item T}
    (hc : cells[a]? = some (some it)) :
    (cells.set a none).countP Option.isSome + 1 = cells.countP Option.isSome := by
  induction cells generalizing a with
  | nil => simp at hc
  | cons c cs ih =>
    cases a with
    | zero =>
      simp only [List.getElem?_cons_zero, Option.some.injEq] at hc
      subst hc
      simp [List.countP_cons]
    | succ a =>
      simp only [List.getElem?_cons_succ] at hc
      have := ih hc
      simp only [List.set_cons_succ, List.countP_cons]
      omega

/-- The loop of `clear` stops within the fuel that `clear` gives it, in every
free store: each round deletes a live node. -/
theorem clear_loop_total (e : Nat) :
    ∀ fuel (h : Heap T) tmp, h.cells.countP Option.isSome < fuel →
      clear_loop e fuel h tmp ≠ .error .no_fuel := by
  intro fuel
  induction fuel with
  | zero => intro h tmp h0; exact absurd h0 (Nat.not_lt_zero _)
  | succ k ih =>
    intro h tmp hlive
    simp only [clear_loop]
    split
    · simp
    · cases hr : h.read tmp with
      | error f =>
        have := Heap.read_ne_no_fuel h tmp
        rw [hr] at this
        simpa using this
      | ok it =>
        simp only [Heap.delete_ok hr]
        apply ih
        cases tmp with
        | zero => simp [Heap.read] at hr
        | succ a =>
          have hc : h.cells[a]? = some (some it) := by
            simp only [Heap.read] at hr
            split at hr <;> simp_all
          have := live_store_none hc
          simp only [Heap.store]
          omega

/-- `clear` never runs out of fuel. -/
theorem clear_total (b : cbuffer) (h : Heap T) : clear b h ≠ .error .no_fuel := by
  simp only [clear]
  split
  · simp
  · have := clear_loop_total b._end (h.cells.length + 1) h b._head
      (Nat.lt_succ_of_le (List.countP_le_length _))
    split
    · rename_i f hf
      intro h2
      apply this
      rw [hf]
      exact congrArg Except.error (Except.error.inj h2)
    · simp

theorem Heap.read_error_ne {h : Heap T} {p : Nat} {f : Fault} (hr : h.read p = .error f) :
    f ≠ .no_fuel := by
  intro hf
  subst hf
  exact Heap.read_ne_no_fuel h p hr

theorem Heap.setNext_error_ne {h : Heap T} {p n : Nat} {f : Fault}
    (hr : h.setNext p n = .error f) : f ≠ .no_fuel := by
  cases hrd : h.read p with
  | error g =>
    rw [Heap.setNext_error hrd] at hr
    cases hr
    exact Heap.read_error_ne hrd
  | ok it =>
    rw [Heap.setNext_ok hrd] at hr
    cases hr

theorem Heap.delete_error_ne {h : Heap T} {p : Nat} {f : Fault}
    (hr : h.delete p = .error f) : f ≠ .no_fuel := by
  cases hrd : h.read p with
  | error g =>
    simp only [Heap.delete, hrd] at hr
    split at hr
    · cases hr
    · cases hr
      exact Heap.read_error_ne hrd
  | ok it =>
    rw [Heap.delete_ok hrd] at hr
    cases hr

/-- `insert` never runs out of fuel: whatever the free store, it returns,
throws or hits a genuine fault. -/
theorem insert_total (v : T) (b : cbuffer) (h : Heap T) :
    insert v b h ≠ .fault .no_fuel := by
  have hloop : ∀ h1 : Heap T,
      insert_loop h1 b._end b._size (b._size + 1) b._head 1 ≠ .error .no_fuel :=
    fun h1 => insert_loop_total h1 b._end b._size (b._size + 1) b._head 1
      (Nat.succ_pos _) (by omega)
  intro hins
  simp only [insert] at hins
  split at hins
  · cases hins
  · split at hins
    · split at hins
      · cases hins
      · split at hins
        · rename_i f hf
          exact Heap.setNext_error_ne hf (Outcome.fault.inj hins)
        · cases hins
    · split at hins
      · rename_i f hf
        apply hloop _
        rw [hf, Outcome.fault.inj hins]
      · split at hins
        · split at hins
          · rename_i f hf
            exact Heap.setNext_error_ne hf (Outcome.fault.inj hins)
          · cases hins
        · split at hins
          · split at hins
            · rename_i f hf
              exact Heap.read_error_ne hf (Outcome.fault.inj hins)
            · split at hins
              · rename_i f hf
                exact Heap.delete_error_ne hf (Outcome.fault.inj hins)
              · split at hins
                · rename_i f hf
                  exact Heap.setNext_error_ne hf (Outcome.fault.inj hins)
                · split at hins
                  · rename_i f hf
                    exact Heap.setNext_error_ne hf (Outcome.fault.inj hins)
                  · cases hins
          · cases hins

/-! ## The capacity member never changes -/

/-- `insert` leaves `_size` as it was, whether it returns or throws. -/
theorem insert_size {v : T} {b : cbuffer} {h : Heap T} {r : cbuffer × Heap T}
    (hins : insert v b h = .ok r ∨ insert v b h = .threw r) : r.1._size = b._size := by
  simp only [insert] at hins
  repeat' split at hins
  all_goals (rcases hins with hins | hins <;> first | (cases hins; rfl) | cases hins)

theorem delete_head_size {b b1 : cbuffer} {h h1 : Heap T}
    (hd : delete_head b h = .ok (b1, h1)) : b1._size = b._size ∧ b1._end = b._end := by
  simp only [delete_head] at hd
  repeat' split at hd
  all_goals first | (cases hd; exact ⟨rfl, rfl⟩) | cases hd

theorem clear_size {b b1 : cbuffer} {h h1 : Heap T}
    (hc : clear b h = .ok (b1, h1)) : b1._size = b._size ∧ b1._end = b._end := by
  simp only [clear] at hc
  repeat' split at hc
  all_goals first | (cases hc; exact ⟨rfl, rfl⟩) | cases hc

/-! ## Sequences of `insert`, memory never running out -/

/-- At capacity (two or more) `insert` returns, drops the oldest value and
appends the new one. -/
theorem insert_evict {b : cbuffer} {h : Heap T} {ns : List (Nat × T)} (v : T)
    (hr : Rep b h (.filled ns)) (hfull : ns.length = b._size) (h2 : 2 ≤ b._size)
    (hav : h.avail = none) :
    ∃ b1 h1 ns1, insert v b h = .ok (b1, h1) ∧ Rep b1 h1 (.filled ns1) ∧
      ns1.map Prod.snd = (ns.map Prod.snd).tail ++ [v] ∧ b1._size = b._size ∧
      h1.avail = none := by
  have hal := Heap.alloc_eq h ⟨some v, b._end⟩ hav
  cases ns with
  | nil => simp only [List.length_nil] at hfull; omega
  | cons n rest =>
    have hrest : rest ≠ [] := by
      intro h0
      subst h0
      simp only [List.length_cons, List.length_nil] at hfull
      omega
    obtain ⟨nx, h4, hins, hrep, _, _, hav4, _⟩ := insert_filled_full hr hrest hfull hal
    exact ⟨_, h4, _, hins, hrep, by simp, rfl, by simpa using hav4⟩

/-- A run of `insert` calls on a buffer of capacity two or more, whose `_head`
is not on the dummy node: every call returns, and the number of elements grows
by one per call until it reaches the capacity. -/
theorem run_inserts (vs : List T) :
    ∀ {b : cbuffer} {h : Heap T} {s : Shape T}, Rep b h s → (∀ js, s ≠ .drained js) →
      2 ≤ b._size → h.avail = none →
      ∃ b1 h1 s1, run (vs.map Op.insert) b h = .ok (b1, h1) ∧ Rep b1 h1 s1 ∧
        (∀ js, s1 ≠ .drained js) ∧
        s1.vals.length = min (s.vals.length + vs.length) b._size ∧
        b1._size = b._size ∧ h1.avail = none := by
  induction vs with
  | nil =>
    intro b h s hr hnd _ hav
    have hle : s.vals.length ≤ b._size := by
      cases s with
      | empty => simp [Shape.vals]
      | drained js => simp [Shape.vals]
      | filled ns => simpa [Shape.vals] using hr.2.2.2.2
    exact ⟨b, h, s, rfl, hr, hnd, by simp [Nat.min_eq_left hle], rfl, hav⟩
  | cons v vs ih =>
    intro b h s hr hnd h2 hav
    have hle : s.vals.length ≤ b._size := by
      cases s with
      | empty => simp [Shape.vals]
      | drained js => simp [Shape.vals]
      | filled ns => simpa [Shape.vals] using hr.2.2.2.2
    have hstep : ∃ b1 h1 ns1, insert v b h = .ok (b1, h1) ∧ Rep b1 h1 (.filled ns1) ∧
        ns1.length = min (s.vals.length + 1) b._size ∧ b1._size = b._size ∧
        h1.avail = none := by
      by_cases hlt : s.vals.length < b._size
      · obtain ⟨b1, h1, ns1, hins, hrep, hv, hsz, _, _, hav1⟩ := insert_room v hr hnd hlt hav
        refine ⟨b1, h1, ns1, hins, hrep, ?_, hsz, hav1⟩
        have := congrArg List.length hv
        simp only [List.length_map, List.length_append, List.length_cons,
          List.length_nil] at this
        omega
      · cases s with
        | empty => simp [Shape.vals] at hlt; omega
        | drained js => exact absurd rfl (hnd js)
        | filled ns =>
          simp only [Shape.vals, List.length_map] at hlt hle ⊢
          obtain ⟨b1, h1, ns1, hins, hrep, hv, hsz, hav1⟩ :=
            insert_evict v hr (by omega) h2 hav
          refine ⟨b1, h1, ns1, hins, hrep, ?_, hsz, hav1⟩
          have := congrArg List.length hv
          simp only [List.length_map, List.length_append, List.length_cons,
            List.length_nil, List.length_tail] at this
          omega
    obtain ⟨b1, h1, ns1, hins, hrep, hlen, hsz, hav1⟩ := hstep
    obtain ⟨b2, h2', s2, hrun, hrep2, hnd2, hlen2, hsz2, hav2⟩ :=
      ih hrep (fun js => by simp) (by omega) hav1
    refine ⟨b2, h2', s2, ?_, hrep2, hnd2, ?_, hsz2.trans hsz, hav2⟩
    · simp only [List.map_cons, run, step, hins]
      exact hrun
    · rw [hlen2, hsz]
      simp only [Shape.vals, List.length_map, hlen, List.length_cons]
      omega

theorem inserted_map (vs : List T) : inserted (vs.map Op.insert) = vs := by
  induction vs with
  | nil => rfl
  | cons v vs ih => simp [inserted, ih]

theorem index_loop_seg_end {h : Heap T} {ns : List (Nat × T)} :
    ∀ {p q : Nat}, Seg h p q ns → index_loop h ns.length p = .ok q := by
  induction ns with
  | nil =>
    intro p q hs
    have : p = q := hs
    simp [index_loop, this]
  | cons n ns ih =>
    intro p q hs
    obtain ⟨hp, nx, hr, hrest⟩ := hs
    subst hp
    simp only [List.length_cons, index_loop, hr]
    exact ih hrest

/-- Reading all positions of a buffer yields the elements of its shape. -/
theorem contents_rep {b : cbuffer} {h : Heap T} {s : Shape T} (hr : Rep b h s) :
    contents b h = .ok s.vals := by
  have hget : ∀ i, index_get b h i =
      match s.vals[i]? with
      | some v => .ok v
      | none => .error .assert_failed := index_get_rep hr
  have key : ∀ (l : List T) (k : Nat) (f : Nat → Except Fault T),
      (∀ i, f (k + i) = match l[i]? with | some v => .ok v | none => .error .assert_failed) →
      (List.range' k l.length).mapM f = .ok l := by
    intro l
    induction l with
    | nil => intro k f _; rfl
    | cons a l ih =>
      intro k f hf
      rw [List.length_cons, List.range'_succ, List.mapM_cons]
      have h0 := hf 0
      simp only [List.getElem?_cons_zero, Nat.add_zero] at h0
      have h1 := ih (k + 1) f (fun i => by
        have := hf (i + 1)
        simp only [List.getElem?_cons_succ] at this
        rw [← this]
        congr 1
        omega)
      rw [h0, h1]
      rfl
  simp only [contents, get_size_rep hr, List.range_eq_range']
  exact key s.vals 0 _ (fun i => by rw [Nat.zero_add]; exact hget i)

/-! ## Calls on one object among several -/

theorem Frame.mono {h h1 : Heap T} {own own1 : List Nat} (hf : Frame h h1 own)
    (hsub : ∀ a ∈ own, a ∈ own1) : Frame h h1 own1 :=
  ⟨hf.1, fun q hq hno => hf.2 q hq (fun hm => hno (hsub q hm))⟩

theorem Shape.owned_sub_ptrs (b : cbuffer) (s : Shape T) : ∀ a ∈ s.owned b, a ∈ s.ptrs b :=
  fun _ ha => List.mem_cons_of_mem _ ha

/-- In a shape with a chain the dummy node is one of the nodes of the object,
and it is live. -/
theorem Rep.end_mem {b : cbuffer} {h : Heap T} {s : Shape T} (hr : Rep b h s)
    (hne : s ≠ .empty) : b._end ∈ s.owned b ∧ ∃ it, h.read b._end = .ok it := by
  cases s with
  | empty => exact absurd rfl hne
  | filled ns =>
    obtain ⟨_, _, ⟨x, he⟩, _, _⟩ := hr
    exact ⟨by simp [Shape.owned], _, he⟩
  | drained js =>
    obtain ⟨_, ⟨x, nx, he, _⟩, _, _⟩ := hr
    exact ⟨by simp [Shape.owned], _, he⟩

/-- A call that leaves a shape with a chain, changes old cells only inside the
nodes of the object and adds only new nodes, moves the object soundly. -/
theorem Moves.of_nonempty {b b1 : cbuffer} {h h1 : Heap T} {s s1 : Shape T}
    (hr : Rep b1 h1 s1) (hne : s1 ≠ .empty) (hf : Frame h h1 (s.owned b))
    (hown : ∀ a ∈ s1.owned b1, a ∈ s.owned b ∨ h.cells.length < a) :
    Moves b h s b1 h1 s1 := by
  obtain ⟨hmem, hlive⟩ := hr.end_mem hne
  refine ⟨hr, Or.inr hlive, hf.mono (Shape.owned_sub_ptrs b s), fun p hp => ?_⟩
  have hp' : p ∈ s1.owned b1 := by
    simp only [Shape.ptrs, List.mem_cons] at hp
    rcases hp with hp | hp
    · exact hp ▸ hmem
    · exact hp
  rcases hown p hp' with h2 | h2
  · exact Or.inr (Or.inl (Shape.owned_sub_ptrs b s p h2))
  · exact Or.inr (Or.inr h2)

theorem Moves.same {b : cbuffer} {h : Heap T} {s : Shape T} (hr : Rep b h s)
    (he : EndLive b h) : Moves b h s b h s :=
  ⟨hr, he, Frame.refl _ _, fun _ hp => Or.inr (Or.inl hp)⟩

/-- A returning `insert` moves its object soundly. -/
theorem insert_moves {b b1 : cbuffer} {h h1 : Heap T} {s : Shape T} {v : T}
    (hr : Rep b h s) (hst : insert v b h = .ok (b1, h1)) :
    ∃ s1, Moves b h s b1 h1 s1 := by
  cases s with
  | drained js =>
    cases hal : h.alloc ⟨some v, b._end⟩ with
    | none => rw [insert_alloc_none hal] at hst; cases hst
    | some r =>
      obtain ⟨i, ha1⟩ := r
      have hlt0 : js.length < b._size := hr.2.2.2
      by_cases hlt : js.length + 1 < b._size
      · obtain ⟨h2, hins, hrep, hfr, _, _, hi⟩ := insert_drained_room hr hlt hal
        rw [hins] at hst
        cases hst
        refine ⟨.drained (js ++ [(i, v)]), Moves.of_nonempty hrep (by simp) hfr ?_⟩
        intro a ha
        simp only [Shape.owned, List.map_append, List.map_cons, List.map_nil, List.mem_cons,
          List.mem_append, List.not_mem_nil, or_false] at ha ⊢
        rcases ha with ha | ha | ha
        · exact Or.inl (Or.inl ha)
        · exact Or.inl (Or.inr ha)
        · right; omega
      · rw [insert_drained_full hr (by omega) hal] at hst
        cases hst
  | empty =>
    obtain ⟨s1, hrep, _, hfr, hown, hv⟩ := insert_rep hr hst
    refine ⟨s1, Moves.of_nonempty hrep ?_ hfr hown⟩
    intro h0
    subst h0
    rcases hv with ⟨_, hv⟩ | ⟨hv, _⟩ | ⟨hv, _⟩ | ⟨⟨js, hv⟩, _⟩
    · simp [Shape.vals] at hv
    · simp [Shape.vals] at hv
    · simp [Shape.vals] at hv
    · cases hv
  | filled ns =>
    obtain ⟨s1, hrep, _, hfr, hown, hv⟩ := insert_rep hr hst
    refine ⟨s1, Moves.of_nonempty hrep ?_ hfr hown⟩
    intro h0
    subst h0
    rcases hv with ⟨hv, _⟩ | ⟨_, _, hv⟩ | ⟨_, _, _, hv⟩ | ⟨⟨js, hv⟩, _⟩
    · cases hv
    · simp [Shape.vals] at hv
    · simp [Shape.vals] at hv
    · cases hv

/-- A returning `delete_head` moves its object soundly. -/
theorem delete_head_moves {b b1 : cbuffer} {h h1 : Heap T} {s : Shape T}
    (hr : Rep b h s) (he : EndLive b h) (hst : delete_head b h = .ok (b1, h1)) :
    ∃ s1, Moves b h s b1 h1 s1 := by
  cases s with
  | empty =>
    rw [delete_head_empty hr] at hst
    cases hst
    exact ⟨.empty, Moves.same hr he⟩
  | filled ns =>
    cases ns with
    | nil => exact absurd rfl hr.1
    | cons n rest =>
      obtain ⟨nx, h2, hdel, hrep, hfr, _, _⟩ := delete_head_filled hr
      rw [hdel] at hst
      cases hst
      refine ⟨Shape.afterHead rest, Moves.of_nonempty hrep ?_ hfr ?_⟩
      · cases rest <;> simp [Shape.afterHead]
      · intro a ha
        left
        cases rest with
        | nil =>
          simp only [Shape.afterHead, Shape.owned, List.map_nil, List.mem_cons,
            List.not_mem_nil, or_false] at ha
          simp [Shape.owned, ha]
        | cons m ms =>
          simp only [Shape.afterHead, Shape.owned, List.map_cons, List.mem_cons] at ha ⊢
          rcases ha with ha | ha | ha
          · exact Or.inl ha
          · exact Or.inr (Or.inr (Or.inl ha))
          · exact Or.inr (Or.inr (Or.inr ha))
  | drained js =>
    rw [delete_head_drained hr] at hst
    cases hst

/-- `clear` returns on every shape, leaves `_head` null, changes old cells
only among the element nodes, and keeps the dummy node live; on a buffer
without elements it leaves the free store as it was. -/
theorem clear_moves {b : cbuffer} {h : Heap T} {s : Shape T} (hr : Rep b h s)
    (he : EndLive b h) :
    ∃ h1, clear b h = .ok ({ b with _head := 0 }, h1) ∧
      Moves b h s { b with _head := 0 } h1 .empty ∧ (s.vals = [] → h1 = h) ∧
      h1.cells.length = h.cells.length ∧ h1.avail = h.avail := by
  have hlen := length_le_cells hr.owned_nodup hr.owned_le
  have hptr : ∀ p ∈ Shape.ptrs { b with _head := 0 } (Shape.empty : Shape T),
      p = 0 ∨ p ∈ s.ptrs b ∨ h.cells.length < p := by
    intro p hp
    simp only [Shape.ptrs, Shape.owned, List.mem_cons, List.not_mem_nil, or_false] at hp
    exact Or.inr (Or.inl (by simp [Shape.ptrs, hp]))
  cases s with
  | empty =>
    have h0 : b._head = 0 := hr
    have hb : ({ b with _head := 0 } : cbuffer) = b := by
      cases b
      simp only at h0
      simp [h0]
    refine ⟨h, ?_, ⟨rfl, he, Frame.refl _ _, hptr⟩, fun _ => rfl, rfl, rfl⟩
    rw [hb]
    simp [clear, h0]
  | filled ns =>
    obtain ⟨hne, hs, ⟨x, hE⟩, hnd, _⟩ := hr
    cases ns with
    | nil => exact absurd rfl hne
    | cons n ns =>
      have hp := hs.head_pos
      simp only [Shape.owned, List.length_cons, List.length_map] at hlen
      obtain ⟨h1, hcl, hfr, hl, hav⟩ :=
        clear_loop_seg hs hnd
          (show (n :: ns).length < h.cells.length + 1 by
            simp only [List.length_cons]; omega)
      have hE1 : h1.read b._end = .ok ⟨x, b._head⟩ := by
        rw [hfr.2 b._end (Heap.read_ok_le hE).2 (List.nodup_cons.mp hnd).1]
        exact hE
      refine ⟨h1, by simp [clear, hp, hcl], ⟨rfl, Or.inr ⟨_, hE1⟩, ?_, hptr⟩, ?_, hl, hav⟩
      · exact hfr.mono (fun a ha => by
          simp only [Shape.ptrs, Shape.owned, List.mem_cons]
          exact Or.inr (Or.inr (by simpa using ha)))
      · intro hv
        simp [Shape.vals] at hv
  | drained js =>
    obtain ⟨hhe, ⟨x, nx, hE, _⟩, _, _⟩ := hr
    have := Heap.read_ok_le hE
    have hp : b._end ≠ 0 := by omega
    exact ⟨h, by simp [clear, hp, clear_loop, hhe], ⟨rfl, he, Frame.refl _ _, hptr⟩,
      fun _ => rfl, rfl, rfl⟩

/-! ## Assignment through `operator[]` -/

theorem map_fst_set (ns : List (Nat × T)) :
    ∀ (k : Nat) (hk : k < ns.length) (v : T),
      (ns.set k (ns[k].1, v)).map Prod.fst = ns.map Prod.fst := by
  induction ns with
  | nil => intro k hk; simp at hk
  | cons n ns ih =>
    intro k hk v
    cases k with
    | zero => simp
    | succ k =>
      simp only [List.set_cons_succ, List.map_cons, List.getElem_cons_succ]
      rw [ih k (by simpa using hk) v]

theorem Seg.set_value {h : Heap T} {ns : List (Nat × T)} :
    ∀ {p q : Nat} (k : Nat) (hk : k < ns.length) (v : T) (it : item T), Seg h p q ns →
      (ns.map Prod.fst).Nodup → h.read ns[k].1 = .ok it →
      Seg (h.store ns[k].1 (some { it with value := some v })) p q (ns.set k (ns[k].1, v)) := by
  induction ns with
  | nil => intro p q k hk; simp at hk
  | cons n ns ih =>
    intro p q k hk v it hs hnd hrd
    obtain ⟨hp, nx, hr, hrest⟩ := hs
    simp only [List.map_cons, List.nodup_cons] at hnd
    cases k with
    | zero =>
      simp only [List.getElem_cons_zero] at hrd ⊢
      rw [hr] at hrd
      cases hrd
      refine ⟨hp, nx, Heap.read_store_some _ _ hr, hrest.transport (fun a ha => ?_)⟩
      exact Heap.read_store_ne _ _ (fun h2 => hnd.1 (h2 ▸ ha))
    | succ k =>
      have hk' : k < ns.length := by simpa using hk
      simp only [List.getElem_cons_succ] at hrd ⊢
      have hmem : ns[k].1 ∈ ns.map Prod.fst :=
        List.mem_map.mpr ⟨ns[k], List.getElem_mem hk', rfl⟩
      have hne : n.1 ≠ ns[k].1 := fun h2 => hnd.1 (h2 ▸ hmem)
      refine ⟨hp, nx, ?_, ih k hk' v it hrest hnd.2 hrd⟩
      rw [Heap.read_store_ne _ _ hne]
      exact hr

/-- Inside the live range, `b[k] = v` returns and replaces the value of the
node of position `k`; the chain keeps its nodes. -/
theorem index_set_filled {b : cbuffer} {h : Heap T} {ns : List (Nat × T)}
    (hr : Rep b h (.filled ns)) (k : Nat) (hk : k < ns.length) (v : T) :
    ∃ h1, index_set b h k v = .ok h1 ∧ Rep b h1 (.filled (ns.set k (ns[k].1, v))) ∧
      Frame h h1 (Shape.owned b (.filled ns)) ∧ h1.cells.length = h.cells.length ∧
      h1.avail = h.avail := by
  have href := index_ref_filled hr k hk
  obtain ⟨hne, hs, ⟨x, hE⟩, hnd, hle⟩ := hr
  obtain ⟨nx, hrd⟩ := hs.read_get k hk
  have hmem : ns[k].1 ∈ ns.map Prod.fst :=
    List.mem_map.mpr ⟨ns[k], List.getElem_mem hk, rfl⟩
  have hEk : b._end ≠ ns[k].1 := fun h2 => (List.nodup_cons.mp hnd).1 (h2 ▸ hmem)
  refine ⟨h.store ns[k].1 (some ⟨some v, nx⟩), ?_, ⟨?_, ?_, ⟨x, ?_⟩, ?_, ?_⟩, ?_, by simp,
    by simp⟩
  · simp [index_set, href, Heap.setValue_ok hrd]
  · intro h0
    apply hne
    have := congrArg List.length h0
    simp only [List.length_set, List.length_nil] at this
    exact List.length_eq_zero.mp this
  · exact hs.set_value k hk v _ (List.nodup_cons.mp hnd).2 hrd
  · rw [Heap.read_store_ne _ _ hEk]
    exact hE
  · rw [map_fst_set ns k hk v]
    exact hnd
  · simpa using hle
  · refine ⟨by simp, fun q _ hq => Heap.read_store_ne _ _ (fun h2 => hq ?_)⟩
    simp only [Shape.owned, List.mem_cons]
    exact Or.inr (h2 ▸ hmem)

/-- Whenever `b[k] = v` returns, `k` was inside the live range. -/
theorem index_set_moves {b : cbuffer} {h h1 : Heap T} {s : Shape T} {k : Nat} {v : T}
    (hr : Rep b h s) (hst : index_set b h k v = .ok h1) :
    ∃ s1, Moves b h s b h1 s1 ∧ k < s.vals.length ∧ s1.vals = s.vals.set k v ∧
      h1.cells.length = h.cells.length := by
  by_cases hk : k < s.vals.length
  · cases s with
    | empty => simp [Shape.vals] at hk
    | drained js => simp [Shape.vals] at hk
    | filled ns =>
      have hk' : k < ns.length := by simpa [Shape.vals] using hk
      obtain ⟨h2, hset, hrep, hfr, hlen, _⟩ := index_set_filled hr k hk' v
      rw [hset] at hst
      cases hst
      refine ⟨_, Moves.of_nonempty hrep (by simp) hfr (fun a ha => Or.inl ?_), hk, ?_, hlen⟩
      · simpa [Shape.owned, map_fst_set ns k hk' v] using ha
      · simp [Shape.vals, List.map_set]
  · have := index_ref_ge hr k (by omega)
    simp [index_set, this] at hst

/-! ## The copy constructor when memory may run out -/

/-- `insert` with room, in any free store: it returns with the value
appended, or throws at its first `new` with nothing changed, or (on a buffer
without chain) throws at its second `new` with `_head` already on the new
node. -/
theorem insert_room_any {b : cbuffer} {h : Heap T} {s : Shape T} (v : T) (hr : Rep b h s)
    (hnd : ∀ js, s ≠ .drained js) (hlt : s.vals.length < b._size) :
    (∃ b1 h1 ns1, insert v b h = .ok (b1, h1) ∧ Rep b1 h1 (.filled ns1) ∧
        ns1.map Prod.snd = s.vals ++ [v] ∧ b1._size = b._size ∧ Frame h h1 (s.owned b) ∧
        (∀ a ∈ Shape.owned b1 (.filled ns1), a ∈ s.owned b ∨ h.cells.length < a)) ∨
      insert v b h = .threw (b, h) ∨
      (s = .empty ∧ ∃ h1, insert v b h = .threw ({ b with _head := h.cells.length + 1 }, h1) ∧
        h.alloc ⟨some v, b._end⟩ = some (h.cells.length + 1, h1)) := by
  cases hal : h.alloc ⟨some v, b._end⟩ with
  | none => exact Or.inr (Or.inl (insert_alloc_none hal))
  | some r =>
    obtain ⟨i, ha1⟩ := r
    obtain ⟨hi, _, _⟩ := Heap.alloc_some hal
    cases s with
    | drained js => exact absurd rfl (hnd js)
    | empty =>
      have hpos : 0 < b._size := Nat.lt_of_le_of_lt (Nat.zero_le _) hlt
      cases hal2 : ha1.alloc ⟨none, i⟩ with
      | none =>
        right; right
        refine ⟨rfl, ha1, ?_, ?_⟩
        · rw [insert_empty_threw hr hpos hal hal2, hi]
        · rw [← hi]
      | some r2 =>
        obtain ⟨e, ha2⟩ := r2
        obtain ⟨h3, hins, hrep, hfr, _, _, hi', he⟩ := insert_empty hr hpos hal hal2
        left
        refine ⟨_, h3, _, hins, hrep, by simp [Shape.vals], rfl, hfr, ?_⟩
        intro a ha
        simp only [Shape.owned, List.map_cons, List.map_nil, List.mem_cons,
          List.not_mem_nil, or_false] at ha
        right
        rcases ha with ha | ha <;> omega
    | filled ns =>
      simp only [Shape.vals, List.length_map] at hlt
      obtain ⟨h2, hins, hrep, hfr, _, _, hi'⟩ := insert_filled_room hr hlt hal
      left
      refine ⟨b, h2, _, hins, hrep, by simp [Shape.vals], rfl, hfr, ?_⟩
      intro a ha
      simp only [Shape.owned, List.map_append, List.map_cons, List.map_nil, List.mem_cons,
        List.mem_append, List.not_mem_nil, or_false] at ha ⊢
      rcases ha with ha | ha | ha
      · exact Or.inl (Or.inl ha)
      · exact Or.inl (Or.inr ha)
      · right; omega

/-- The handler's `clear()` on the state left by a throw at the second `new`
of `insert`: the one node is deleted and nothing else changes. -/
theorem clear_half_built {b : cbuffer} {h h1 : Heap T} {v : T} (he : b._end = 0)
    (hal : h.alloc ⟨some v, b._end⟩ = some (h.cells.length + 1, h1)) :
    ∃ h2, clear { b with _head := h.cells.length + 1 } h1 = .ok ({ b with _head := 0 }, h2) ∧
      (∀ q, q ≤ h.cells.length → h2.read q = h.read q) ∧
      h.cells.length ≤ h2.cells.length := by
  have hrd : h1.read (h.cells.length + 1) = .ok ⟨some v, b._end⟩ := Heap.alloc_read_new hal
  have hlen := Heap.alloc_length hal
  refine ⟨h1.store (h.cells.length + 1) none, ?_, fun q hq => ?_, by simp; omega⟩
  · simp [clear, clear_loop, he, hrd, Heap.delete_ok hrd, hlen]
  · rw [Heap.read_store_ne _ _ (by omega), Heap.alloc_read_old hal hq]

theorem Heap.read_null (h h1 : Heap T) : h1.read 0 = h.read 0 := rfl

/-- The handler's `clear()` on a buffer under construction whose nodes all lie
beyond the first `n0` cells leaves those cells alone. -/
theorem clear_under_construction {c : cbuffer} {h : Heap T} {sc : Shape T} {n0 : Nat}
    (hr : Rep c h sc) (hend : sc = .empty → c._end = 0) (hown : ∀ a ∈ sc.owned c, n0 < a)
    (hn0 : n0 ≤ h.cells.length) :
    ∃ h2, clear c h = .ok ({ c with _head := 0 }, h2) ∧
      (∀ q, q ≤ n0 → h2.read q = h.read q) ∧ h.cells.length ≤ h2.cells.length := by
  have he : EndLive c h := by
    by_cases h0 : sc = .empty
    · exact Or.inl (hend h0)
    · exact Or.inr (hr.end_mem h0).2
  obtain ⟨h2, hcl, ⟨_, _, hfr, _⟩, _, hlen, _⟩ := clear_moves hr he
  refine ⟨h2, hcl, fun q hq => ?_, by omega⟩
  by_cases hq0 : q = 0
  · subst hq0; rfl
  · refine hfr.2 q (Nat.le_trans hq hn0) (fun hm => ?_)
    simp only [Shape.ptrs, List.mem_cons] at hm
    rcases hm with hm | hm
    · by_cases h0 : sc = .empty
      · exact hq0 (hm.trans (hend h0))
      · have := hown _ (hr.end_mem h0).1
        omega
    · have := hown q hm
      omega

/-- The loop of the copy constructor in any free store: it returns with the
values of `rest` appended, or an `insert` throws and the handler's `clear()`
returns; in both cases the first `n0` cells are as before.  It never
faults. -/
theorem copy_loop_any {e n0 : Nat} {rest : List (Nat × T)} :
    ∀ {p fuel : Nat} {c : cbuffer} {h : Heap T} {sc : Shape T},
      Seg h p e rest → e ∉ rest.map Prod.fst → (∀ a ∈ rest.map Prod.fst, a ≤ n0) →
      n0 ≤ h.cells.length → Rep c h sc → (∀ js, sc ≠ .drained js) →
      (sc = .empty → c._end = 0) → (∀ a ∈ sc.owned c, n0 < a) →
      sc.vals.length + rest.length ≤ c._size → rest.length < fuel →
      (∃ c1 h1 s1, copy_loop e fuel p c h = .ok (c1, h1) ∧ Rep c1 h1 s1 ∧
        (∀ js, s1 ≠ .drained js) ∧ (s1 = .empty → c1._end = 0) ∧
        s1.vals = sc.vals ++ rest.map Prod.snd ∧ c1._size = c._size ∧
        (∀ q, q ≤ n0 → h1.read q = h.read q) ∧ (∀ a ∈ s1.owned c1, n0 < a) ∧
        h.cells.length ≤ h1.cells.length) ∨
      (∃ c1 h1 h2, copy_loop e fuel p c h = .threw (c1, h1) ∧
        clear c1 h1 = .ok ({ c1 with _head := 0 }, h2) ∧
        (∀ q, q ≤ n0 → h2.read q = h.read q) ∧ h.cells.length ≤ h2.cells.length) := by
  induction rest with
  | nil =>
    intro p fuel c h sc hs _ _ _ hr hnd hend hown _ hf
    have hp : p = e := hs
    cases fuel with
    | zero => simp at hf
    | succ k =>
      exact Or.inl ⟨c, h, sc, by simp [copy_loop, hp], hr, hnd, hend, by simp, rfl,
        fun _ _ => rfl, hown, Nat.le_refl _⟩
  | cons n rest ih =>
    intro p fuel c h sc hs he hsrc hn0 hr hnd hend hown hsz hf
    obtain ⟨hp, nx, hrd, hrest⟩ := hs
    cases fuel with
    | zero => simp at hf
    | succ k =>
      have hk : rest.length < k := by simpa using hf
      simp only [List.map_cons, List.mem_cons, not_or, forall_eq_or_imp] at he hsrc
      have hpe : n.1 ≠ e := fun h2 => he.1 h2.symm
      simp only [List.length_cons] at hsz
      subst hp
      rcases insert_room_any n.2 hr hnd (by omega) with
        ⟨c1, h1, ns1, hins, hrep1, hv1, hsz1, hfr1, hown1⟩ | hthrew | ⟨hsc, h1, hthrew, hal⟩
      · have hkeep : ∀ q, q ≤ n0 → h1.read q = h.read q := fun q hq =>
          hfr1.2 q (Nat.le_trans hq hn0) (fun hm => by have := hown q hm; omega)
        have hown1' : ∀ a ∈ Shape.owned c1 (.filled ns1), n0 < a := by
          intro a ha
          rcases hown1 a ha with h2 | h2
          · exact hown a h2
          · omega
        have hrest1 : Seg h1 nx e rest :=
          hrest.transport (fun a ha => hkeep a (hsrc.2 a ha))
        have hrd1 : h1.read n.1 = .ok ⟨some n.2, nx⟩ := by
          rw [hkeep n.1 hsrc.1]; exact hrd
        have hstep : copy_loop e (k + 1) n.1 c h = copy_loop e k nx c1 h1 := by
          simp [copy_loop, hpe, hrd, hins, hrd1]
        have hlen1 : (Shape.filled ns1).vals.length + rest.length ≤ c1._size := by
          have : (Shape.filled ns1).vals.length = sc.vals.length + 1 := by
            simp [Shape.vals, hv1]
          rw [this, hsz1]
          omega
        rcases ih hrest1 he.2 hsrc.2 (Nat.le_trans hn0 hfr1.1) hrep1 (fun js => by simp)
            (fun h0 => by cases h0) hown1' hlen1 hk with
          ⟨c2, h2, s2, hloop, hrep2, hnd2, hend2, hv2, hsz2, hkeep2, hown2, hlen2⟩ |
          ⟨c2, h2, h3, hloop, hcl, hkeep2, hlen2⟩
        · refine Or.inl ⟨c2, h2, s2, by rw [hstep, hloop], hrep2, hnd2, hend2, ?_,
            hsz2.trans hsz1, fun q hq => by rw [hkeep2 q hq, hkeep q hq], hown2,
            Nat.le_trans hfr1.1 hlen2⟩
          rw [hv2]
          simp [Shape.vals, hv1]
        · exact Or.inr ⟨c2, h2, h3, by rw [hstep, hloop], hcl,
            fun q hq => by rw [hkeep2 q hq, hkeep q hq], Nat.le_trans hfr1.1 hlen2⟩
      · obtain ⟨h2, hcl, hkeep, hlen⟩ := clear_under_construction hr hend hown hn0
        exact Or.inr ⟨c, h, h2, by simp [copy_loop, hpe, hrd, hthrew], hcl, hkeep, hlen⟩
      · obtain ⟨h2, hcl, hkeep, hlen⟩ := clear_half_built (hend hsc) hal
        exact Or.inr ⟨_, h1, h2, by simp [copy_loop, hpe, hrd, hthrew], hcl,
          fun q hq => hkeep q (Nat.le_trans hq hn0), hlen⟩

/-- The copy constructor on a buffer in one of the three shapes, in any free
store: it returns a buffer of the same capacity holding the same elements,
built from new nodes only, or it throws; either way the cells present at the
start are unchanged.  It never faults. -/
theorem copy_any {b : cbuffer} {h : Heap T} {s : Shape T} (hr : Rep b h s) :
    (∃ c h1 s1, copy b h = .ok (c, h1) ∧ Rep c h1 s1 ∧ s1.vals = s.vals ∧
        c._size = b._size ∧ (∀ q, q ≤ h.cells.length → h1.read q = h.read q) ∧
        (∀ a ∈ s1.owned c, h.cells.length < a) ∧ h.cells.length ≤ h1.cells.length ∧
        (s1 = .empty → c._end = 0)) ∨
      (∃ c h1, copy b h = .threw (c, h1) ∧
        (∀ q, q ≤ h.cells.length → h1.read q = h.read q) ∧
        h.cells.length ≤ h1.cells.length) := by
  have hlen := length_le_cells hr.owned_nodup hr.owned_le
  cases s with
  | empty =>
    have h0 : b._head = 0 := hr
    exact Or.inl ⟨⟨0, 0, b._size⟩, h, .empty, by simp [copy, h0], rfl, rfl, rfl,
      fun _ _ => rfl, by simp [Shape.owned], Nat.le_refl _, fun _ => rfl⟩
  | drained js =>
    obtain ⟨hhe, ⟨x, nx, he, _⟩, _, _⟩ := hr
    have := Heap.read_ok_le he
    have hp : b._end ≠ 0 := by omega
    exact Or.inl ⟨⟨0, 0, b._size⟩, h, .empty,
      by simp [copy, hhe, hp, copy_loop, rethrow_cleared], rfl, rfl, rfl,
      fun _ _ => rfl, by simp [Shape.owned], Nat.le_refl _, fun _ => rfl⟩
  | filled ns =>
    obtain ⟨hne, hs, _, hnd, hle⟩ := hr
    have hp0 : b._head ≠ 0 := by
      cases ns with
      | nil => exact absurd rfl hne
      | cons n ns => exact hs.head_pos
    simp only [Shape.owned, List.length_cons, List.length_map] at hlen
    rcases copy_loop_any hs (List.nodup_cons.mp hnd).1
        (show ∀ a ∈ ns.map Prod.fst, a ≤ h.cells.length from
          fun a ha => (hs.addr_le a ha).2)
        (Nat.le_refl _) (show Rep ⟨0, 0, b._size⟩ h Shape.empty from rfl)
        (fun js => by simp) (fun _ => rfl) (by simp [Shape.owned])
        (by simpa [Shape.vals] using hle)
        (show ns.length < h.cells.length + 1 by omega) with
      ⟨c1, h1, s1, hloop, hrep1, _, hend1, hv1, hsz1, hkeep, hown1, hlen1⟩ |
      ⟨c1, h1, h2, hloop, hcl, hkeep, hlen1⟩
    · refine Or.inl ⟨c1, h1, s1, ?_, hrep1, by simpa [Shape.vals] using hv1, hsz1, hkeep,
        hown1, hlen1, hend1⟩
      simp [copy, hp0, hloop, rethrow_cleared]
    · refine Or.inr ⟨{ c1 with _head := 0 }, h2, ?_, hkeep, hlen1⟩
      simp [copy, hp0, hloop, rethrow_cleared, hcl]

/-! ## Composition of calls, the range constructor, destruction, assignment -/

theorem Moves.chain {b b1 b2 : cbuffer} {h h1 h2 : Heap T} {s s1 s2 : Shape T}
    (m1 : Moves b h s b1 h1 s1) (m2 : Moves b1 h1 s1 b2 h2 s2) : Moves b h s b2 h2 s2 := by
  obtain ⟨_, _, hf1, hg1⟩ := m1
  obtain ⟨hr2, he2, hf2, hg2⟩ := m2
  refine ⟨hr2, he2, ⟨Nat.le_trans hf1.1 hf2.1, fun q hq hno => ?_⟩, fun p hp => ?_⟩
  · by_cases hq0 : q = 0
    · subst hq0; rfl
    · rw [hf2.2 q (Nat.le_trans hq hf1.1) ?_, hf1.2 q hq hno]
      intro hm
      rcases hg1 q hm with h3 | h3 | h3
      · exact hq0 h3
      · exact hno h3
      · omega
  · rcases hg2 p hp with h3 | h3 | h3
    · exact Or.inl h3
    · exact hg1 p h3
    · right; right
      have := hf1.1
      omega

/-- The loop of the range constructor, whenever it returns, has moved the
buffer soundly and kept its capacity. -/
theorem range_loop_moves (src : List T) :
    ∀ {b b1 : cbuffer} {h h1 : Heap T} {s : Shape T}, Rep b h s → EndLive b h →
      range_loop src b h = .ok (b1, h1) → ∃ s1, Moves b h s b1 h1 s1 ∧ b1._size = b._size := by
  induction src with
  | nil =>
    intro b b1 h h1 s hr he hrun
    simp only [range_loop] at hrun
    cases hrun
    exact ⟨s, Moves.same hr he, rfl⟩
  | cons v vs ih =>
    intro b b1 h h1 s hr he hrun
    simp only [range_loop] at hrun
    cases hins : insert v b h with
    | threw r => rw [hins] at hrun; cases hrun
    | fault f => rw [hins] at hrun; cases hrun
    | ok r =>
      obtain ⟨b2, h2⟩ := r
      rw [hins] at hrun
      simp only at hrun
      obtain ⟨s2, m2⟩ := insert_moves hr hins
      obtain ⟨s1, m1, hsz⟩ := ih m2.1 m2.2.1 hrun
      exact ⟨s1, m2.chain m1, hsz.trans (insert_size (Or.inl hins))⟩

/-- The range constructor, whenever it returns, has built a buffer in one of
the three shapes from new nodes only. -/
theorem range_moves {size : Nat} {src : List T} {c : cbuffer} {h h1 : Heap T}
    (hrun : range size src h = .ok (c, h1)) :
    ∃ s1, Moves (cbuffer.new size) h .empty c h1 s1 ∧ c._size = size % 2 ^ 32 := by
  simp only [range] at hrun
  cases hl : range_loop src (cbuffer.new size) h with
  | fault f => rw [hl] at hrun; simp [rethrow_cleared] at hrun
  | threw r =>
    rw [hl] at hrun
    simp only [rethrow_cleared] at hrun
    split at hrun <;> cases hrun
  | ok r =>
    obtain ⟨c1, h2⟩ := r
    rw [hl] at hrun
    simp only [rethrow_cleared] at hrun
    cases hrun
    exact range_loop_moves src (rep_new size h) (Or.inl rfl) hl

theorem EndLive.le {b : cbuffer} {h : Heap T} (he : EndLive b h) :
    b._end ≤ h.cells.length := by
  rcases he with h0 | ⟨it, hr⟩
  · omega
  · exact (Heap.read_ok_le hr).2

theorem Rep.ptrs_le {b : cbuffer} {h : Heap T} {s : Shape T} (hr : Rep b h s)
    (he : EndLive b h) : ∀ p ∈ s.ptrs b, p ≤ h.cells.length := by
  intro p hp
  simp only [Shape.ptrs, List.mem_cons] at hp
  rcases hp with hp | hp
  · exact hp ▸ he.le
  · exact (hr.owned_le p hp).2

/-- The destructor returns on every shape and changes only nodes the object
held. -/
theorem destroy_spec {b : cbuffer} {h : Heap T} {s : Shape T} (hr : Rep b h s)
    (he : EndLive b h) :
    ∃ h2, destroy b h = .ok h2 ∧ Frame h h2 (s.ptrs b) ∧
      h2.cells.length = h.cells.length ∧ h2.avail = h.avail := by
  obtain ⟨h1, hcl, ⟨_, he1, hfr, _⟩, _, hlen, hav⟩ := clear_moves hr he
  rcases he1 with h0 | ⟨it, hrd⟩
  · have h0' : b._end = 0 := h0
    exact ⟨h1, by simp [destroy, hcl, h0'], hfr, hlen, hav⟩
  · have hrd' : h1.read b._end = .ok it := hrd
    have hne : b._end ≠ 0 := by
      have := Heap.read_ok_le hrd'
      omega
    refine ⟨h1.store b._end none, by simp [destroy, hcl, hne, Heap.delete_ok hrd'],
      ⟨by simp [hlen], fun q hq hno => ?_⟩, by simp [hlen], by simp [hav]⟩
    rw [Heap.read_store_ne _ _ (fun h2 => hno (by simp [Shape.ptrs, h2])), hfr.2 q hq hno]

/-- Assignment `a = b` between two distinct objects whose nodes are disjoint,
in any free store: it returns with `a` a copy of `b` built from new nodes and
the old nodes of `a` released, or it throws with `a` as before and no old
cell changed.  It never faults. -/
theorem assign_any {a b : cbuffer} {h : Heap T} {sa sb : Shape T} (hra : Rep a h sa)
    (hea : EndLive a h) (hrb : Rep b h sb) :
    (∃ c h2 s1, assign a b h = .ok (c, h2) ∧ Moves a h sa c h2 s1 ∧ s1.vals = sb.vals ∧
        c._size = b._size ∧ (∀ p ∈ s1.ptrs c, p = 0 ∨ h.cells.length < p)) ∨
      (∃ h1, assign a b h = .threw (a, h1) ∧
        (∀ q, q ≤ h.cells.length → h1.read q = h.read q) ∧
        h.cells.length ≤ h1.cells.length) := by
  rcases copy_any hrb with ⟨c, h1, s1, hcopy, hrep1, hv1, hsz1, hkeep, hown1, hlen1, hend1⟩ |
    ⟨c, h1, hcopy, hkeep, hlen1⟩
  · have hra1 : Rep a h1 sa := hra.frame (fun p hp => hkeep p (hra.owned_le p hp).2)
    have hea1 : EndLive a h1 := by
      rcases hea with h0 | ⟨it, hrd⟩
      · exact Or.inl h0
      · exact Or.inr ⟨it, by rw [hkeep _ (Heap.read_ok_le hrd).2]; exact hrd⟩
    obtain ⟨h2, hdes, hfr2, hlen2, _⟩ := destroy_spec hra1 hea1
    have hple := hra.ptrs_le hea
    have hrep2 : Rep c h2 s1 :=
      hrep1.of_frame hfr2 (fun p hp hm => by
        have := hown1 p hp
        have := hple p hm
        omega)
    have hptr : ∀ p ∈ s1.ptrs c, p = 0 ∨ h.cells.length < p := by
      intro p hp
      simp only [Shape.ptrs, List.mem_cons] at hp
      rcases hp with hp | hp
      · by_cases h0 : s1 = .empty
        · exact Or.inl (hp.trans (hend1 h0))
        · exact Or.inr (hp ▸ hown1 _ (hrep1.end_mem h0).1)
      · exact Or.inr (hown1 p hp)
    have hlive : EndLive c h2 := by
      by_cases h0 : s1 = .empty
      · exact Or.inl (hend1 h0)
      · exact Or.inr (hrep2.end_mem h0).2
    refine Or.inl ⟨c, h2, s1, by simp [assign, hcopy, hdes], ⟨hrep2, hlive, ?_, ?_⟩, hv1, hsz1,
      hptr⟩
    · refine ⟨by omega, fun q hq hno => ?_⟩
      rw [hfr2.2 q (Nat.le_trans hq hlen1) hno, hkeep q hq]
    · intro p hp
      rcases hptr p hp with h3 | h3
      · exact Or.inl h3
      · exact Or.inr (Or.inr h3)
  · exact Or.inr ⟨h1, by simp [assign, hcopy], hkeep, hlen1⟩

/-! ## Programs keep their objects sound -/

theorem lookup_set {α : Type} {l : List α} {i k : Nat} {a x : α}
    (h : (l.set i a)[k]? = some x) : (k = i ∧ x = a) ∨ (k ≠ i ∧ l[k]? = some x) := by
  rw [List.getElem?_set] at h
  split at h
  · rename_i hik
    split at h
    · exact Or.inl ⟨hik.symm, (Option.some.inj h).symm⟩
    · cases h
  · rename_i hik
    exact Or.inr ⟨fun h2 => hik h2.symm, h⟩

theorem lookup_push {α : Type} {l : List α} {k : Nat} {a x : α}
    (h : (l ++ [a])[k]? = some x) :
    (k = l.length ∧ x = a) ∨ (k < l.length ∧ l[k]? = some x) := by
  rw [List.getElem?_append] at h
  split at h
  · rename_i hk
    exact Or.inr ⟨hk, h⟩
  · rename_i hk
    have hlt : k - l.length < 1 := by
      by_contra hge
      rw [List.getElem?_eq_none (by simp only [List.length_singleton]; omega)] at h
      cases h
    have hk0 : k - l.length = 0 := by omega
    rw [hk0] at h
    simp only [List.getElem?_cons_zero, Option.some.injEq] at h
    exact Or.inl ⟨by omega, h.symm⟩

theorem lookup_lt {α : Type} {l : List α} {k : Nat} {x : α} (h : l[k]? = some x) :
    k < l.length := by
  by_contra hge
  rw [List.getElem?_eq_none (by omega)] at h
  cases h

theorem Sound.nil (h : Heap T) : Sound ([] : List cbuffer) h [] :=
  ⟨rfl, fun i b s hb => by simp at hb, fun i j b1 s1 b2 s2 _ hb => by simp at hb⟩

/-- Each object of a sound program has a shape that accounts for what
`get_size` and `operator[]` return. -/
theorem Sound.rep {objs : List cbuffer} {h : Heap T} {ss : List (Shape T)}
    (hS : Sound objs h ss) {i : Nat} {b : cbuffer} (hb : objs[i]? = some b) :
    ∃ s, ss[i]? = some s ∧ Rep b h s ∧ EndLive b h := by
  have hlt : i < ss.length := by rw [hS.1]; exact lookup_lt hb
  exact ⟨ss[i], List.getElem?_eq_getElem hlt, hS.2.1 i b ss[i] hb (List.getElem?_eq_getElem hlt)⟩

/-- A sound move of the object at position `i` keeps the program sound. -/
theorem Sound.update {objs : List cbuffer} {h h1 : Heap T} {ss : List (Shape T)} {i : Nat}
    {b b1 : cbuffer} {s s1 : Shape T} (hS : Sound objs h ss) (hb : objs[i]? = some b)
    (hs : ss[i]? = some s) (m : Moves b h s b1 h1 s1) :
    Sound (objs.set i b1) h1 (ss.set i s1) := by
  obtain ⟨hL, hR, hD⟩ := hS
  obtain ⟨hr1, he1, hf, hg⟩ := m
  obtain ⟨hrb, heb⟩ := hR i b s hb hs
  have hold : ∀ (k : Nat) (b' : cbuffer) (s' : Shape T), k ≠ i → objs[k]? = some b' →
      ss[k]? = some s' →
      (Rep b' h1 s' ∧ EndLive b' h1) ∧ ∀ p ∈ s'.ptrs b', p ≤ h.cells.length := by
    intro k b' s' hk hb' hs'
    obtain ⟨hr', he'⟩ := hR k b' s' hb' hs'
    have hdis := hD k i b' s' b s hk hb' hs' hb hs
    refine ⟨⟨hr'.of_frame hf (fun a ha => ?_), ?_⟩, hr'.ptrs_le he'⟩
    · exact hdis a (Shape.owned_sub_ptrs b' s' a ha) (by have := (hr'.owned_le a ha).1; omega)
    · rcases he' with h0 | ⟨it, hrd⟩
      · exact Or.inl h0
      · refine Or.inr ⟨it, ?_⟩
        have hne : b'._end ≠ 0 := by have := Heap.read_ok_le hrd; omega
        rw [hf.2 _ (Heap.read_ok_le hrd).2 (hdis _ (by simp [Shape.ptrs]) hne)]
        exact hrd
  refine ⟨by simp [hL], fun k b' s' hb' hs' => ?_, fun k l b2 s2 b3 s3 hkl hb2 hs2 hb3 hs3 => ?_⟩
  · rcases lookup_set hb' with ⟨hk, hb'⟩ | ⟨hk, hb'⟩ <;>
      rcases lookup_set hs' with ⟨hk', hs'⟩ | ⟨hk', hs'⟩
    · rw [hb', hs']; exact ⟨hr1, he1⟩
    · exact absurd hk hk'
    · exact absurd hk' hk
    · exact (hold k b' s' hk hb' hs').1
  · intro p hp hp0
    rcases lookup_set hb2 with ⟨hk, hb2⟩ | ⟨hk, hb2⟩ <;>
      rcases lookup_set hs2 with ⟨hk', hs2⟩ | ⟨hk', hs2⟩ <;>
      rcases lookup_set hb3 with ⟨hl, hb3⟩ | ⟨hl, hb3⟩ <;>
      rcases lookup_set hs3 with ⟨hl', hs3⟩ | ⟨hl', hs3⟩ <;>
      first
        | exact absurd hk hk'
        | exact absurd hk' hk
        | exact absurd hl hl'
        | exact absurd hl' hl
        | exact absurd (hk.trans hl.symm) hkl
        | skip
    · rw [hb2, hs2] at hp
      rcases hg p hp with h3 | h3 | h3
      · exact absurd h3 hp0
      · exact hD i l b s b3 s3 (fun h4 => hl h4.symm) hb hs hb3 hs3 p h3 hp0
      · intro hm
        have := (hold l b3 s3 hl hb3 hs3).2 p hm
        omega
    · intro hm
      rw [hb3, hs3] at hm
      rcases hg p hm with h3 | h3 | h3
      · exact hp0 h3
      · exact hD k i b2 s2 b s hk hb2 hs2 hb hs p hp hp0 h3
      · have := (hold k b2 s2 hk hb2 hs2).2 p hp
        omega
    · exact hD k l b2 s2 b3 s3 hkl hb2 hs2 hb3 hs3 p hp hp0

/-- A new object built from new nodes only, with the old cells unchanged,
joins a sound program soundly. -/
theorem Sound.push {objs : List cbuffer} {h h1 : Heap T} {ss : List (Shape T)}
    {c : cbuffer} {sc : Shape T} (hS : Sound objs h ss) (hr : Rep c h1 sc)
    (he : EndLive c h1) (hf : ∀ q, q ≤ h.cells.length → h1.read q = h.read q)
    (hg : ∀ p ∈ sc.ptrs c, p = 0 ∨ h.cells.length < p) :
    Sound (objs ++ [c]) h1 (ss ++ [sc]) := by
  obtain ⟨hL, hR, hD⟩ := hS
  have hold : ∀ (k : Nat) (b' : cbuffer) (s' : Shape T), objs[k]? = some b' → ss[k]? = some s' →
      (Rep b' h1 s' ∧ EndLive b' h1) ∧ ∀ p ∈ s'.ptrs b', p ≤ h.cells.length := by
    intro k b' s' hb' hs'
    obtain ⟨hr', he'⟩ := hR k b' s' hb' hs'
    refine ⟨⟨hr'.frame (fun a ha => hf a (hr'.owned_le a ha).2), ?_⟩, hr'.ptrs_le he'⟩
    rcases he' with h0 | ⟨it, hrd⟩
    · exact Or.inl h0
    · exact Or.inr ⟨it, by rw [hf _ (Heap.read_ok_le hrd).2]; exact hrd⟩
  refine ⟨by simp [hL], fun k b' s' hb' hs' => ?_, fun k l b2 s2 b3 s3 hkl hb2 hs2 hb3 hs3 => ?_⟩
  · rcases lookup_push hb' with ⟨hk, hb'⟩ | ⟨hk, hb'⟩ <;>
      rcases lookup_push hs' with ⟨hk', hs'⟩ | ⟨hk', hs'⟩
    · rw [hb', hs']; exact ⟨hr, he⟩
    · omega
    · omega
    · exact (hold k b' s' hb' hs').1
  · intro p hp hp0
    rcases lookup_push hb2 with ⟨hk, hb2⟩ | ⟨hk, hb2⟩ <;>
      rcases lookup_push hs2 with ⟨hk', hs2⟩ | ⟨hk', hs2⟩ <;>
      rcases lookup_push hb3 with ⟨hl, hb3⟩ | ⟨hl, hb3⟩ <;>
      rcases lookup_push hs3 with ⟨hl', hs3⟩ | ⟨hl', hs3⟩ <;>
      first
        | omega
        | skip
    · rw [hb2, hs2] at hp
      rcases hg p hp with h3 | h3
      · exact absurd h3 hp0
      · intro hm
        have := (hold l b3 s3 hb3 hs3).2 p hm
        omega
    · intro hm
      rw [hb3, hs3] at hm
      rcases hg p hm with h3 | h3
      · exact hp0 h3
      · have := (hold k b2 s2 hb2 hs2).2 p hp
        omega
    · exact hD k l b2 s2 b3 s3 hkl hb2 hs2 hb3 hs3 p hp hp0

theorem at_object_ok {objs objs1 : List cbuffer} {i : Nat} {o : Outcome (cbuffer × Heap T)}
    {h1 : Heap T} (h : at_object objs i o = .ok (objs1, h1)) :
    ∃ b1, o = .ok (b1, h1) ∧ objs1 = objs.set i b1 := by
  unfold at_object at h
  split at h
  · rename_i b h2
    cases h
    exact ⟨b, rfl, rfl⟩
  · cases h
  · cases h

theorem new_object_ok {objs objs1 : List cbuffer} {o : Outcome (cbuffer × Heap T)}
    {h1 : Heap T} (h : new_object objs o = .ok (objs1, h1)) :
    ∃ c, o = .ok (c, h1) ∧ objs1 = objs ++ [c] := by
  unfold new_object at h
  split at h
  · rename_i b h2
    cases h
    exact ⟨b, rfl, rfl⟩
  · cases h
  · cases h

theorem no_throw_ok {r : Except Fault (cbuffer × Heap T)} {x : cbuffer × Heap T}
    (h : no_throw r = .ok x) : r = .ok x := by
  unfold no_throw at h
  split at h
  · cases h
  · cases h; rfl

theorem set_same {α : Type} {l : List α} {i : Nat} {a : α} (h : l[i]? = some a) :
    l.set i a = l := by
  induction l generalizing i with
  | nil => rfl
  | cons x xs ih =>
    cases i with
    | zero =>
      simp only [List.getElem?_cons_zero, Option.some.injEq] at h
      simp [h]
    | succ i =>
      simp only [List.getElem?_cons_succ] at h
      simp [ih h]

theorem Sound.kept_push {objs : List cbuffer} {h : Heap T} {ss : List (Shape T)}
    (hS : Sound objs h ss) (c : cbuffer) (sc : Shape T) (k : Nat) (hk : k < objs.length) :
    (objs ++ [c])[k]? = objs[k]? ∧ (ss ++ [sc])[k]? = ss[k]? :=
  ⟨List.getElem?_append_left hk, List.getElem?_append_left (by rw [hS.1]; exact hk)⟩

/-- A returning statement keeps the program sound, and leaves every object
but its target as it was, with the shape it had. -/
theorem act_sound {a : Act T} {objs objs1 : List cbuffer} {h h1 : Heap T} {ss : List (Shape T)}
    (hS : Sound objs h ss) (hact : act a objs h = .ok (objs1, h1)) :
    ∃ ss1, Sound objs1 h1 ss1 ∧
      ∀ k, k < objs.length → some k ≠ a.target → objs1[k]? = objs[k]? ∧ ss1[k]? = ss[k]? := by
  have hset : ∀ (i : Nat) (b b1 : cbuffer) (s s1 : Shape T), objs[i]? = some b →
      ss[i]? = some s → Moves b h s b1 h1 s1 →
      ∃ ss1, Sound (objs.set i b1) h1 ss1 ∧
        ∀ k, k < objs.length → some k ≠ some i →
          (objs.set i b1)[k]? = objs[k]? ∧ ss1[k]? = ss[k]? := by
    intro i b b1 s s1 hb hs m
    refine ⟨ss.set i s1, hS.update hb hs m, fun k _ hk => ?_⟩
    have hki : i ≠ k := fun e => hk (by rw [e])
    exact ⟨List.getElem?_set_ne hki, List.getElem?_set_ne hki⟩
  cases a with
  | construct size =>
    simp only [act, Outcome.ok.injEq, Prod.mk.injEq] at hact
    obtain ⟨h2, h3⟩ := hact
    subst h2 h3
    refine ⟨ss ++ [.empty], hS.push (rep_new size h) (Or.inl rfl) (fun _ _ => rfl) ?_,
      fun k hk _ => hS.kept_push _ _ k hk⟩
    intro p hp
    simp only [Shape.ptrs, Shape.owned, cbuffer.new, List.mem_singleton] at hp
    exact Or.inl hp
  | construct_default =>
    simp only [act, Outcome.ok.injEq, Prod.mk.injEq] at hact
    obtain ⟨h2, h3⟩ := hact
    subst h2 h3
    refine ⟨ss ++ [.empty], hS.push (show Rep cbuffer.default h .empty from rfl) (Or.inl rfl)
      (fun _ _ => rfl) ?_, fun k hk _ => hS.kept_push _ _ k hk⟩
    intro p hp
    simp only [Shape.ptrs, Shape.owned, cbuffer.default, List.mem_singleton] at hp
    exact Or.inl hp
  | construct_copy j =>
    simp only [act] at hact
    cases hb : objs[j]? with
    | none => rw [hb] at hact; cases hact
    | some b =>
      rw [hb] at hact
      obtain ⟨c, hc, h3⟩ := new_object_ok hact
      subst h3
      obtain ⟨s, hs, hr, he⟩ := hS.rep hb
      rcases copy_any hr with ⟨c1, h2, s1, hcopy, hrep1, _, _, hkeep, hown1, _, hend1⟩ |
        ⟨c1, h2, hcopy, _, _⟩
      · rw [hcopy] at hc
        cases hc
        have hel : EndLive c h1 := by
          by_cases hs1 : s1 = .empty
          · exact Or.inl (hend1 hs1)
          · exact Or.inr (hrep1.end_mem hs1).2
        refine ⟨ss ++ [s1], hS.push hrep1 hel hkeep ?_, fun k hk _ => hS.kept_push _ _ k hk⟩
        intro p hp
        simp only [Shape.ptrs, List.mem_cons] at hp
        rcases hp with hp | hp
        · by_cases hs1 : s1 = .empty
          · exact Or.inl (hp.trans (hend1 hs1))
          · exact Or.inr (hown1 p (hp ▸ (hrep1.end_mem hs1).1))
        · exact Or.inr (hown1 p hp)
      · rw [hcopy] at hc
        cases hc
  | construct_range size src =>
    simp only [act] at hact
    obtain ⟨c, hc, h3⟩ := new_object_ok hact
    subst h3
    obtain ⟨s1, ⟨hrep1, hel, hfr, hg⟩, _⟩ := range_moves hc
    refine ⟨ss ++ [s1], hS.push hrep1 hel (fun q hq => ?_) (fun p hp => ?_),
      fun k hk _ => hS.kept_push _ _ k hk⟩
    · by_cases hq0 : q = 0
      · subst hq0; rfl
      · exact hfr.2 q hq (by simpa [Shape.ptrs, Shape.owned, cbuffer.new] using hq0)
    · rcases hg p hp with h3 | h3 | h3
      · exact Or.inl h3
      · simp only [Shape.ptrs, Shape.owned, cbuffer.new, List.mem_singleton] at h3
        exact Or.inl h3
      · exact Or.inr h3
  | insert i v =>
    simp only [act] at hact
    cases hb : objs[i]? with
    | none => rw [hb] at hact; cases hact
    | some b =>
      rw [hb] at hact
      obtain ⟨b1, hst, h3⟩ := at_object_ok hact
      subst h3
      obtain ⟨s, hs, hr, he⟩ := hS.rep hb
      obtain ⟨s1, m⟩ := insert_moves hr hst
      exact hset i b b1 s s1 hb hs m
  | delete_head i =>
    simp only [act] at hact
    cases hb : objs[i]? with
    | none => rw [hb] at hact; cases hact
    | some b =>
      rw [hb] at hact
      obtain ⟨b1, hst, h3⟩ := at_object_ok hact
      subst h3
      obtain ⟨s, hs, hr, he⟩ := hS.rep hb
      obtain ⟨s1, m⟩ := delete_head_moves hr he (no_throw_ok hst)
      exact hset i b b1 s s1 hb hs m
  | clear i =>
    simp only [act] at hact
    cases hb : objs[i]? with
    | none => rw [hb] at hact; cases hact
    | some b =>
      rw [hb] at hact
      obtain ⟨b1, hst, h3⟩ := at_object_ok hact
      subst h3
      obtain ⟨s, hs, hr, he⟩ := hS.rep hb
      obtain ⟨h2, hcl, m, _⟩ := clear_moves hr he
      rw [hcl] at hst
      cases no_throw_ok hst
      exact hset i b _ s .empty hb hs m
  | index_set i k v =>
    simp only [act] at hact
    cases hb : objs[i]? with
    | none => rw [hb] at hact; cases hact
    | some b =>
      rw [hb] at hact
      dsimp only at hact
      cases hst : index_set b h k v with
      | error f => rw [hst] at hact; cases hact
      | ok h2 =>
        rw [hst] at hact
        cases hact
        obtain ⟨s, hs, hr, he⟩ := hS.rep hb
        obtain ⟨s1, m, _⟩ := index_set_moves hr hst
        have := hset i b b s s1 hb hs m
        rw [set_same hb] at this
        exact this
  | assign i j =>
    simp only [act] at hact
    cases ha : objs[i]? with
    | none => rw [ha] at hact; cases hact
    | some a =>
      cases hb : objs[j]? with
      | none => rw [ha, hb] at hact; cases hact
      | some b =>
        rw [ha, hb] at hact
        by_cases hij : i = j
        · simp only [hij, if_true, Outcome.ok.injEq, Prod.mk.injEq] at hact
          obtain ⟨h2, h3⟩ := hact
          subst h2 h3
          exact ⟨ss, hS, fun _ _ _ => ⟨rfl, rfl⟩⟩
        · simp only [hij, if_false] at hact
          obtain ⟨c, hst, h3⟩ := at_object_ok hact
          subst h3
          obtain ⟨sa, hsa, hra, hea⟩ := hS.rep ha
          obtain ⟨sb, hsb, hrb, heb⟩ := hS.rep hb
          rcases assign_any hra hea hrb with ⟨c1, h2, s1, hasg, m, _⟩ | ⟨h2, hasg, _⟩
          · rw [hasg] at hst
            cases hst
            exact hset i a c sa s1 ha hsa m
          · rw [hasg] at hst
            cases hst

/-- Every program that returns leaves its objects sound. -/
theorem exec_sound (acts : List (Act T)) :
    ∀ {objs objs1 : List cbuffer} {h h1 : Heap T} {ss : List (Shape T)}, Sound objs h ss →
      exec acts objs h = .ok (objs1, h1) → ∃ ss1, Sound objs1 h1 ss1 := by
  induction acts with
  | nil =>
    intro objs objs1 h h1 ss hS hex
    simp only [exec, Outcome.ok.injEq, Prod.mk.injEq] at hex
    obtain ⟨h2, h3⟩ := hex
    subst h2 h3
    exact ⟨ss, hS⟩
  | cons a as ih =>
    intro objs objs1 h h1 ss hS hex
    simp only [exec] at hex
    cases hact : act a objs h with
    | fault f => rw [hact] at hex; cases hex
    | threw r => rw [hact] at hex; cases hex
    | ok r =>
      obtain ⟨objs2, h2⟩ := r
      rw [hact] at hex
      obtain ⟨ss2, hS2, _⟩ := act_sound hS hact
      exact ih hS2 hex

/-- The objects of a program started with no objects are sound. -/
theorem reach_sound {acts : List (Act T)} {objs : List cbuffer} {h0 h : Heap T}
    (hex : exec acts [] h0 = .ok (objs, h)) : ∃ ss, Sound objs h ss :=
  exec_sound acts (Sound.nil h0) hex

/-! ## The claims -/

theorem test_int_run :
    run test_int_calls (cbuffer.new 5) Heap.empty = .ok (test_int_cb, test_int_heap) := by
  decide

/-- The assertions of `test_cbuffer_int` hold in the embedding: `cb[0] == 20`
after six inserts, `cb[0] == 99` after the seventh, `cb[0] == 34` after
`delete_head()`. -/
theorem test_int_assertions :
    (∃ b h, run (test_int_calls.take 6) (cbuffer.new 5) Heap.empty = .ok (b, h) ∧
        index_get b h 0 = .ok 20) ∧
      index_get test_int_cb test_int_heap 0 = .ok 99 ∧
      contents test_int_cb test_int_heap = .ok [99, 34, 71, 12, 55] ∧
      (∃ b h, delete_head test_int_cb test_int_heap = .ok (b, h) ∧
        index_get b h 0 = .ok 34) :=
  ⟨⟨_, _, rfl, rfl⟩, rfl, rfl, ⟨_, _, rfl, rfl⟩⟩

/-- C1: with capacity 1 the claim fails on the code.  The first `insert`
leaves its value as the only element, but the second one (L = 2 > C = 1)
deletes the head node and then stores through the stale pointer to it, for
any two values: the call faults instead of leaving the last inserted value as
the only element. -/
theorem insert_beyond_capacity_one (v1 v2 : T) :
    (∃ b h, run [.insert v1] (cbuffer.new 1) Heap.empty = .ok (b, h) ∧
        contents b h = .ok [v1]) ∧
      run [.insert v1, .insert v2] (cbuffer.new 1) Heap.empty = .fault .use_after_free :=
  ⟨⟨_, _, rfl, rfl⟩, rfl⟩

/-- C2: with capacity 1, one `insert` gives `get_size() == 1`, and the second
one faults, so no `get_size()` equal to `min(2, 1)` is ever returned. -/
theorem get_size_capacity_one (v1 v2 v3 : T) :
    (∃ b h, run [.insert v1] (cbuffer.new 1) Heap.empty = .ok (b, h) ∧
        get_size b h = .ok 1) ∧
      (∀ r, run [.insert v1, .insert v2] (cbuffer.new 1) Heap.empty ≠ .ok r) ∧
      (∀ r, run [.insert v1, .insert v2, .insert v3] (cbuffer.new 1) Heap.empty ≠ .ok r) := by
  refine ⟨⟨_, _, rfl, rfl⟩, ?_, ?_⟩
  · intro r hr
    have h1 : run [.insert v1, .insert v2] (cbuffer.new 1) (Heap.empty : Heap T) =
        .fault .use_after_free := rfl
    rw [h1] at hr
    cases hr
  · intro r hr
    have h1 : run [.insert v1, .insert v2, .insert v3] (cbuffer.new 1)
        (Heap.empty : Heap T) = .fault .use_after_free := rfl
    rw [h1] at hr
    cases hr

/-- C3: the claim fails on the code at two reachable buffers.  With capacity 2,
after `insert(v)` and `delete_head()` the buffer has `get_size() == 0`, below
`max_size() == 2`, yet `insert(w)` leaves `get_size() == 0` and position 0
out of range instead of making `w` the only element.  With capacity 1, after
`insert(v)` the buffer is full and `insert(w)` faults instead of replacing
`v` by `w`. -/
theorem insert_misses_abstract_step (v w : T) :
    (∃ b h b1 h1, run [.insert v, .delete_head] (cbuffer.new 2) Heap.empty = .ok (b, h) ∧
        get_size b h = .ok 0 ∧ max_size b = 2 ∧ insert w b h = .ok (b1, h1) ∧
        get_size b1 h1 = .ok 0 ∧ index_get b1 h1 0 = .error .assert_failed) ∧
      (∃ b h, run [.insert v] (cbuffer.new 1) Heap.empty = .ok (b, h) ∧
        get_size b h = .ok 1 ∧ max_size b = 1 ∧
        insert w b h = .fault .use_after_free) :=
  ⟨⟨_, _, _, _, rfl, rfl, rfl, rfl, rfl, rfl⟩, ⟨_, _, rfl, rfl, rfl, rfl⟩⟩

/-- C4: on a buffer reached from `cbuffer(size)` by returning calls of
`insert`, `delete_head` and `clear` that holds at least one element,
`delete_head()` returns, `get_size()` decreases by one, every position `i`
below the new length yields what position `i + 1` yielded before, and
`max_size()` is unchanged. -/
theorem delete_head_removes_oldest {ops : List (Op T)} {size k : Nat} {b : cbuffer}
    {h0 h : Heap T} (hrun : run ops (cbuffer.new size) h0 = .ok (b, h))
    (hk : get_size b h = .ok (k + 1)) :
    ∃ b1 h1, delete_head b h = .ok (b1, h1) ∧ get_size b1 h1 = .ok k ∧
      (∀ i, i < k → ∃ v, index_get b h (i + 1) = .ok v ∧ index_get b1 h1 i = .ok v) ∧
      max_size b1 = max_size b := by
  obtain ⟨s, hrep, _, _⟩ := reach_rep hrun
  have hlen : s.vals.length = k + 1 := by
    have := get_size_rep hrep
    rw [hk] at this
    exact (Except.ok.inj this).symm
  cases s with
  | empty => simp [Shape.vals] at hlen
  | drained js => simp [Shape.vals] at hlen
  | filled ns =>
    cases ns with
    | nil => simp [Shape.vals] at hlen
    | cons n rest =>
      simp only [Shape.vals, List.map_cons, List.length_cons, List.length_map,
        Nat.add_right_cancel_iff] at hlen
      obtain ⟨nx, h1, hdel, hrep1, _, _, _⟩ := delete_head_filled hrep
      have hv := Shape.afterHead_vals rest
      refine ⟨_, h1, hdel, ?_, ?_, rfl⟩
      · rw [get_size_rep hrep1, hv, List.length_map, hlen]
      · intro i hi
        have hi' : i < rest.length := by omega
        refine ⟨rest[i].2, ?_, ?_⟩
        · rw [index_get_rep hrep]
          simp [Shape.vals, hi']
        · rw [index_get_rep hrep1, hv]
          simp [hi']

/-- Witness for C4 on the scenario of `test_cbuffer_int`: contents
99, 34, 71, 12, 55 become 34, 71, 12, 55. -/
theorem delete_head_removes_oldest_witness :
    (run test_int_calls (cbuffer.new 5) Heap.empty = .ok (test_int_cb, test_int_heap) ∧
      get_size test_int_cb test_int_heap = .ok (4 + 1)) ∧
    ∃ b1 h1, delete_head test_int_cb test_int_heap = .ok (b1, h1) ∧ get_size b1 h1 = .ok 4 ∧
      (∀ i, i < 4 → ∃ v, index_get test_int_cb test_int_heap (i + 1) = .ok v ∧
        index_get b1 h1 i = .ok v) ∧
      max_size b1 = max_size test_int_cb :=
  ⟨⟨test_int_run, rfl⟩, delete_head_removes_oldest test_int_run rfl⟩

/-- C5: the claim fails on the code.  With capacity 2 (and likewise capacity 3
with two elements), after the buffer has been emptied by `delete_head()` calls
an `insert(w)` returns but `_head` stays on the dummy node: `get_size()` is
0, position 0 is out of range and a traversal visits nothing. -/
theorem insert_after_draining_is_lost (v v1 w : T) :
    (∃ b h, run [.insert v, .delete_head, .insert w] (cbuffer.new 2) Heap.empty =
        .ok (b, h) ∧ get_size b h = .ok 0 ∧ index_get b h 0 = .error .assert_failed ∧
        traverse b h = .ok [] ∧ const_traverse b h = .ok []) ∧
      (∃ b h, run [.insert v, .insert v1, .delete_head, .delete_head, .insert w]
          (cbuffer.new 3) Heap.empty = .ok (b, h) ∧ get_size b h = .ok 0 ∧
        index_get b h 0 = .error .assert_failed ∧ traverse b h = .ok []) :=
  ⟨⟨_, _, rfl, rfl, rfl, rfl, rfl⟩, ⟨_, _, rfl, rfl, rfl, rfl⟩⟩

/-- C6: the claim fails on the code.  A buffer emptied by `delete_head()` has
`get_size() == 0` with `_head` on the dummy node, not null; a further
`delete_head()` deletes the dummy node and then stores through `_end`. -/
theorem delete_head_after_draining_faults (v : T) :
    (∃ b h, run [.insert v, .delete_head] (cbuffer.new 2) Heap.empty = .ok (b, h) ∧
        get_size b h = .ok 0 ∧ delete_head b h = .error .use_after_free) ∧
      run [.insert v, .delete_head, .delete_head] (cbuffer.new 2) Heap.empty =
        .fault .use_after_free :=
  ⟨⟨_, _, rfl, rfl, rfl⟩, rfl⟩

/-- C7: the claim fails on the code.  After `clear()` the buffer has
`_head == 0` but `_end` still on the old dummy node, so `begin()` differs from
`end()` and the traversal dereferences the null pointer, with either
iterator pair. -/
theorem traverse_after_clear_faults (v : T) :
    ∃ b h, run [.insert v, .clear] (cbuffer.new 2) Heap.empty = .ok (b, h) ∧
      get_size b h = .ok 0 ∧ traverse b h = .error .null_deref ∧
      const_traverse b h = .error .null_deref :=
  ⟨_, _, rfl, rfl, rfl, rfl⟩

/-- C8: on a buffer reached from `cbuffer(size)` by returning calls of
`insert`, `delete_head` and `clear`, `operator[](i)` (the two overloads share
one body, `index_ref`) passes its assertion and designates the node holding
the element of position `i` exactly when `i < get_size()`, and fails its
assertion for every other `i`, below `max_size()` or not.  The elements are a
final part of the values inserted so far, in insertion order: position 0
holds the oldest of them and position `get_size()-1` the value inserted
last. -/
theorem index_contract {ops : List (Op T)} {size : Nat} {b : cbuffer} {h0 h : Heap T}
    (hrun : run ops (cbuffer.new size) h0 = .ok (b, h)) :
    ∃ vals : List T, vals <:+ inserted ops ∧ get_size b h = .ok vals.length ∧
      (∀ i (hi : i < vals.length),
        (∃ a nx, index_ref b h i = .ok a ∧ h.read a = .ok ⟨some vals[i], nx⟩) ∧
          index_get b h i = .ok vals[i]) ∧
      (∀ i, vals.length ≤ i →
        index_ref b h i = .error .assert_failed ∧
          index_get b h i = .error .assert_failed) := by
  obtain ⟨s, hrep, _, hsuf⟩ := reach_rep hrun
  refine ⟨s.vals, hsuf, get_size_rep hrep, fun i hi => ?_,
    fun i hi => ⟨index_ref_ge hrep i hi, index_get_ge hrep i hi⟩⟩
  cases s with
  | empty => simp [Shape.vals] at hi
  | drained js => simp [Shape.vals] at hi
  | filled ns =>
    have hi' : i < ns.length := by simpa [Shape.vals] using hi
    obtain ⟨nx, hrd⟩ := hrep.2.1.read_get i hi'
    refine ⟨⟨ns[i].1, nx, index_ref_filled hrep i hi', ?_⟩, ?_⟩
    · simpa [Shape.vals] using hrd
    · rw [index_get_filled hrep i hi']
      simp [Shape.vals]

/-- Witness for C8 on the scenario of `test_cbuffer_int`. -/
theorem index_contract_witness :
    run test_int_calls (cbuffer.new 5) Heap.empty = .ok (test_int_cb, test_int_heap) ∧
    ∃ vals : List Nat, vals <:+ inserted test_int_calls ∧
      get_size test_int_cb test_int_heap = .ok vals.length ∧
      (∀ i (hi : i < vals.length),
        (∃ a nx, index_ref test_int_cb test_int_heap i = .ok a ∧
          test_int_heap.read a = .ok ⟨some vals[i], nx⟩) ∧
          index_get test_int_cb test_int_heap i = .ok vals[i]) ∧
      (∀ i, vals.length ≤ i →
        index_ref test_int_cb test_int_heap i = .error .assert_failed ∧
          index_get test_int_cb test_int_heap i = .error .assert_failed) :=
  ⟨test_int_run, index_contract test_int_run⟩

/-- C9: for a buffer `b` reached from `cbuffer(size)` by returning calls of
`insert`, `delete_head` and `clear`, in a free store where allocation does
not fail, the copy constructor returns a buffer with the same `max_size()`,
the same `get_size()` and the same value at every position; it changes no
cell of the free store it started from, and `b` answers `get_size()` and
`operator[]` as before. -/
theorem copy_constructor_copies {ops : List (Op T)} {size : Nat} {b : cbuffer}
    {h0 h : Heap T} (hrun : run ops (cbuffer.new size) h0 = .ok (b, h))
    (hav : h.avail = none) :
    ∃ c h1 k, copy b h = .ok (c, h1) ∧ max_size c = max_size b ∧
      get_size b h = .ok k ∧ get_size c h1 = .ok k ∧
      (∀ i, i < k → ∃ v, index_get b h i = .ok v ∧ index_get c h1 i = .ok v) ∧
      (∀ q, q ≤ h.cells.length → h1.read q = h.read q) ∧
      get_size b h1 = .ok k ∧ (∀ i, index_get b h1 i = index_get b h i) := by
  obtain ⟨s, hrep, _, _⟩ := reach_rep hrun
  obtain ⟨c, h1, s1, hcopy, hrep1, hv1, hsz1, hkeep, _, _, _⟩ := copy_rep hrep hav
  have hrepb : Rep b h1 s := hrep.frame (fun a ha => hkeep a (hrep.owned_le a ha).2)
  have hb := observe_eq hrep hrepb rfl
  refine ⟨c, h1, s.vals.length, hcopy, by simp [max_size, hsz1], get_size_rep hrep, ?_, ?_,
    hkeep, ?_, hb.2⟩
  · rw [get_size_rep hrep1, hv1]
  · intro i hi
    refine ⟨s.vals[i], ?_, ?_⟩
    · rw [index_get_rep hrep]
      simp [hi]
    · rw [index_get_rep hrep1, hv1]
      simp [hi]
  · rw [hb.1]
    exact get_size_rep hrep

/-- Witness for C9 on the scenario of `test_cbuffer_int` (`cbuffer<int> ck(cb)`). -/
theorem copy_constructor_copies_witness :
    (run test_int_calls (cbuffer.new 5) Heap.empty = .ok (test_int_cb, test_int_heap) ∧
      test_int_heap.avail = none) ∧
    ∃ c h1 k, copy test_int_cb test_int_heap = .ok (c, h1) ∧
      max_size c = max_size test_int_cb ∧
      get_size test_int_cb test_int_heap = .ok k ∧ get_size c h1 = .ok k ∧
      (∀ i, i < k → ∃ v, index_get test_int_cb test_int_heap i = .ok v ∧
        index_get c h1 i = .ok v) ∧
      (∀ q, q ≤ test_int_heap.cells.length → h1.read q = test_int_heap.read q) ∧
      get_size test_int_cb h1 = .ok k ∧
      (∀ i, index_get test_int_cb h1 i = index_get test_int_cb test_int_heap i) :=
  ⟨⟨test_int_run, rfl⟩, copy_constructor_copies test_int_run rfl⟩

/-- C10: with capacity 1 the claim fails on the code.  The range constructor
inserts the source values in order; a source of one value is stored, but on a
source of two values the second `insert` faults as in C1, so no buffer
holding the last value is built. -/
theorem range_capacity_one_faults (v1 v2 : T) :
    (∃ b h, range 1 [v1] Heap.empty = .ok (b, h) ∧ contents b h = .ok [v1]) ∧
      range 1 [v1, v2] Heap.empty = .fault .use_after_free ∧
      range 1 [v1, v2] Heap.empty =
        run [.insert v1, .insert v2] (cbuffer.new 1) Heap.empty :=
  ⟨⟨_, _, rfl, rfl⟩, rfl, rfl⟩

/-- C12: the claim fails on the code.  On a buffer of capacity 0, built by
`cbuffer(0)` or by the default constructor, the first `insert` skips the
empty-buffer branch (`_size > 0` is false) and dereferences the null `_head`
in the loop condition `tmp->next != _end`; in no free store does it return. -/
theorem insert_capacity_zero_faults (v : T) :
    insert v (cbuffer.new 0) Heap.empty = .fault .null_deref ∧
      insert v cbuffer.default Heap.empty = .fault .null_deref ∧
      run [.insert v] (cbuffer.new 0) Heap.empty = .fault .null_deref ∧
      (∀ (h : Heap T) r, insert v (cbuffer.new 0) h ≠ .ok r) := by
  refine ⟨rfl, rfl, rfl, fun h r hr => ?_⟩
  cases hal : h.alloc ⟨some v, (cbuffer.new 0)._end⟩ with
  | none => rw [insert_alloc_none hal] at hr; cases hr
  | some p =>
    obtain ⟨i, h1⟩ := p
    rw [insert_empty_zero (rep_new 0 h) rfl hal] at hr
    cases hr

/-- C20: for every capacity `C` with `2 <= C` (an `unsigned int`), memory not
running out, inserting the values `vs` one by one into a fresh `cbuffer(C)`
returns at every step (no null pointer or deleted node is touched);
afterwards `get_size()` is `min(L, C)`, the contents are the last `min(L, C)`
values in insertion order, following `next` from `_head` arrives at `_end`
after exactly `get_size()` steps and not before, and when at least one value
was inserted the dummy node's `next` points back to `_head` (with none
inserted there is no node: `_head` and `_end` are both null). -/
theorem insert_only_chain (C : Nat) (vs : List T) (h0 : Heap T) (hC : 2 ≤ C)
    (hC32 : C < 2 ^ 32) (hav : h0.avail = none) :
    ∃ b h, run (vs.map Op.insert) (cbuffer.new C) h0 = .ok (b, h) ∧
      get_size b h = .ok (min vs.length C) ∧
      contents b h = .ok (vs.drop (vs.length - C)) ∧
      index_loop h (min vs.length C) b._head = .ok b._end ∧
      (∀ k, k < min vs.length C → ∃ a, index_loop h k b._head = .ok a ∧ a ≠ b._end) ∧
      (vs ≠ [] → ∃ x, h.read b._end = .ok ⟨x, b._head⟩) ∧
      (vs = [] → b._head = 0 ∧ b._end = 0) := by
  have hsize : (cbuffer.new C)._size = C := by
    simp only [cbuffer.new]
    exact Nat.mod_eq_of_lt hC32
  obtain ⟨b, h, s, hrun, hrep, hnd, hlen, hsz, _⟩ :=
    run_inserts vs (rep_new C h0) (fun js => by simp) (by rw [hsize]; exact hC) hav
  obtain ⟨s', hrep', _, hsuf⟩ := reach_rep hrun
  rw [hsize, show (Shape.empty : Shape T).vals.length = 0 from rfl, Nat.zero_add] at hlen
  have hvals : s.vals = vs.drop (vs.length - C) := by
    have h1 : s'.vals = s.vals := by
      have e1 := contents_rep hrep
      have e2 := contents_rep hrep'
      rw [e1] at e2
      exact (Except.ok.inj e2).symm
    rw [inserted_map, h1] at hsuf
    have := List.suffix_iff_eq_drop.mp hsuf
    rw [hlen] at this
    rw [this]
    congr 1
    omega
  refine ⟨b, h, hrun, by rw [get_size_rep hrep, hlen], by rw [contents_rep hrep, hvals], ?_⟩
  cases s with
  | drained js => exact absurd rfl (hnd js)
  | empty =>
    simp only [Shape.vals, List.length_nil] at hlen
    have hvs : vs = [] := by
      cases vs with
      | nil => rfl
      | cons v vs => simp only [List.length_cons] at hlen; omega
    subst hvs
    simp only [List.map_nil, run] at hrun
    cases hrun
    refine ⟨by simp [index_loop, cbuffer.new], fun k hk => ?_, fun hne => absurd rfl hne,
      fun _ => ⟨rfl, rfl⟩⟩
    simp at hk
  | filled ns =>
    simp only [Shape.vals, List.length_map] at hlen
    obtain ⟨hne, hs, hE, hnodup, _⟩ := hrep
    refine ⟨?_, fun k hk => ?_, fun _ => hE, fun hvs => ?_⟩
    · rw [← hlen]
      exact index_loop_seg_end hs
    · have hk' : k < ns.length := by omega
      refine ⟨ns[k].1, index_loop_seg hs k hk', fun heq => ?_⟩
      have hmem : ns[k].1 ∈ ns.map Prod.fst := List.mem_map.mpr ⟨ns[k], List.getElem_mem hk', rfl⟩
      exact (List.nodup_cons.mp hnodup).1 (heq ▸ hmem)
    · subst hvs
      simp only [List.length_nil, Nat.zero_min] at hlen
      exact absurd (List.length_eq_zero.mp hlen) hne

/-- Witness for C20: capacity 2 and the three values 7, 8, 9 leave 8, 9. -/
theorem insert_only_chain_witness :
    (2 ≤ 2 ∧ 2 < 2 ^ 32 ∧ (Heap.empty : Heap Nat).avail = none) ∧
    ∃ b h, run ([7, 8, 9].map Op.insert) (cbuffer.new 2) Heap.empty = .ok (b, h) ∧
      get_size b h = .ok (min [7, 8, 9].length 2) ∧
      contents b h = .ok ([7, 8, 9].drop ([7, 8, 9].length - 2)) ∧
      index_loop h (min [7, 8, 9].length 2) b._head = .ok b._end ∧
      (∀ k, k < min [7, 8, 9].length 2 →
        ∃ a, index_loop h k b._head = .ok a ∧ a ≠ b._end) ∧
      (([7, 8, 9] : List Nat) ≠ [] → ∃ x, h.read b._end = .ok ⟨x, b._head⟩) ∧
      (([7, 8, 9] : List Nat) = [] → b._head = 0 ∧ b._end = 0) :=
  ⟨⟨by decide, by decide, rfl⟩,
    insert_only_chain 2 [7, 8, 9] Heap.empty (by decide) (by decide) rfl⟩

theorem Rep.vals_le {b : cbuffer} {h : Heap T} {s : Shape T} (hr : Rep b h s) :
    s.vals.length ≤ b._size := by
  cases s with
  | empty => simp [Shape.vals]
  | filled ns => simpa [Shape.vals] using hr.2.2.2.2
  | drained js => simp [Shape.vals]

/-- A returning call leaves the member `_size` of every object as it was. -/
theorem call_size {c : Call T} {p : Nat} {objs objs1 : List cbuffer} {h h1 : Heap T}
    (hact : act (c.on p) objs h = .ok (objs1, h1)) :
    objs1.map cbuffer._size = objs.map cbuffer._size := by
  have hset : ∀ (b b1 : cbuffer), objs[p]? = some b → b1._size = b._size →
      (objs.set p b1).map cbuffer._size = objs.map cbuffer._size := by
    intro b b1 hb hsz
    rw [List.map_set, hsz]
    exact set_same (by rw [List.getElem?_map, hb]; rfl)
  cases c with
  | insert v =>
    simp only [Call.on, act] at hact
    cases hb : objs[p]? with
    | none => rw [hb] at hact; cases hact
    | some b =>
      rw [hb] at hact
      obtain ⟨b1, hst, h3⟩ := at_object_ok hact
      subst h3
      exact hset b b1 hb (insert_size (Or.inl hst))
  | delete_head =>
    simp only [Call.on, act] at hact
    cases hb : objs[p]? with
    | none => rw [hb] at hact; cases hact
    | some b =>
      rw [hb] at hact
      obtain ⟨b1, hst, h3⟩ := at_object_ok hact
      subst h3
      exact hset b b1 hb (delete_head_size (no_throw_ok hst)).1
  | clear =>
    simp only [Call.on, act] at hact
    cases hb : objs[p]? with
    | none => rw [hb] at hact; cases hact
    | some b =>
      rw [hb] at hact
      obtain ⟨b1, hst, h3⟩ := at_object_ok hact
      subst h3
      exact hset b b1 hb (clear_size (no_throw_ok hst)).1
  | index_set k v =>
    simp only [Call.on, act] at hact
    cases hb : objs[p]? with
    | none => rw [hb] at hact; cases hact
    | some b =>
      rw [hb] at hact
      dsimp only at hact
      cases hst : index_set b h k v with
      | error f => rw [hst] at hact; cases hact
      | ok h2 =>
        rw [hst] at hact
        cases hact
        rfl

theorem calls_size (calls : List (Call T)) (p : Nat) :
    ∀ {objs objs1 : List cbuffer} {h h1 : Heap T},
      exec (calls.map (Call.on p)) objs h = .ok (objs1, h1) →
      objs1.map cbuffer._size = objs.map cbuffer._size := by
  induction calls with
  | nil =>
    intro objs objs1 h h1 hex
    simp only [List.map_nil, exec, Outcome.ok.injEq, Prod.mk.injEq] at hex
    rw [hex.1]
  | cons c cs ih =>
    intro objs objs1 h h1 hex
    simp only [List.map_cons, exec] at hex
    cases hact : act (c.on p) objs h with
    | fault f => rw [hact] at hex; cases hex
    | threw r => rw [hact] at hex; cases hex
    | ok r =>
      obtain ⟨objs2, h2⟩ := r
      rw [hact] at hex
      rw [ih hex, call_size hact]

theorem max_size_small {b : cbuffer} {n : Nat} (hb : b._size = n % 2 ^ 32) (hn : n < 2 ^ 31) :
    max_size b = n := by
  have h1 : n % 2 ^ 32 = n := Nat.mod_eq_of_lt (by omega)
  have h2 : b._size % 2 ^ 32 = n := by rw [hb, h1, h1]
  have h3 : n < 2 ^ 31 := hn
  simp only [max_size, h2]
  rw [if_pos h3]

/-! ## `clear`, the size bound, assignment through `operator[]`, the capacity -/

/-- What `clear()` does keep: in every program that returns, `clear()` on any
of its objects returns; afterwards `get_size()` is 0, `_head` is null, and
`_end`, `_size` and with them `max_size()` are what they were.  On an object
whose `get_size()` was already 0, no node is freed or changed, and
`get_size()`, the contents and every `operator[]` read stay as they were;
the object itself is untouched when its `_head` was null. -/
theorem clear_empties (acts : List (Act T)) (h0 : Heap T) (objs : List cbuffer) (h : Heap T)
    (i : Nat) (b : cbuffer) (hreach : exec acts [] h0 = .ok (objs, h))
    (hb : objs[i]? = some b) :
    ∃ b1 h1, act (.clear i) objs h = .ok (objs.set i b1, h1) ∧ get_size b1 h1 = .ok 0 ∧
      max_size b1 = max_size b ∧ b1._head = 0 ∧ b1._end = b._end ∧ b1._size = b._size ∧
      (b._head = 0 → b1 = b ∧ h1 = h) ∧
      (get_size b h = .ok 0 → h1 = h ∧ get_size b1 h1 = get_size b h ∧
        contents b1 h1 = contents b h ∧ ∀ k, index_get b1 h1 k = index_get b h k) := by
  obtain ⟨ss, hS⟩ := reach_sound hreach
  obtain ⟨s, hs, hr, he⟩ := hS.rep hb
  obtain ⟨h1, hcl, ⟨hr1, _⟩, hsame, _, _⟩ := clear_moves hr he
  refine ⟨{ b with _head := 0 }, h1, by simp [act, hb, hcl, no_throw, at_object],
    get_size_rep hr1, rfl, rfl, rfl, rfl, fun h0 => ?_, fun hg => ?_⟩
  · have hcl0 : clear b h = .ok (b, h) := by simp [clear, h0]
    rw [hcl0] at hcl
    simp only [Except.ok.injEq, Prod.mk.injEq] at hcl
    exact ⟨hcl.1.symm, hcl.2.symm⟩
  · rw [get_size_rep hr] at hg
    have hv : s.vals = [] :=
      List.length_eq_zero.mp (by simpa only [Except.ok.injEq] using hg)
    have hv1 : (Shape.empty : Shape T).vals = s.vals := by rw [hv]; rfl
    obtain ⟨hg1, hi1⟩ := observe_eq hr hr1 hv1
    exact ⟨hsame hv, hg1, by rw [contents_rep hr1, contents_rep hr, hv1], hi1⟩

/-- The members and reads kept by `clear()`, on a buffer of capacity 3 holding
1, 2. -/
theorem clear_empties_witness :
    ∃ objs h b, (exec [.construct 3, .insert 0 1, .insert 0 2] [] (Heap.empty : Heap Nat) =
          .ok (objs, h) ∧ objs[0]? = some b) ∧
      contents b h = .ok [1, 2] ∧ max_size b = 3 ∧
      ∃ b1 h1, act (.clear 0) objs h = .ok (objs.set 0 b1, h1) ∧ get_size b1 h1 = .ok 0 ∧
        max_size b1 = max_size b ∧ b1._head = 0 ∧ b1._end = b._end ∧ b1._size = b._size ∧
        (b._head = 0 → b1 = b ∧ h1 = h) ∧
        (get_size b h = .ok 0 → h1 = h ∧ get_size b1 h1 = get_size b h ∧
          contents b1 h1 = contents b h ∧ ∀ k, index_get b1 h1 k = index_get b h k) :=
  ⟨_, _, _, ⟨rfl, rfl⟩, rfl, rfl,
    clear_empties [.construct 3, .insert 0 1, .insert 0 2] Heap.empty _ _ 0 _ rfl rfl⟩

/-- C14 fails for a capacity of 2^31: the object declared by
`cbuffer<T> b(2147483648u)` has `get_size() == 0` and
`max_size() == -2147483648`, so `get_size() <= max_size()` is false. -/
theorem get_size_above_max_size :
    exec [Act.construct (2 ^ 31)] [] (Heap.empty : Heap Nat) =
        .ok ([cbuffer.new (2 ^ 31)], Heap.empty) ∧
      get_size (cbuffer.new (2 ^ 31)) (Heap.empty : Heap Nat) = .ok 0 ∧
      max_size (cbuffer.new (2 ^ 31)) = -2147483648 ∧
      ¬ ((0 : Int) ≤ max_size (cbuffer.new (2 ^ 31))) := by
  refine ⟨rfl, rfl, ?_, ?_⟩ <;> simp [max_size, cbuffer.new]

/-- C14 (amended): for every object of every program that returns (objects
declared with any constructor, changed by `insert`, `delete_head`, `clear`,
assignment through `operator[]` and copy assignment), `get_size()` returns a
count that is at most the member `_size`; when `_size` is below 2^31, so that
`max_size()` returns it unchanged, `0 <= get_size() <= max_size()`. -/
theorem get_size_within_capacity (acts : List (Act T)) (h0 : Heap T) (objs : List cbuffer)
    (h : Heap T) (i : Nat) (b : cbuffer) (hreach : exec acts [] h0 = .ok (objs, h))
    (hb : objs[i]? = some b) :
    ∃ n, get_size b h = .ok n ∧ n ≤ b._size ∧
      (b._size < 2 ^ 31 → (0 : Int) ≤ (n : Int) ∧ (n : Int) ≤ max_size b) := by
  obtain ⟨ss, hS⟩ := reach_sound hreach
  obtain ⟨s, hs, hr, he⟩ := hS.rep hb
  refine ⟨s.vals.length, get_size_rep hr, hr.vals_le, fun hlt => ⟨Int.ofNat_nonneg _, ?_⟩⟩
  rw [max_size_small (show b._size = b._size % 2 ^ 32 from
    (Nat.mod_eq_of_lt (by omega)).symm) hlt]
  exact Int.ofNat_le.mpr hr.vals_le

/-- C14 (amended) on `cb` of `test_cbuffer_int` after its `delete_head()`:
`get_size()` is 4 and `max_size()` is 5. -/
theorem get_size_within_capacity_witness :
    ∃ objs h b, (exec (test_int_program.take 10) [] (Heap.empty : Heap Nat) = .ok (objs, h) ∧
        objs[0]? = some b) ∧
      get_size b h = .ok 4 ∧ max_size b = 5 ∧
      ∃ n, get_size b h = .ok n ∧ n ≤ b._size ∧
        (b._size < 2 ^ 31 → (0 : Int) ≤ (n : Int) ∧ (n : Int) ≤ max_size b) :=
  ⟨_, _, _, ⟨rfl, rfl⟩, rfl, rfl,
    get_size_within_capacity (test_int_program.take 10) Heap.empty _ _ 0 _ rfl rfl⟩

/-- C15: for every object `b` of a program that returns, every `i` below
`get_size()` and every `v`, the assignment `b[i] = v` returns and changes no
member of any object; afterwards `b[i]` reads `v`, every other position reads
what it read before, and `get_size()` is what it was. -/
theorem index_assignment (acts : List (Act T)) (h0 : Heap T) (objs : List cbuffer) (h : Heap T)
    (p : Nat) (b : cbuffer) (n i : Nat) (v : T) (hreach : exec acts [] h0 = .ok (objs, h))
    (hb : objs[p]? = some b) (hn : get_size b h = .ok n) (hi : i < n) :
    ∃ h1, act (.index_set p i v) objs h = .ok (objs, h1) ∧ index_get b h1 i = .ok v ∧
      (∀ j, j ≠ i → index_get b h1 j = index_get b h j) ∧ get_size b h1 = .ok n := by
  obtain ⟨ss, hS⟩ := reach_sound hreach
  obtain ⟨s, hs, hr, he⟩ := hS.rep hb
  rw [get_size_rep hr] at hn
  have hlen : s.vals.length = n := by simpa only [Except.ok.injEq] using hn
  have hex : ∃ h1, index_set b h i v = .ok h1 := by
    cases s with
    | empty => simp [Shape.vals] at hlen; omega
    | drained js => simp [Shape.vals] at hlen; omega
    | filled ns =>
      have hi1 : i < ns.length := by
        simp only [Shape.vals, List.length_map] at hlen
        omega
      obtain ⟨h1, hset, _⟩ := index_set_filled hr i hi1 v
      exact ⟨h1, hset⟩
  obtain ⟨h1, hset⟩ := hex
  obtain ⟨s1, ⟨hr1, _⟩, _, hv1, _⟩ := index_set_moves hr hset
  refine ⟨h1, by simp [act, hb, hset], ?_, fun j hj => ?_, ?_⟩
  · rw [index_get_rep hr1, hv1, List.getElem?_set_self (by omega)]
  · rw [index_get_rep hr1, index_get_rep hr, hv1, List.getElem?_set_ne (fun e => hj e.symm)]
  · rw [get_size_rep hr1, hv1, List.length_set, hlen]

/-- C15 on the buffer of `test_cbuffer_int`: with contents 34, 71, 12, 55 the
assignments `cb[0] = 33` and `cb[3] = 11` leave 33, 71, 12, 11. -/
theorem index_assignment_witness :
    ∃ objs h b, (exec (test_int_program.take 10) [] (Heap.empty : Heap Nat) = .ok (objs, h) ∧
        objs[0]? = some b ∧ get_size b h = .ok 4 ∧ 0 < 4) ∧
      contents b h = .ok [34, 71, 12, 55] ∧
      (∃ h1, act (.index_set 0 0 33) objs h = .ok (objs, h1) ∧ index_get b h1 0 = .ok 33 ∧
        (∀ j, j ≠ 0 → index_get b h1 j = index_get b h j) ∧ get_size b h1 = .ok 4) ∧
      ∃ h2, exec (test_int_program.take 12) [] (Heap.empty : Heap Nat) = .ok (objs, h2) ∧
        contents b h2 = .ok [33, 71, 12, 11] :=
  ⟨_, _, _, ⟨rfl, rfl, rfl, by decide⟩, rfl,
    index_assignment (test_int_program.take 10) Heap.empty _ _ 0 _ 4 0 33 rfl rfl rfl
      (by decide),
    ⟨_, rfl, rfl⟩⟩

/-- C17 fails for n = 2^31: `max_size()` of `cbuffer(2147483648u)` returns
-2147483648. -/
theorem max_size_wraps :
    max_size (cbuffer.new (2 ^ 31)) = -2147483648 ∧
      max_size (cbuffer.new (2 ^ 31)) ≠ ((2 ^ 31 : Nat) : Int) := by
  constructor <;> simp [max_size, cbuffer.new]

/-- C17 (amended): for every n below 2^31, `max_size()` of `cbuffer(n)`
returns n, and it returns n after every sequence of `insert`, `delete_head`,
`clear` and `operator[]` assignments on the object that returns. -/
theorem max_size_constant (n : Nat) (calls : List (Call T)) (h0 : Heap T)
    (objs : List cbuffer) (h : Heap T) (hn : n < 2 ^ 31)
    (hrun : exec (.construct n :: calls.map (Call.on 0)) [] h0 = .ok (objs, h)) :
    max_size (cbuffer.new n) = n ∧ ∃ b, objs = [b] ∧ max_size b = n := by
  refine ⟨max_size_small rfl hn, ?_⟩
  have hrun1 : exec (calls.map (Call.on 0)) [cbuffer.new n] h0 = .ok (objs, h) := hrun
  have hsz := calls_size calls 0 hrun1
  cases objs with
  | nil => simp at hsz
  | cons b rest =>
    cases rest with
    | cons c rest => simp at hsz
    | nil =>
      simp only [List.map_cons, List.map_nil, List.cons.injEq, and_true] at hsz
      exact ⟨b, rfl, max_size_small hsz hn⟩

/-- C17 (amended) on a buffer of capacity 3 after five calls. -/
theorem max_size_constant_witness :
    ∃ objs h, (3 < 2 ^ 31 ∧
        exec (.construct 3 :: [Call.insert 1, .insert 2, .index_set 0 9, .delete_head,
          .clear].map (Call.on 0)) [] (Heap.empty : Heap Nat) = .ok (objs, h)) ∧
      max_size (cbuffer.new 3) = 3 ∧ ∃ b, objs = [b] ∧ max_size b = 3 :=
  ⟨_, _, ⟨by decide, rfl⟩,
    max_size_constant 3 [Call.insert 1, .insert 2, .index_set 0 9, .delete_head, .clear]
      Heap.empty _ _ (by decide) rfl⟩

theorem Call.target_on (c : Call T) (p : Nat) : (c.on p).target = some p := by
  cases c <;> rfl

theorem exec_append (as bs : List (Act T)) :
    ∀ {objs objs1 : List cbuffer} {h h1 : Heap T},
      exec (as ++ bs) objs h = .ok (objs1, h1) →
      ∃ objs2 h2, exec as objs h = .ok (objs2, h2) ∧ exec bs objs2 h2 = .ok (objs1, h1) := by
  induction as with
  | nil => intro objs objs1 h h1 hex; exact ⟨objs, h, rfl, hex⟩
  | cons a as ih =>
    intro objs objs1 h h1 hex
    simp only [List.cons_append, exec] at hex ⊢
    cases hact : act a objs h with
    | fault f => rw [hact] at hex; cases hex
    | threw r => rw [hact] at hex; cases hex
    | ok r =>
      obtain ⟨objs3, h3⟩ := r
      rw [hact] at hex
      exact ih hex

/-- Calls on the object at position `p` that return keep the program sound
and leave every other object as it was, with the shape it had. -/
theorem calls_frame (calls : List (Call T)) (p : Nat) :
    ∀ {objs objs1 : List cbuffer} {h h1 : Heap T} {ss : List (Shape T)}, Sound objs h ss →
      exec (calls.map (Call.on p)) objs h = .ok (objs1, h1) →
      ∃ ss1, Sound objs1 h1 ss1 ∧ ∀ (k : Nat) (b : cbuffer) (s : Shape T), k ≠ p →
        objs[k]? = some b → ss[k]? = some s → objs1[k]? = some b ∧ ss1[k]? = some s := by
  induction calls with
  | nil =>
    intro objs objs1 h h1 ss hS hex
    simp only [List.map_nil, exec, Outcome.ok.injEq, Prod.mk.injEq] at hex
    obtain ⟨h2, h3⟩ := hex
    subst h2 h3
    exact ⟨ss, hS, fun _ _ _ _ hb hs => ⟨hb, hs⟩⟩
  | cons c cs ih =>
    intro objs objs1 h h1 ss hS hex
    simp only [List.map_cons, exec] at hex
    cases hact : act (c.on p) objs h with
    | fault f => rw [hact] at hex; cases hex
    | threw r => rw [hact] at hex; cases hex
    | ok r =>
      obtain ⟨objs2, h2⟩ := r
      rw [hact] at hex
      obtain ⟨ss2, hS2, hkeep2⟩ := act_sound hS hact
      obtain ⟨ss1, hS1, hkeep1⟩ := ih hS2 hex
      refine ⟨ss1, hS1, fun k b s hk hb hs => ?_⟩
      obtain ⟨e1, e2⟩ := hkeep2 k (lookup_lt hb)
        (by rw [Call.target_on]; exact fun e => hk (Option.some.inj e))
      exact hkeep1 k b s hk (e1.trans hb) (e2.trans hs)

/-- An object whose shape is the same in two free stores answers `get_size`,
`operator[]` and the reading of its contents alike in both. -/
theorem Rep.observe {b : cbuffer} {h h1 : Heap T} {s : Shape T} (hr : Rep b h s)
    (hr1 : Rep b h1 s) :
    get_size b h1 = get_size b h ∧ contents b h1 = contents b h ∧
      ∀ n, index_get b h1 n = index_get b h n :=
  ⟨(observe_eq hr hr1 rfl).1, by rw [contents_rep hr, contents_rep hr1],
    (observe_eq hr hr1 rfl).2⟩

/-! ## Copy assignment and the independence of copies -/

/-- C11: for two objects `a` (at position `i`) and `b` (at position `j`) of a
program that returns, with memory not running out: the self-assignment
`a = a` returns and changes nothing; the assignment `a = b` between distinct
objects returns, changes no object but `a`, and afterwards `a.max_size()`
equals `b.max_size()` and `a` holds the contents `vs` that `b` held and still
holds, with the same answers to `get_size()` and every `operator[]` read. -/
theorem assign_copies (acts : List (Act T)) (h0 : Heap T) (objs : List cbuffer) (h : Heap T)
    (i j : Nat) (a b : cbuffer) (hreach : exec acts [] h0 = .ok (objs, h))
    (hav : h.avail = none) (ha : objs[i]? = some a) (hb : objs[j]? = some b) :
    act (.assign i i) objs h = .ok (objs, h) ∧
      (i ≠ j → ∃ c h1 vs, act (.assign i j) objs h = .ok (objs.set i c, h1) ∧
        (objs.set i c)[j]? = some b ∧ max_size c = max_size b ∧
        contents b h = .ok vs ∧ contents c h1 = .ok vs ∧ contents b h1 = .ok vs ∧
        get_size c h1 = get_size b h ∧ get_size b h1 = get_size b h ∧
        (∀ n, index_get c h1 n = index_get b h n) ∧
        (∀ n, index_get b h1 n = index_get b h n) ∧
        ∀ k, k ≠ i → (objs.set i c)[k]? = objs[k]?) := by
  refine ⟨by simp [act, ha], fun hij => ?_⟩
  obtain ⟨ss, hS⟩ := reach_sound hreach
  obtain ⟨sa, hsa, hra, hea⟩ := hS.rep ha
  obtain ⟨sb, hsb, hrb, heb⟩ := hS.rep hb
  rcases assign_any hra hea hrb with ⟨c, h2, s1, hasg, m, hv, hsz, _⟩ | ⟨h2, hasg, _⟩
  · have hact : act (.assign i j) objs h = .ok (objs.set i c, h2) := by
      simp [act, ha, hb, hij, hasg, at_object]
    obtain ⟨ss1, hS1, hkeep⟩ := act_sound hS hact
    obtain ⟨e1, e2⟩ := hkeep j (lookup_lt hb) (fun e => hij (Option.some.inj e).symm)
    have hrb2 : Rep b h2 sb := (hS1.2.1 j b sb (e1.trans hb) (e2.trans hsb)).1
    obtain ⟨g1, g2⟩ := observe_eq hrb m.1 hv
    obtain ⟨g3, g4, g5⟩ := hrb.observe hrb2
    refine ⟨c, h2, sb.vals, hact, e1.trans hb, by simp only [max_size, hsz], contents_rep hrb,
      by rw [contents_rep m.1, hv], contents_rep hrb2, g1, g3, g2, g5,
      fun k hk => List.getElem?_set_ne (fun e => hk e.symm)⟩
  · obtain ⟨c, h1, s1, hcopy, _⟩ := copy_rep hrb hav
    simp [assign, hcopy] at hasg
    split at hasg <;> cases hasg

/-- C11 on `test_cbuffer_int`: the default-constructed `ch` after `ch = cb`
has capacity 5 and the contents 33, 71, 12, 11 of `cb`. -/
theorem assign_copies_witness :
    ∃ objs h a b, (exec (test_int_program.take 13) [] (Heap.empty : Heap Nat) = .ok (objs, h) ∧
        h.avail = none ∧ objs[2]? = some a ∧ objs[0]? = some b) ∧
      a = cbuffer.default ∧
      act (.assign 2 2) objs h = .ok (objs, h) ∧
      (∃ c h1 vs, act (.assign 2 0) objs h = .ok (objs.set 2 c, h1) ∧
        (objs.set 2 c)[0]? = some b ∧ max_size c = max_size b ∧
        contents b h = .ok vs ∧ contents c h1 = .ok vs ∧ contents b h1 = .ok vs ∧
        get_size c h1 = get_size b h ∧ get_size b h1 = get_size b h ∧
        (∀ n, index_get c h1 n = index_get b h n) ∧
        (∀ n, index_get b h1 n = index_get b h n) ∧
        ∀ k, k ≠ 2 → (objs.set 2 c)[k]? = objs[k]?) ∧
      max_size b = 5 ∧ contents b h = .ok [33, 71, 12, 11] :=
  ⟨_, _, _, _, ⟨rfl, rfl, rfl, rfl⟩, rfl,
    (assign_copies (test_int_program.take 13) Heap.empty _ _ 2 0 _ _ rfl rfl rfl rfl).1,
    (assign_copies (test_int_program.take 13) Heap.empty _ _ 2 0 _ _ rfl rfl rfl rfl).2
      (by decide),
    rfl, rfl⟩

/-- C19: for two objects `a` (at position `i`) and `b` (at position `j`) of a
program that returns, whatever memory is left, the assignment `a = b` never
faults; and when it throws (an allocation of the copy failed), the objects
are the ones there were before, `a` and `b` among them, and each of them
answers `get_size()`, the reading of its contents and every `operator[]`
read as before. -/
theorem assign_failure_keeps (acts : List (Act T)) (h0 : Heap T) (objs : List cbuffer)
    (h : Heap T) (i j : Nat) (a b : cbuffer) (hreach : exec acts [] h0 = .ok (objs, h))
    (ha : objs[i]? = some a) (hb : objs[j]? = some b) :
    (∀ f, act (.assign i j) objs h ≠ .fault f) ∧
      ∀ r, act (.assign i j) objs h = .threw r → r.1 = objs ∧
        ∀ (k : Nat) (c : cbuffer), objs[k]? = some c →
          get_size c r.2 = get_size c h ∧ contents c r.2 = contents c h ∧
            ∀ n, index_get c r.2 n = index_get c h n := by
  obtain ⟨ss, hS⟩ := reach_sound hreach
  obtain ⟨sa, hsa, hra, hea⟩ := hS.rep ha
  obtain ⟨sb, hsb, hrb, heb⟩ := hS.rep hb
  by_cases hij : i = j
  · have hact : act (.assign i j) objs h = .ok (objs, h) := by simp [act, ha, hb, hij]
    rw [hact]
    exact ⟨fun f hf => (by cases hf), fun r hr => (by cases hr)⟩
  · rcases assign_any hra hea hrb with ⟨c, h2, s1, hasg, _⟩ | ⟨h2, hasg, hkeep, _⟩
    · have hact : act (.assign i j) objs h = .ok (objs.set i c, h2) := by
        simp [act, ha, hb, hij, hasg, at_object]
      rw [hact]
      exact ⟨fun f hf => (by cases hf), fun r hr => (by cases hr)⟩
    · have hact : act (.assign i j) objs h = .threw (objs, h2) := by
        simp [act, ha, hb, hij, hasg, at_object, set_same ha]
      rw [hact]
      refine ⟨fun f hf => (by cases hf), fun r hr => ?_⟩
      cases hr
      refine ⟨rfl, fun k c hc => ?_⟩
      obtain ⟨sc, _, hrc, _⟩ := hS.rep hc
      exact hrc.observe (hrc.frame (fun p hp => hkeep p (hrc.owned_le p hp).2))

/-- C19 with room for six nodes: `a` (capacity 4, holding 7) and `b`
(capacity 3, holding 1, 2) use five of them, the copy of `b` in `a = b` gets
its first node and fails on the next; the assignment throws and `a` still
has capacity 4 and the contents 7. -/
theorem assign_failure_keeps_witness :
    ∃ objs h a b, (exec [.construct 3, .insert 0 1, .insert 0 2, .construct 4, .insert 1 7] []
          (⟨[], some 6⟩ : Heap Nat) = .ok (objs, h) ∧
        objs[1]? = some a ∧ objs[0]? = some b) ∧
      (∃ h1, act (.assign 1 0) objs h = .threw (objs, h1) ∧ max_size a = 4 ∧
        contents a h1 = .ok [7] ∧ contents b h1 = .ok [1, 2]) ∧
      (∀ f, act (.assign 1 0) objs h ≠ .fault f) ∧
      ∀ r, act (.assign 1 0) objs h = .threw r → r.1 = objs ∧
        ∀ (k : Nat) (c : cbuffer), objs[k]? = some c →
          get_size c r.2 = get_size c h ∧ contents c r.2 = contents c h ∧
            ∀ n, index_get c r.2 n = index_get c h n :=
  ⟨_, _, _, _, ⟨rfl, rfl, rfl⟩, ⟨_, rfl, rfl, rfl, rfl⟩,
    assign_failure_keeps [.construct 3, .insert 0 1, .insert 0 2, .construct 4, .insert 1 7]
      ⟨[], some 6⟩ _ _ 1 0 _ _ rfl rfl rfl⟩

/-- C16: when the last statement of a program that returns declares `c` as
the copy `cbuffer(b)` of the object `b` at position `j`, then every sequence
of `insert`, `delete_head`, `clear` and `operator[]` assignments on `c` that
returns leaves `b` with the members it had, so with its `max_size()`, and
with its answers to `get_size()` and every `operator[]` read; and every such
sequence on `b` leaves `c` so. -/
theorem copy_independent (acts : List (Act T)) (j : Nat) (h0 : Heap T) (objs : List cbuffer)
    (h : Heap T) (hreach : exec (acts ++ [.construct_copy j]) [] h0 = .ok (objs, h)) :
    ∃ b c, objs[j]? = some b ∧ objs[objs.length - 1]? = some c ∧ j ≠ objs.length - 1 ∧
      max_size c = max_size b ∧ contents c h = contents b h ∧
      (∀ (calls : List (Call T)) (objs1 : List cbuffer) (h1 : Heap T),
        exec (calls.map (Call.on (objs.length - 1))) objs h = .ok (objs1, h1) →
        objs1[j]? = some b ∧ get_size b h1 = get_size b h ∧ contents b h1 = contents b h ∧
          ∀ n, index_get b h1 n = index_get b h n) ∧
      (∀ (calls : List (Call T)) (objs1 : List cbuffer) (h1 : Heap T),
        exec (calls.map (Call.on j)) objs h = .ok (objs1, h1) →
        objs1[objs.length - 1]? = some c ∧ get_size c h1 = get_size c h ∧
          contents c h1 = contents c h ∧ ∀ n, index_get c h1 n = index_get c h n) := by
  obtain ⟨ss, hS⟩ := reach_sound hreach
  obtain ⟨objs0, h2, hpre, hlast⟩ := exec_append acts [.construct_copy j] hreach
  obtain ⟨ss0, hS0⟩ := reach_sound hpre
  simp only [exec, act] at hlast
  cases hb0 : objs0[j]? with
  | none => rw [hb0] at hlast; cases hlast
  | some b =>
    rw [hb0] at hlast
    dsimp only at hlast
    cases hcopy : copy b h2 with
    | fault f => rw [hcopy] at hlast; cases hlast
    | threw r => rw [hcopy] at hlast; cases hlast
    | ok r =>
      obtain ⟨c, h3⟩ := r
      rw [hcopy] at hlast
      simp only [new_object, Outcome.ok.injEq, Prod.mk.injEq] at hlast
      obtain ⟨e1, e2⟩ := hlast
      subst e1 e2
      have hjlt : j < objs0.length := lookup_lt hb0
      have hlen : (objs0 ++ [c]).length - 1 = objs0.length := by simp
      have hb : (objs0 ++ [c])[j]? = some b := by rw [List.getElem?_append_left hjlt]; exact hb0
      have hc : (objs0 ++ [c])[objs0.length]? = some c := by simp
      obtain ⟨sb, hsb, hrb, _⟩ := hS.rep hb
      obtain ⟨sc, hsc, hrc, _⟩ := hS.rep hc
      obtain ⟨sb0, _, hrb0, _⟩ := hS0.rep hb0
      have hcv : max_size c = max_size b ∧ contents c h3 = contents b h3 := by
        rcases copy_any hrb0 with ⟨c1, h4, s1, hcopy1, hrep1, hv1, hsz1, hkeep, _⟩ |
          ⟨c1, h4, hcopy1, _⟩
        · rw [hcopy] at hcopy1
          cases hcopy1
          have hrb3 : Rep b h3 sb0 :=
            hrb0.frame (fun p hp => hkeep p (hrb0.owned_le p hp).2)
          exact ⟨by simp only [max_size, hsz1],
            by rw [contents_rep hrep1, contents_rep hrb3, hv1]⟩
        · rw [hcopy] at hcopy1
          cases hcopy1
      rw [hlen]
      refine ⟨b, c, hb, hc, by omega, hcv.1, hcv.2, fun calls objs1 h1 hex => ?_,
        fun calls objs1 h1 hex => ?_⟩
      · obtain ⟨ss1, hS1, hkeep⟩ := calls_frame calls objs0.length hS hex
        obtain ⟨g1, g2⟩ := hkeep j b sb (by omega) hb hsb
        exact ⟨g1, (hS1.2.1 j b sb g1 g2).1 |> hrb.observe⟩
      · obtain ⟨ss1, hS1, hkeep⟩ := calls_frame calls j hS hex
        obtain ⟨g1, g2⟩ := hkeep objs0.length c sc (by omega) hc hsc
        exact ⟨g1, (hS1.2.1 objs0.length c sc g1 g2).1 |> hrc.observe⟩

/-- C16 on `test_cbuffer_int`: after `ck(cb)`, the calls `cb.delete_head()`,
`cb[0] = 33`, `cb[3] = 11` leave `ck` with 99, 34, 71, 12, 55, and calls on
`ck` leave `cb` with them. -/
theorem copy_independent_witness :
    ∃ objs h, exec (test_int_program.take 8 ++ [.construct_copy 0]) []
        (Heap.empty : Heap Nat) = .ok (objs, h) ∧
      (∃ objs1 h1 b, exec ([Call.delete_head, .index_set 0 33, .index_set 3 11].map
          (Call.on 0)) objs h = .ok (objs1, h1) ∧ objs1[0]? = some b ∧
        contents b h1 = .ok [33, 71, 12, 11]) ∧
      ∃ b c, objs[0]? = some b ∧ objs[objs.length - 1]? = some c ∧ 0 ≠ objs.length - 1 ∧
        max_size c = max_size b ∧ contents c h = contents b h ∧
        (∀ (calls : List (Call Nat)) (objs1 : List cbuffer) (h1 : Heap Nat),
          exec (calls.map (Call.on (objs.length - 1))) objs h = .ok (objs1, h1) →
          objs1[0]? = some b ∧ get_size b h1 = get_size b h ∧ contents b h1 = contents b h ∧
            ∀ n, index_get b h1 n = index_get b h n) ∧
        (∀ (calls : List (Call Nat)) (objs1 : List cbuffer) (h1 : Heap Nat),
          exec (calls.map (Call.on 0)) objs h = .ok (objs1, h1) →
          objs1[objs.length - 1]? = some c ∧ get_size c h1 = get_size c h ∧
            contents c h1 = contents c h ∧ ∀ n, index_get c h1 n = index_get c h n) :=
  ⟨_, _, rfl, ⟨_, _, _, rfl, rfl, rfl⟩,
    copy_independent (test_int_program.take 8) 0 Heap.empty _ _ rfl⟩

/-! ## Where iterators point -/

theorem iterator.advance_i {h : Heap T} (k : Nat) :
    ∀ {it x : iterator}, iterator.advance h k it = .ok x → index_loop h k it.i = .ok x.i := by
  induction k with
  | zero =>
    intro it x hadv
    simp only [iterator.advance, Except.ok.injEq] at hadv
    rw [hadv]
    rfl
  | succ k ih =>
    intro it x hadv
    simp only [iterator.advance, iterator.incr] at hadv
    simp only [index_loop]
    cases hrd : h.read it.i with
    | error f => rw [hrd] at hadv; cases hadv
    | ok n =>
      rw [hrd] at hadv
      exact ih hadv

theorem const_iterator.const_advance_i {h : Heap T} (k : Nat) :
    ∀ {it x : const_iterator},
      const_iterator.advance h k it = .ok x → index_loop h k it.i = .ok x.i := by
  induction k with
  | zero =>
    intro it x hadv
    simp only [const_iterator.advance, Except.ok.injEq] at hadv
    rw [hadv]
    rfl
  | succ k ih =>
    intro it x hadv
    simp only [const_iterator.advance, const_iterator.incr] at hadv
    simp only [index_loop]
    cases hrd : h.read it.i with
    | error f => rw [hrd] at hadv; cases hadv
    | ok n =>
      rw [hrd] at hadv
      exact ih hadv

/-- The node reached from `_head` in at most `get_size()` steps is null only
in a buffer without elements, and is otherwise a node of the buffer. -/
theorem Rep.position {b : cbuffer} {h : Heap T} {s : Shape T} (hr : Rep b h s) {k a : Nat}
    (hk : k ≤ s.vals.length) (hw : index_loop h k b._head = .ok a) :
    (a = 0 ∨ a ∈ s.ptrs b) ∧ (s.vals ≠ [] → a ≠ 0) := by
  cases s with
  | empty =>
    have hk0 : k = 0 := by simpa [Shape.vals] using hk
    subst hk0
    have h0 : b._head = 0 := hr
    simp only [index_loop, Except.ok.injEq] at hw
    exact ⟨Or.inl (hw.symm.trans h0), fun hne => absurd rfl hne⟩
  | drained js =>
    have hk0 : k = 0 := by simpa [Shape.vals] using hk
    subst hk0
    simp only [index_loop, Except.ok.injEq] at hw
    exact ⟨Or.inr (by simp [Shape.ptrs, ← hw, hr.1]), fun hne => absurd rfl hne⟩
  | filled ns =>
    have hmem : a ∈ Shape.owned b (.filled ns) := by
      simp only [Shape.vals, List.length_map] at hk
      by_cases hlt : k < ns.length
      · rw [index_loop_seg hr.2.1 k hlt] at hw
        simp only [Except.ok.injEq] at hw
        simp only [Shape.owned, List.mem_cons, List.mem_map]
        exact Or.inr ⟨ns[k], List.getElem_mem hlt, hw⟩
      · have hkl : k = ns.length := by omega
        rw [hkl, index_loop_seg_end hr.2.1] at hw
        simp only [Except.ok.injEq] at hw
        simp [Shape.owned, hw]
    exact ⟨Or.inr (Shape.owned_sub_ptrs b _ a hmem),
      fun _ h0 => by have := (hr.owned_le a hmem).1; omega⟩

theorem Rep.iterator_at {b : cbuffer} {h : Heap T} {s : Shape T} (hr : Rep b h s)
    {x : iterator} (hx : b.obtained h x) :
    (x.i = 0 ∨ x.i ∈ s.ptrs b) ∧ (s.vals ≠ [] → x.i ≠ 0) := by
  rcases hx with hx | ⟨n, k, hn, hk, hadv⟩
  · subst hx
    refine ⟨Or.inr (by simp [Shape.ptrs, cbuffer.end_]), fun hne => ?_⟩
    have hs : s ≠ .empty := fun e => hne (by rw [e]; rfl)
    have := (hr.owned_le _ (hr.end_mem hs).1).1
    simp only [cbuffer.end_]
    omega
  · rw [get_size_rep hr] at hn
    simp only [Except.ok.injEq] at hn
    exact hr.position (by omega) (iterator.advance_i k hadv)

theorem Rep.const_iterator_at {b : cbuffer} {h : Heap T} {s : Shape T} (hr : Rep b h s)
    {x : const_iterator} (hx : b.const_obtained h x) :
    (x.i = 0 ∨ x.i ∈ s.ptrs b) ∧ (s.vals ≠ [] → x.i ≠ 0) := by
  rcases hx with hx | ⟨n, k, hn, hk, hadv⟩
  · subst hx
    refine ⟨Or.inr (by simp [Shape.ptrs, cbuffer.cend]), fun hne => ?_⟩
    have hs : s ≠ .empty := fun e => hne (by rw [e]; rfl)
    have := (hr.owned_le _ (hr.end_mem hs).1).1
    simp only [cbuffer.cend]
    omega
  · rw [get_size_rep hr] at hn
    simp only [Except.ok.injEq] at hn
    exact hr.position (by omega) (const_iterator.const_advance_i k hadv)

/-- Two positions in distinct objects of a sound program are equal only when
both are null. -/
theorem Sound.apart {objs : List cbuffer} {h : Heap T} {ss : List (Shape T)}
    (hS : Sound objs h ss) {p q : Nat} {a b : cbuffer} {sa sb : Shape T} (hpq : p ≠ q)
    (ha : objs[p]? = some a) (hsa : ss[p]? = some sa) (hb : objs[q]? = some b)
    (hsb : ss[q]? = some sb) {m n : Nat} (hm : m = 0 ∨ m ∈ sa.ptrs a)
    (hn : n = 0 ∨ n ∈ sb.ptrs b) (he : m = n) : m = 0 ∧ n = 0 := by
  by_cases h0 : m = 0
  · exact ⟨h0, he ▸ h0⟩
  · rcases hm with hm | hm
    · exact absurd hm h0
    · rcases hn with hn | hn
      · exact absurd (he.trans hn) h0
      · exact absurd (he ▸ hn) (hS.2.2 p q a sa b sb hpq ha hsa hb hsb m hm h0)

/-! ## Iterators of distinct buffers -/

/-- C18 fails for two freshly constructed buffers: their `begin()` and
`end()` all hold a null position, and compare equal with `operator==` in
each of the four pairings of `iterator` and `const_iterator`. -/
theorem fresh_iterators_compare_equal :
    exec [Act.construct 3, .construct 5] [] (Heap.empty : Heap Nat) =
        .ok ([cbuffer.new 3, cbuffer.new 5], Heap.empty) ∧
      (cbuffer.new 3).begin.operator_eq (cbuffer.new 5).begin = true ∧
      (cbuffer.new 3).end_.operator_eq (cbuffer.new 5).end_ = true ∧
      (cbuffer.new 3).begin.operator_eq_const (cbuffer.new 5).cend = true ∧
      (cbuffer.new 3).cbegin.operator_eq (cbuffer.new 5).cbegin = true ∧
      (cbuffer.new 3).cend.operator_eq_iterator (cbuffer.new 5).begin = true := by
  decide

/-- C18 (amended): for two distinct objects `a` and `b` of a program that
returns, an iterator obtained from `a` (`a.begin()` incremented at most
`get_size()` times, or `a.end()`) compares equal with `operator==` to one
obtained from `b`, in any of the four pairings of `iterator` and
`const_iterator`, only when both hold a null position; and when `a` holds an
element, none of the four comparisons is true. -/
theorem iterators_of_distinct_buffers (acts : List (Act T)) (h0 : Heap T)
    (objs : List cbuffer) (h : Heap T) (p q : Nat) (a b : cbuffer) (x y : iterator)
    (xc yc : const_iterator) (hreach : exec acts [] h0 = .ok (objs, h)) (hpq : p ≠ q)
    (ha : objs[p]? = some a) (hb : objs[q]? = some b) (hx : a.obtained h x)
    (hy : b.obtained h y) (hxc : a.const_obtained h xc) (hyc : b.const_obtained h yc) :
    (x.operator_eq y = true → x.i = 0 ∧ y.i = 0) ∧
      (x.operator_eq_const yc = true → x.i = 0 ∧ yc.i = 0) ∧
      (xc.operator_eq yc = true → xc.i = 0 ∧ yc.i = 0) ∧
      (xc.operator_eq_iterator y = true → xc.i = 0 ∧ y.i = 0) ∧
      ∀ n, get_size a h = .ok (n + 1) →
        x.operator_eq y = false ∧ x.operator_eq_const yc = false ∧
          xc.operator_eq yc = false ∧ xc.operator_eq_iterator y = false := by
  obtain ⟨ss, hS⟩ := reach_sound hreach
  obtain ⟨sa, hsa, hra, _⟩ := hS.rep ha
  obtain ⟨sb, hsb, hrb, _⟩ := hS.rep hb
  obtain ⟨px, nx⟩ := hra.iterator_at hx
  obtain ⟨py, _⟩ := hrb.iterator_at hy
  obtain ⟨pxc, nxc⟩ := hra.const_iterator_at hxc
  obtain ⟨pyc, _⟩ := hrb.const_iterator_at hyc
  have k1 : x.operator_eq y = true → x.i = 0 ∧ y.i = 0 := fun e =>
    hS.apart hpq ha hsa hb hsb px py (by simpa [iterator.operator_eq] using e)
  have k2 : x.operator_eq_const yc = true → x.i = 0 ∧ yc.i = 0 := fun e =>
    hS.apart hpq ha hsa hb hsb px pyc (by simpa [iterator.operator_eq_const] using e)
  have k3 : xc.operator_eq yc = true → xc.i = 0 ∧ yc.i = 0 := fun e =>
    hS.apart hpq ha hsa hb hsb pxc pyc (by simpa [const_iterator.operator_eq] using e)
  have k4 : xc.operator_eq_iterator y = true → xc.i = 0 ∧ y.i = 0 := fun e =>
    hS.apart hpq ha hsa hb hsb pxc py (by simpa [const_iterator.operator_eq_iterator] using e)
  refine ⟨k1, k2, k3, k4, fun n hn => ?_⟩
  rw [get_size_rep hra] at hn
  simp only [Except.ok.injEq] at hn
  have hne : sa.vals ≠ [] := fun e => by rw [e] at hn; simp at hn
  refine ⟨?_, ?_, ?_, ?_⟩
  · exact Bool.eq_false_iff.mpr (fun e => nx hne (k1 e).1)
  · exact Bool.eq_false_iff.mpr (fun e => nx hne (k2 e).1)
  · exact Bool.eq_false_iff.mpr (fun e => nxc hne (k3 e).1)
  · exact Bool.eq_false_iff.mpr (fun e => nxc hne (k4 e).1)

/-- C18 (amended) on a buffer holding 1, 2 and a fresh one: the position
after `begin()` of the first against `begin()` and `end()` of the second. -/
theorem iterators_of_distinct_buffers_witness :
    ∃ objs h a b x xc, (exec [.construct 3, .insert 0 1, .insert 0 2, .construct 4] []
          (Heap.empty : Heap Nat) = .ok (objs, h) ∧ 0 ≠ 1 ∧
        objs[0]? = some a ∧ objs[1]? = some b ∧ a.obtained h x ∧ b.obtained h b.begin ∧
        a.const_obtained h xc ∧ b.const_obtained h b.cend) ∧
      get_size a h = .ok 2 ∧ iterator.advance h 1 a.begin = .ok x ∧
      (x.operator_eq b.begin = true → x.i = 0 ∧ b.begin.i = 0) ∧
      (x.operator_eq_const b.cend = true → x.i = 0 ∧ b.cend.i = 0) ∧
      (xc.operator_eq b.cend = true → xc.i = 0 ∧ b.cend.i = 0) ∧
      (xc.operator_eq_iterator b.begin = true → xc.i = 0 ∧ b.begin.i = 0) ∧
      ∀ n, get_size a h = .ok (n + 1) →
        x.operator_eq b.begin = false ∧ x.operator_eq_const b.cend = false ∧
          xc.operator_eq b.cend = false ∧ xc.operator_eq_iterator b.begin = false :=
  ⟨_, _, _, _, _, _,
    ⟨rfl, by decide, rfl, rfl, Or.inr ⟨2, 1, rfl, by decide, rfl⟩,
      Or.inr ⟨0, 0, rfl, by decide, rfl⟩, Or.inr ⟨2, 2, rfl, by decide, rfl⟩, Or.inl rfl⟩,
    rfl, rfl,
    iterators_of_distinct_buffers [.construct 3, .insert 0 1, .insert 0 2, .construct 4]
      Heap.empty _ _ 0 1 _ _ _ _ _ _ rfl (by decide) rfl rfl
      (Or.inr ⟨2, 1, rfl, by decide, rfl⟩) (Or.inr ⟨0, 0, rfl, by decide, rfl⟩)
      (Or.inr ⟨2, 2, rfl, by decide, rfl⟩) (Or.inl rfl)⟩

/-! ## Refilling a cleared buffer -/

/-- Inserting the values `vs` into a buffer of capacity two or more that has
no chain (`_head` null, whatever `_end` is), memory not running out: every
call returns, and the buffer then holds the last `min(L, _size)` values. -/
theorem refill (vs : List T) {b : cbuffer} {h : Heap T} (hr : Rep b h .empty)
    (h2 : 2 ≤ b._size) (hav : h.avail = none) :
    ∃ b1 h1, run (vs.map Op.insert) b h = .ok (b1, h1) ∧ b1._size = b._size ∧
      get_size b1 h1 = .ok (min vs.length b._size) ∧
      contents b1 h1 = .ok (vs.drop (vs.length - b._size)) := by
  obtain ⟨b1, h1, s, hrun, hrep, _, hlen, hsz, _⟩ :=
    run_inserts vs hr (fun js => by simp) h2 hav
  obtain ⟨s', hrep', _, _, _, hsuf⟩ := run_rep (vs.map Op.insert) hr hrun
  rw [show (Shape.empty : Shape T).vals.length = 0 from rfl, Nat.zero_add] at hlen
  have hvals : s.vals = vs.drop (vs.length - b._size) := by
    have e : s'.vals = s.vals := by
      have e1 := contents_rep hrep
      have e2 := contents_rep hrep'
      rw [e1] at e2
      exact (Except.ok.inj e2).symm
    rw [inserted_map, e, show (Shape.empty : Shape T).vals = [] from rfl,
      List.nil_append] at hsuf
    have := List.suffix_iff_eq_drop.mp hsuf
    rw [hlen] at this
    rw [this]
    congr 1
    omega
  exact ⟨b1, h1, hrun, hsz, by rw [get_size_rep hrep, hlen], by rw [contents_rep hrep, hvals]⟩

/-- Inserting at most one value into a buffer of capacity one or more that
has no chain, memory not running out: the call returns and the buffer holds
the value. -/
theorem refill_short (vs : List T) {b : cbuffer} {h : Heap T} (hr : Rep b h .empty)
    (h1 : 1 ≤ b._size) (hlen : vs.length ≤ 1) (hav : h.avail = none) :
    ∃ b1 h1, run (vs.map Op.insert) b h = .ok (b1, h1) ∧ b1._size = b._size ∧
      get_size b1 h1 = .ok (min vs.length b._size) ∧
      contents b1 h1 = .ok (vs.drop (vs.length - b._size)) := by
  cases vs with
  | nil =>
    refine ⟨b, h, rfl, rfl, ?_, ?_⟩
    · rw [get_size_rep hr]; simp [Shape.vals]
    · rw [contents_rep hr]; simp [Shape.vals]
  | cons w rest =>
    have hrest : rest = [] := by
      cases rest with
      | nil => rfl
      | cons x xs => simp only [List.length_cons] at hlen; omega
    subst hrest
    obtain ⟨b1, h2, ns1, hins, hrep, hv, hsz, _, _, _⟩ :=
      insert_room w hr (fun js => by simp)
        (by rw [show (Shape.empty : Shape T).vals.length = 0 from rfl]; omega) hav
    rw [show (Shape.empty : Shape T).vals = [] from rfl, List.nil_append] at hv
    refine ⟨b1, h2, by simp [run, step, hins], hsz, ?_, ?_⟩
    · rw [get_size_rep hrep]
      simp only [Shape.vals, hv, List.length_singleton]
      rw [Nat.min_eq_left h1]
    · rw [contents_rep hrep]
      simp only [Shape.vals, hv, List.length_singleton]
      rw [show 1 - b._size = 0 by omega, List.drop_zero]

/-- Inserting two or more values into a buffer of capacity 1 that has no
chain, memory not running out: the second `insert` deletes the head node and
then stores through the pointer to it. -/
theorem refill_one_faults (w1 w2 : T) (rest : List T) {b : cbuffer} {h : Heap T}
    (hr : Rep b h .empty) (h1 : b._size = 1) (hav : h.avail = none) :
    run ((w1 :: w2 :: rest).map Op.insert) b h = .fault .use_after_free := by
  obtain ⟨b1, h2, ns1, hins, hrep, hv, hsz, _, _, hav2⟩ :=
    insert_room w1 hr (fun js => by simp)
      (by rw [show (Shape.empty : Shape T).vals.length = 0 from rfl]; omega) hav
  rw [show (Shape.empty : Shape T).vals = [] from rfl, List.nil_append] at hv
  have hfault : insert w2 b1 h2 = .fault .use_after_free := by
    cases ns1 with
    | nil => simp at hv
    | cons n ns =>
      cases ns with
      | cons m ms => simp at hv
      | nil =>
        exact insert_filled_one hrep (hsz.trans h1) (Heap.alloc_eq h2 ⟨some w2, b1._end⟩ hav2)
  simp [run, step, hins, hfault]

/-! ## Clearing and filling again -/

/-- C21: for every capacity `C` of 1 or more (an `unsigned int`) and every
buffer `b` reached from `cbuffer(C)` by `insert` calls, memory not running
out: `clear()` followed by the inserts of the values `s` does what the
inserts of `s` into a fresh `cbuffer(C)` do.  When `C` is 2 or more, or `s`
has at most one value, both runs return, with the same `max_size()`, the same
`get_size()`, namely `min(L, C)`, and the same contents, namely the last
`min(L, C)` values of `s`.  In the case left, capacity 1 and two or more
values, both runs stop at the second `insert` with the same fault, the store
through the pointer to the deleted head node. -/
theorem clear_then_insert_same (C : Nat) (pre s : List T) (h0 h0' : Heap T) (b : cbuffer)
    (h : Heap T) (hC : 1 ≤ C) (hC32 : C < 2 ^ 32)
    (hpre : run (pre.map Op.insert) (cbuffer.new C) h0 = .ok (b, h)) (hav : h.avail = none)
    (hav' : h0'.avail = none) :
    (2 ≤ C ∨ s.length ≤ 1 → ∃ b1 h1 b2 h2,
        run (.clear :: s.map Op.insert) b h = .ok (b1, h1) ∧
        run (s.map Op.insert) (cbuffer.new C) h0' = .ok (b2, h2) ∧
        max_size b1 = max_size b2 ∧ get_size b1 h1 = get_size b2 h2 ∧
        contents b1 h1 = contents b2 h2 ∧ get_size b2 h2 = .ok (min s.length C) ∧
        contents b2 h2 = .ok (s.drop (s.length - C))) ∧
      (C = 1 → 2 ≤ s.length →
        run (.clear :: s.map Op.insert) b h = .fault .use_after_free ∧
        run (s.map Op.insert) (cbuffer.new C) h0' = .fault .use_after_free) := by
  have hsize : (cbuffer.new C)._size = C := by
    simp only [cbuffer.new]
    exact Nat.mod_eq_of_lt hC32
  obtain ⟨sp, hrep, hsz, _⟩ := reach_rep hpre
  rw [Nat.mod_eq_of_lt hC32] at hsz
  obtain ⟨hc, hclear, _, _, havc⟩ := clear_rep hrep
  have hrc : Rep ({ b with _head := 0 } : cbuffer) hc (.empty : Shape T) := rfl
  have hszc : ({ b with _head := 0 } : cbuffer)._size = C := hsz
  have hcleared : ∀ ops : List (Op T),
      run (.clear :: ops) b h = run ops { b with _head := 0 } hc := by
    intro ops
    simp only [run, step, hclear]
  have hfill : ∀ {c : cbuffer} {g : Heap T}, Rep c g (.empty : Shape T) → c._size = C →
      g.avail = none → (2 ≤ C ∨ s.length ≤ 1) →
      ∃ b1 h1, run (s.map Op.insert) c g = .ok (b1, h1) ∧ b1._size = C ∧
        get_size b1 h1 = .ok (min s.length C) ∧
        contents b1 h1 = .ok (s.drop (s.length - C)) := by
    intro c g hr hcs hg hcase
    rcases hcase with h2 | hs
    · obtain ⟨b1, h1, e1, e2, e3, e4⟩ := refill s hr (by rw [hcs]; exact h2) hg
      rw [hcs] at e2 e3 e4
      exact ⟨b1, h1, e1, e2, e3, e4⟩
    · obtain ⟨b1, h1, e1, e2, e3, e4⟩ := refill_short s hr (by rw [hcs]; exact hC) hs hg
      rw [hcs] at e2 e3 e4
      exact ⟨b1, h1, e1, e2, e3, e4⟩
  refine ⟨fun hcase => ?_, fun hC1 hs => ?_⟩
  · obtain ⟨b1, h1, e1, e2, e3, e4⟩ := hfill hrc hszc (havc.trans hav) hcase
    obtain ⟨b2, h2, f1, f2, f3, f4⟩ := hfill (rep_new C h0') hsize hav' hcase
    exact ⟨b1, h1, b2, h2, (hcleared _).trans e1, f1, by simp only [max_size, e2, f2],
      by rw [e3, f3], by rw [e4, f4], f3, f4⟩
  · match s, hs with
    | w1 :: w2 :: rest, _ =>
      exact ⟨(hcleared _).trans (refill_one_faults w1 w2 rest hrc (hszc.trans hC1)
          (havc.trans hav)),
        refill_one_faults w1 w2 rest (rep_new C h0') (hsize.trans hC1) hav'⟩

/-- C21 on `cb` of `test_cbuffer_int` (capacity 5 holding 99, 34, 71, 12, 55,
cleared and filled with 1 to 6, against a fresh buffer filled with 1 to 6),
and on a buffer of capacity 1 holding 7 with the values 1, 2. -/
theorem clear_then_insert_same_witness :
    (((1 ≤ 5 ∧ 5 < 2 ^ 32 ∧
          run (List.map Op.insert [1, 20, 99, 34, 71, 12, 55]) (cbuffer.new 5)
            (Heap.empty : Heap Nat) = .ok (test_int_cb, test_int_heap) ∧
          test_int_heap.avail = none ∧ (Heap.empty : Heap Nat).avail = none) ∧
        contents test_int_cb test_int_heap = .ok [99, 34, 71, 12, 55]) ∧
      ∃ b1 h1 b2 h2,
        run (.clear :: List.map Op.insert [1, 2, 3, 4, 5, 6]) test_int_cb test_int_heap =
          .ok (b1, h1) ∧
        run (List.map Op.insert [1, 2, 3, 4, 5, 6]) (cbuffer.new 5) (Heap.empty : Heap Nat) =
          .ok (b2, h2) ∧
        max_size b1 = max_size b2 ∧ get_size b1 h1 = get_size b2 h2 ∧
        contents b1 h1 = contents b2 h2 ∧
        get_size b2 h2 = .ok (min (List.length [1, 2, 3, 4, 5, 6]) 5) ∧
        contents b2 h2 = .ok (List.drop (List.length [1, 2, 3, 4, 5, 6] - 5)
          [1, 2, 3, 4, 5, 6])) ∧
    ∃ b h, (1 ≤ 1 ∧ 1 < 2 ^ 32 ∧
        run (List.map Op.insert [7]) (cbuffer.new 1) (Heap.empty : Heap Nat) = .ok (b, h) ∧
        h.avail = none ∧ (Heap.empty : Heap Nat).avail = none) ∧
      run (.clear :: List.map Op.insert [1, 2]) b h = .fault .use_after_free ∧
      run (List.map Op.insert [1, 2]) (cbuffer.new 1) (Heap.empty : Heap Nat) =
        .fault .use_after_free :=
  ⟨⟨⟨⟨by decide, by decide, rfl, rfl, rfl⟩, rfl⟩,
      (clear_then_insert_same 5 ([1, 20, 99, 34, 71, 12, 55] : List Nat) [1, 2, 3, 4, 5, 6]
        Heap.empty Heap.empty test_int_cb test_int_heap (by decide) (by decide) rfl rfl rfl).1
        (Or.inl (by decide))⟩,
    ⟨_, _, ⟨by decide, by decide, rfl, rfl, rfl⟩,
      (clear_then_insert_same 1 ([7] : List Nat) [1, 2] Heap.empty Heap.empty _ _ (by decide) (by decide)
        rfl rfl rfl).2 rfl (by decide)⟩⟩

/-! ## `clear` on a buffer emptied by `delete_head` -/

/-- C13: the claim fails on the code.  After `insert(v)`, `delete_head()` a
buffer of capacity 2 is empty (`get_size()` is 0) with `_head` on the dummy
node: `begin()` equals `end()`, a traversal visits nothing, and an
`insert(w)` leaves `get_size()` at 0.  `clear()` on it returns, frees nothing
and keeps `get_size()` at 0 and `max_size()` at 2, but it is no no-op: it sets
`_head` to null, after which `begin()` differs from `end()`, the same
traversal dereferences the null pointer, and `insert(w)` leaves the buffer
holding `w`. -/
theorem clear_on_drained_is_not_a_no_op (v w : T) :
    ∃ b h, run [.insert v, .delete_head] (cbuffer.new 2) Heap.empty = .ok (b, h) ∧
      get_size b h = .ok 0 ∧ max_size b = 2 ∧ b._head = 2 ∧ b._end = 2 ∧
      b.begin.operator_eq b.end_ = true ∧ traverse b h = .ok [] ∧
      const_traverse b h = .ok [] ∧
      (∃ b2 h2, run [.insert w] b h = .ok (b2, h2) ∧ get_size b2 h2 = .ok 0) ∧
      ∃ b1, clear b h = .ok (b1, h) ∧ get_size b1 h = .ok 0 ∧ max_size b1 = 2 ∧
        b1._head = 0 ∧ b1._end = 2 ∧ b1 ≠ b ∧
        b1.begin.operator_eq b1.end_ = false ∧ traverse b1 h = .error .null_deref ∧
        const_traverse b1 h = .error .null_deref ∧
        ∃ b3 h3, run [.insert w] b1 h = .ok (b3, h3) ∧ get_size b3 h3 = .ok 1 ∧
          contents b3 h3 = .ok [w] :=
  ⟨_, _, rfl, rfl, rfl, rfl, rfl, rfl, rfl, rfl, ⟨_, _, rfl, rfl⟩,
    ⟨_, rfl, rfl, rfl, rfl, rfl,
      (fun e => (show (0 : Nat) ≠ 2 by decide) (congrArg cbuffer._head e)), rfl, rfl, rfl, ⟨_, _, rfl, rfl, rfl⟩⟩⟩

end CBuffer
